import Mathlib

/-!
# project-GROS: lexer, parser and reference-counting allocator

A shallow embedding of `lexer/lexer.go`, `parser/parser.go` and `rust_gc/rust-gc.go`.

* A Go `string` is a finite sequence of bytes; it is modelled as `List (Fin 256)`.
* A Go `rune` is modelled as a natural number (the code point).
* Go `for` loops are modelled by recursion on a fuel argument; a loop that runs out of
  fuel returns `none`, so `= some _` always means that the loop left through one of its
  exits.  `Tokenize` supplies `len(input) + 1` units of fuel, and the theorems show that
  this is always enough.
* `utf8.DecodeRuneInString`, `unicode.IsSpace` and `unicode.IsLetter` belong to the Go
  standard library.  The first two are modelled in full; `unicode.IsLetter` is modelled in
  full on Latin-1 and takes the letter table for the code points above U+00FF as a
  parameter `L`.
-/

namespace lexer

/-- One byte of a Go string. -/
abbrev Byte := Fin 256

/-- Go `string`: a sequence of bytes. -/
abbrev GoString := List Byte

/-- Go `rune`: a code point. -/
abbrev Rune := Nat

/-- Bytes of a text written with ASCII characters only (for such text, its UTF-8 encoding). -/
def ascii (s : String) : GoString := s.data.map (fun ch => Fin.ofNat ch.toNat)

/-- Go slice expression `s[lo:hi]`. -/
def slice (s : GoString) (lo hi : Nat) : GoString := (s.take hi).drop lo

/-! ## `unicode/utf8` -/

namespace utf8

/-- The constant `utf8.RuneError`, U+FFFD. -/
def RuneError : Rune := 0xFFFD

/-- The table `first` of `unicode/utf8`: information about the first byte of an encoding.
`0xF0` is ASCII, `0xF1` is invalid; otherwise the low three bits are the size and the high
four bits index `acceptRanges`. -/
def first (s0 : Nat) : Nat :=
  if s0 < 0x80 then 0xF0
  else if s0 < 0xC2 then 0xF1
  else if s0 < 0xE0 then 0x02
  else if s0 = 0xE0 then 0x13
  else if s0 < 0xED then 0x03
  else if s0 = 0xED then 0x23
  else if s0 < 0xF0 then 0x03
  else if s0 = 0xF0 then 0x34
  else if s0 < 0xF4 then 0x04
  else if s0 = 0xF4 then 0x44
  else 0xF1

/-- The table `acceptRanges` of `unicode/utf8`: the range of valid second bytes. -/
def acceptRanges (i : Nat) : Nat × Nat :=
  if i = 0 then (0x80, 0xBF)
  else if i = 1 then (0xA0, 0xBF)
  else if i = 2 then (0x80, 0x9F)
  else if i = 3 then (0x90, 0xBF)
  else if i = 4 then (0x80, 0x8F)
  else (0, 0)

/-- The function `utf8.DecodeRuneInString`: the first rune of `s` and its width in bytes.
An empty string gives `(RuneError, 0)`, an invalid encoding `(RuneError, 1)`.  The masks
`s0 & 0x1F`, `s1 & 0x3F` are written `% 32`, `% 64`, the shifts as multiplications, and the
bitwise or of disjoint bit fields as a sum. -/
def DecodeRuneInString (s : GoString) : Rune × Nat :=
  match s with
  | [] => (RuneError, 0)
  | s0 :: t =>
    let x := first s0.val
    if x ≥ 0xF0 then
      (if x = 0xF0 then s0.val else RuneError, 1)
    else
      let sz := x % 8
      let accept := acceptRanges (x / 16)
      if s.length < sz then (RuneError, 1)
      else
        match t with
        | [] => (RuneError, 1)
        | s1 :: t1 =>
          if s1.val < accept.1 ∨ accept.2 < s1.val then (RuneError, 1)
          else if sz ≤ 2 then ((s0.val % 32) * 64 + s1.val % 64, 2)
          else
            match t1 with
            | [] => (RuneError, 1)
            | s2 :: t2 =>
              if s2.val < 0x80 ∨ 0xBF < s2.val then (RuneError, 1)
              else if sz ≤ 3 then
                ((s0.val % 16) * 4096 + (s1.val % 64) * 64 + s2.val % 64, 3)
              else
                match t2 with
                | [] => (RuneError, 1)
                | s3 :: _ =>
                  if s3.val < 0x80 ∨ 0xBF < s3.val then (RuneError, 1)
                  else
                    ((s0.val % 8) * 262144 + (s1.val % 64) * 4096 + (s2.val % 64) * 64
                      + s3.val % 64, 4)

end utf8

/-! ## `unicode` -/

namespace unicode

/-- The function `unicode.IsSpace`: the Latin-1 white space characters, and above Latin-1 the
`White_Space` property. -/
def IsSpace (r : Rune) : Bool :=
  if r ≤ 0xFF then
    r = 9 ∨ r = 10 ∨ r = 11 ∨ r = 12 ∨ r = 13 ∨ r = 32 ∨ r = 0x85 ∨ r = 0xA0
  else
    r = 0x1680 ∨ (0x2000 ≤ r ∧ r ≤ 0x200A) ∨ r = 0x2028 ∨ r = 0x2029 ∨ r = 0x202F
      ∨ r = 0x205F ∨ r = 0x3000

/-- The function `unicode.IsLetter`: on Latin-1 the letters are `A`-`Z`, `a`-`z`, U+00AA,
U+00B5, U+00BA and U+00C0-U+00FF without U+00D7 and U+00F7; above Latin-1 the category L,
given by the table `L`. -/
def IsLetter (L : Rune → Bool) (r : Rune) : Bool :=
  if r ≤ 0xFF then
    (0x41 ≤ r ∧ r ≤ 0x5A) ∨ (0x61 ≤ r ∧ r ≤ 0x7A) ∨ r = 0xAA ∨ r = 0xB5 ∨ r = 0xBA
      ∨ (0xC0 ≤ r ∧ r ≠ 0xD7 ∧ r ≠ 0xF7)
  else L r

end unicode

/-! ## Tokens -/

/-- The type `TokenKind`: common lexeme types. -/
inductive TokenKind where
  | LineComment
  | BlockComment
  | Whitespace
  | Ident
  | InvalidIdent
  | RawIdent
  | UnknownPrefix
  | UnknownPrefixLifetime
  | RawLifetime
  | GuardedStrPrefix
  | Literal
  | Lifetime
  | Semi
  | Comma
  | Dot
  | OpenParen
  | CloseParen
  | OpenBrace
  | CloseBrace
  | OpenBracket
  | CloseBracket
  | At
  | Pound
  | Tilde
  | Question
  | Colon
  | Dollar
  | Eq
  | Bang
  | Lt
  | Gt
  | Minus
  | And
  | Or
  | Plus
  | Star
  | Slash
  | Caret
  | Percent
  | Unknown
  | Eof
  deriving DecidableEq, Repr

/-- The type `Token`: a parsed token. -/
structure Token where
  Kind : TokenKind
  Len : Int
  Literal : GoString
  deriving DecidableEq, Repr

/-- The type `Cursor`: the input and the byte offset of the next rune. -/
structure Cursor where
  input : GoString
  pos : Nat
  deriving DecidableEq, Repr

/-- The function `NewCursor`. -/
def NewCursor (input : GoString) : Cursor := { input := input, pos := 0 }

namespace Cursor

/-- The method `Cursor.Bump`: advance the cursor and return the next character. -/
def Bump (c : Cursor) : (Rune × Bool) × Cursor :=
  if c.pos ≥ c.input.length then ((0, false), c)
  else
    let d := utf8.DecodeRuneInString (c.input.drop c.pos)
    ((d.1, true), { c with pos := c.pos + d.2 })

/-- The method `Cursor.First`: the next character, without advancing. -/
def First (c : Cursor) : Rune × Bool :=
  if c.pos ≥ c.input.length then (0, false)
  else ((utf8.DecodeRuneInString (c.input.drop c.pos)).1, true)

/-- The method `Cursor.LineComment`. -/
def LineComment : Nat → Cursor → Option (TokenKind × Cursor)
  | 0, _ => none
  | fuel + 1, c =>
    let b := c.Bump
    if !b.1.2 || b.1.1 = 10 then some (TokenKind.LineComment, b.2)
    else LineComment fuel b.2

/-- The loop of `Cursor.BlockComment`, started with the given `depth`. -/
def BlockCommentLoop : Nat → Int → Cursor → Option Cursor
  | 0, _, _ => none
  | fuel + 1, depth, c =>
    if depth > 0 then
      let b := c.Bump
      if !b.1.2 then some b.2
      else if b.1.1 = 42 then
        let n := b.2.First
        if n.2 && n.1 = 47 then BlockCommentLoop fuel (depth - 1) b.2.Bump.2
        else BlockCommentLoop fuel depth b.2
      else if b.1.1 = 47 then
        let n := b.2.First
        if n.2 && n.1 = 42 then BlockCommentLoop fuel (depth + 1) b.2.Bump.2
        else BlockCommentLoop fuel depth b.2
      else BlockCommentLoop fuel depth b.2
    else some c

/-- The method `Cursor.BlockComment`. -/
def BlockComment (fuel : Nat) (c : Cursor) : Option (TokenKind × Cursor) :=
  (BlockCommentLoop fuel 1 c).map (fun c1 => (TokenKind.BlockComment, c1))

/-- The method `Cursor.Whitespace`. -/
def Whitespace : Nat → Cursor → Option (TokenKind × Cursor)
  | 0, _ => none
  | fuel + 1, c =>
    let n := c.First
    if !n.2 || !unicode.IsSpace n.1 then some (TokenKind.Whitespace, c)
    else Whitespace fuel c.Bump.2

/-- The loop of `Cursor.RawIdent`. -/
def RawIdentLoop (L : Rune → Bool) : Nat → Cursor → Option (TokenKind × Cursor)
  | 0, _ => none
  | fuel + 1, c =>
    let n := c.First
    if !n.2 || !unicode.IsLetter L n.1 then some (TokenKind.RawIdent, c)
    else RawIdentLoop L fuel c.Bump.2

/-- The method `Cursor.RawIdent`. -/
def RawIdent (L : Rune → Bool) (fuel : Nat) (c : Cursor) : Option (TokenKind × Cursor) :=
  RawIdentLoop L fuel c.Bump.2

/-- The method `Cursor.IdentOrUnknownPrefix`. -/
def IdentOrUnknownPrefix (L : Rune → Bool) : Nat → Cursor → Option (TokenKind × Cursor)
  | 0, _ => none
  | fuel + 1, c =>
    let n := c.First
    if !n.2 || !unicode.IsLetter L n.1 then some (TokenKind.Ident, c)
    else IdentOrUnknownPrefix L fuel c.Bump.2

/-- The method `Cursor.COrByteString`. -/
def COrByteString (c : Cursor) : TokenKind × Cursor := (TokenKind.Unknown, c)

/-- The method `Cursor.Number`. -/
def Number (c : Cursor) (_firstChar : Rune) : TokenKind × Cursor := (TokenKind.Literal, c)

/-- The method `Cursor.LifetimeOrChar`. -/
def LifetimeOrChar (c : Cursor) : TokenKind × Cursor := (TokenKind.Literal, c)

/-- The method `Cursor.DoubleQuotedString`. -/
def DoubleQuotedString : Nat → Cursor → Option (TokenKind × Cursor)
  | 0, _ => none
  | fuel + 1, c =>
    let b := c.Bump
    if !b.1.2 || b.1.1 = 34 then some (TokenKind.Literal, b.2)
    else if b.1.1 = 92 then DoubleQuotedString fuel b.2.Bump.2
    else DoubleQuotedString fuel b.2

/-- The `switch firstChar` of `Cursor.AdvanceToken`: the kind of the token that starts with
`firstChar`, and the cursor after the token; `c` is the cursor after `firstChar`. -/
def switchFirstChar (L : Rune → Bool) (fuel : Nat) (firstChar : Rune) (c : Cursor) :
    Option (TokenKind × Cursor) :=
  if firstChar = 47 then
    let n := c.First
    if n.2 && n.1 = 47 then c.LineComment fuel
    else if n.1 = 42 then c.BlockComment fuel
    else some (TokenKind.Slash, c)
  else if firstChar = 32 ∨ firstChar = 9 ∨ firstChar = 10 ∨ firstChar = 13 then
    c.Whitespace fuel
  else if firstChar = 114 then
    let n := c.First
    if n.2 && n.1 = 35 then c.RawIdent L fuel
    else c.IdentOrUnknownPrefix L fuel
  else if firstChar = 98 then some c.COrByteString
  else if firstChar = 99 then some c.COrByteString
  else if 48 ≤ firstChar ∧ firstChar ≤ 57 then some (c.Number firstChar)
  else if firstChar = 59 then some (TokenKind.Semi, c)
  else if firstChar = 44 then some (TokenKind.Comma, c)
  else if firstChar = 46 then some (TokenKind.Dot, c)
  else if firstChar = 40 then some (TokenKind.OpenParen, c)
  else if firstChar = 41 then some (TokenKind.CloseParen, c)
  else if firstChar = 123 then some (TokenKind.OpenBrace, c)
  else if firstChar = 125 then some (TokenKind.CloseBrace, c)
  else if firstChar = 91 then some (TokenKind.OpenBracket, c)
  else if firstChar = 93 then some (TokenKind.CloseBracket, c)
  else if firstChar = 64 then some (TokenKind.At, c)
  else if firstChar = 35 then some (TokenKind.Pound, c)
  else if firstChar = 126 then some (TokenKind.Tilde, c)
  else if firstChar = 63 then some (TokenKind.Question, c)
  else if firstChar = 58 then some (TokenKind.Colon, c)
  else if firstChar = 36 then some (TokenKind.Dollar, c)
  else if firstChar = 61 then some (TokenKind.Eq, c)
  else if firstChar = 33 then some (TokenKind.Bang, c)
  else if firstChar = 60 then some (TokenKind.Lt, c)
  else if firstChar = 62 then some (TokenKind.Gt, c)
  else if firstChar = 45 then some (TokenKind.Minus, c)
  else if firstChar = 38 then some (TokenKind.And, c)
  else if firstChar = 124 then some (TokenKind.Or, c)
  else if firstChar = 43 then some (TokenKind.Plus, c)
  else if firstChar = 42 then some (TokenKind.Star, c)
  else if firstChar = 94 then some (TokenKind.Caret, c)
  else if firstChar = 37 then some (TokenKind.Percent, c)
  else if firstChar = 39 then some c.LifetimeOrChar
  else if firstChar = 34 then c.DoubleQuotedString fuel
  else if unicode.IsLetter L firstChar ∨ firstChar = 95 then c.IdentOrUnknownPrefix L fuel
  else some (TokenKind.Unknown, c)

/-- The method `Cursor.AdvanceToken`: the next token and the cursor after it. -/
def AdvanceToken (L : Rune → Bool) (fuel : Nat) (c : Cursor) : Option (Token × Cursor) :=
  let startPos := c.pos
  let b := c.Bump
  if !b.1.2 then some ({ Kind := TokenKind.Eof, Len := 0, Literal := [] }, b.2)
  else
    match switchFirstChar L fuel b.1.1 b.2 with
    | none => none
    | some (tokenKind, c1) =>
      some ({ Kind := tokenKind, Len := (c1.pos : Int) - (startPos : Int),
              Literal := slice c1.input startPos c1.pos }, c1)

/-- The cursor `c1` is `c` moved forward inside the same input. -/
def Le (c c1 : Cursor) : Prop :=
  c1.input = c.input ∧ c.pos ≤ c1.pos ∧ c1.pos ≤ c.input.length

/-- The result `r` of reading a token from the cursor `c` on is a kind other than `Eof` and
a cursor that is not behind `c`. -/
def Good (c : Cursor) (r : Option (TokenKind × Cursor)) : Prop :=
  ∃ k c1, r = some (k, c1) ∧ k ≠ TokenKind.Eof ∧ Le c c1

/-- Whatever `a` returns, `b` returns as well. -/
def Mono {β : Type} (a b : Option β) : Prop := ∀ r, a = some r → b = some r

end Cursor

/-- The loop of `Tokenize`: `n` bounds the number of tokens still to be read, `fuel` is
handed to every call of `AdvanceToken`. -/
def TokenizeLoop (L : Rune → Bool) (fuel : Nat) : Nat → Cursor → List Token → Option (List Token)
  | 0, _, _ => none
  | n + 1, cursor, tokens =>
    match cursor.AdvanceToken L fuel with
    | none => none
    | some (token, cursor1) =>
      if token.Kind = TokenKind.Eof then some tokens
      else TokenizeLoop L fuel n cursor1 (tokens ++ [token])

/-- The function `Tokenize`, with the fuel as an argument. -/
def TokenizeFuel (L : Rune → Bool) (fuel : Nat) (input : GoString) : Option (List Token) :=
  TokenizeLoop L fuel fuel (NewCursor input) []

/-- The function `Tokenize`: the tokens of `input`; `none` would mean that one of the loops
did not finish within `len(input) + 1` iterations. -/
def Tokenize (L : Rune → Bool) (input : GoString) : Option (List Token) :=
  TokenizeFuel L (input.length + 1) input

/-- The single-character symbols with the kind that the specification gives to each:
`;` `,` `.` `(` `)` `{` `}` `[` `]` `@` `#` `~` `?` `:` `$` `=` `!` `<` `>` `-` `&` `|` `+`
`*` `/` `^` `%`, as bytes. -/
def symbolKinds : List (Byte × TokenKind) :=
  [(59, TokenKind.Semi), (44, TokenKind.Comma), (46, TokenKind.Dot),
   (40, TokenKind.OpenParen), (41, TokenKind.CloseParen), (123, TokenKind.OpenBrace),
   (125, TokenKind.CloseBrace), (91, TokenKind.OpenBracket), (93, TokenKind.CloseBracket),
   (64, TokenKind.At), (35, TokenKind.Pound), (126, TokenKind.Tilde),
   (63, TokenKind.Question), (58, TokenKind.Colon), (36, TokenKind.Dollar),
   (61, TokenKind.Eq), (33, TokenKind.Bang), (60, TokenKind.Lt), (62, TokenKind.Gt),
   (45, TokenKind.Minus), (38, TokenKind.And), (124, TokenKind.Or), (43, TokenKind.Plus),
   (42, TokenKind.Star), (47, TokenKind.Slash), (94, TokenKind.Caret),
   (37, TokenKind.Percent)]

/-- A letter table with no letter above Latin-1; it is used where a concrete table is needed
and the input is ASCII, so that the table is never consulted. -/
def noLetterAboveLatin1 : Rune → Bool := fun _ => false

end lexer

/-! ## The parser -/

namespace parser

open lexer

/-- The type `Node` (`any` in the source): a syntax tree node of one of the struct types
`Function`, `Variable`, `Expression`, `Literal`. -/
inductive Node where
  | Function (Name : GoString) (Parameters : List GoString) (Body : List Node)
  | Variable (Name : GoString) (Value : Node)
  | Expression (Left : Node) (Operator : GoString) (Right : Node)
  | Literal (Value : GoString)

/-- The type `Program`. -/
structure Program where
  Statements : List Node

/-- An `error` made by `fmt.Errorf(format, token)`: the format text and its argument. -/
structure Error where
  format : String
  arg : Token
  deriving DecidableEq

/-- The call `fmt.Errorf(format, token)`. -/
def Errorf (format : String) (arg : Token) : Error := { format := format, arg := arg }

/-- What a call of a parser method does: it returns a value and a nil error, or it returns
nil and an error, or it panics (index out of range in `currentToken`). -/
inductive Result (α : Type) where
  | ok (v : α)
  | error (e : Error)
  | panic

/-- The type `Parser`. -/
structure Parser where
  tokens : List Token
  pos : Nat

/-- The function `NewParser`. -/
def NewParser (tokens : List Token) : Parser := { tokens := tokens, pos := 0 }

namespace Parser

/-- The method `Parser.currentToken`: `p.tokens[p.pos]`; `none` is the index being out of
range, on which the Go run time panics. -/
def currentToken (p : Parser) : Option Token := p.tokens[p.pos]?

/-- The method `Parser.nextToken`. -/
def nextToken (p : Parser) : Parser := { p with pos := p.pos + 1 }

/-- The first loop of `Parser.parseFunction`, which reads the parameters. -/
def parametersLoop : Nat → Parser → List GoString → Option (Result (List GoString × Parser))
  | 0, _, _ => none
  | fuel + 1, p, parameters =>
    match p.currentToken with
    | none => some Result.panic
    | some t =>
      if t.Kind = TokenKind.CloseParen then some (Result.ok (parameters, p))
      else if t.Kind ≠ TokenKind.Ident then
        some (Result.error (Errorf "expected identifier, got %v" t))
      else
        match p.nextToken.currentToken with
        | none => some Result.panic
        | some t1 =>
          if t1.Kind = TokenKind.Comma then
            parametersLoop fuel p.nextToken.nextToken (parameters ++ [t.Literal])
          else parametersLoop fuel p.nextToken (parameters ++ [t.Literal])

mutual

/-- The method `Parser.parseStatement`. -/
def parseStatement : Nat → Parser → Option (Result (Node × Parser))
  | 0, _ => none
  | fuel + 1, p =>
    match p.currentToken with
    | none => some Result.panic
    | some token =>
      if token.Kind = TokenKind.Ident then parseFunction fuel p
      else some (Result.error (Errorf "unexpected token: %v" token))

/-- The method `Parser.parseFunction`. -/
def parseFunction : Nat → Parser → Option (Result (Node × Parser))
  | 0, _ => none
  | fuel + 1, p =>
    match p.currentToken with
    | none => some Result.panic
    | some t0 =>
      match p.nextToken.currentToken with
      | none => some Result.panic
      | some t1 =>
        if t1.Kind ≠ TokenKind.OpenParen then
          some (Result.error (Errorf "expected '(', got %v" t1))
        else
          match parametersLoop fuel p.nextToken.nextToken [] with
          | none => none
          | some Result.panic => some Result.panic
          | some (Result.error e) => some (Result.error e)
          | some (Result.ok (parameters, p1)) =>
            match p1.nextToken.currentToken with
            | none => some Result.panic
            | some t2 =>
              if t2.Kind ≠ TokenKind.OpenBrace then
                some (Result.error (Errorf "expected '\x7b', got %v" t2))
              else
                match bodyLoop fuel p1.nextToken.nextToken [] with
                | none => none
                | some Result.panic => some Result.panic
                | some (Result.error e) => some (Result.error e)
                | some (Result.ok (body, p2)) =>
                  some (Result.ok (Node.Function t0.Literal parameters body, p2.nextToken))

/-- The second loop of `Parser.parseFunction`, which reads the body. -/
def bodyLoop : Nat → Parser → List Node → Option (Result (List Node × Parser))
  | 0, _, _ => none
  | fuel + 1, p, body =>
    match p.currentToken with
    | none => some Result.panic
    | some t =>
      if t.Kind = TokenKind.CloseBrace then some (Result.ok (body, p))
      else
        match parseStatement fuel p with
        | none => none
        | some Result.panic => some Result.panic
        | some (Result.error e) => some (Result.error e)
        | some (Result.ok (stmt, p1)) => bodyLoop fuel p1 (body ++ [stmt])

end

/-- The loop of `Parser.Parse`: `n` bounds the number of statements still to be read, `fuel`
is handed to every call of `parseStatement`. -/
def ParseLoop (fuel : Nat) : Nat → Parser → List Node → Option (Result Program)
  | 0, _, _ => none
  | n + 1, p, statements =>
    if p.pos < p.tokens.length then
      match parseStatement fuel p with
      | none => none
      | some Result.panic => some Result.panic
      | some (Result.error e) => some (Result.error e)
      | some (Result.ok (stmt, p1)) => ParseLoop fuel n p1 (statements ++ [stmt])
    else some (Result.ok { Statements := statements })

end Parser

/-- The method `Parser.Parse` on `NewParser(tokens)`, with the fuel as an argument. -/
def ParseFuel (fuel : Nat) (tokens : List Token) : Option (Result Program) :=
  Parser.ParseLoop fuel fuel (NewParser tokens) []

/-- The method `Parser.Parse` on `NewParser(tokens)`; `none` would mean that one of the
loops or the recursion did not finish within `len(tokens) + 1` steps. -/
def Parse (tokens : List Token) : Option (Result Program) :=
  ParseFuel (tokens.length + 1) tokens

end parser

/-! ## The reference-counting allocator (`rust_gc/rust-gc.go`) -/

namespace rust_gc

/-- A pointer `*Object`: the identity of an allocated object. -/
abbrev Ptr := Nat

/-- The type `Gc`: the table `objects map[*Object]int` (`none`: the key is absent).  The
mutex is left out: the calls are taken one after the other. -/
structure Gc where
  objects : Ptr → Option Int

/-- The function `NewGc`: the empty table. -/
def NewGc : Gc := { objects := fun _ => none }

namespace Gc

/-- The method `Gc.Allocate`; `obj` is the pointer to the new object, which the run time
chooses (no freshness is assumed of it). -/
def Allocate (gc : Gc) (obj : Ptr) : Gc :=
  { objects := fun o => if o = obj then some 1 else gc.objects o }

/-- The method `Gc.AddRef`. -/
def AddRef (gc : Gc) (obj : Ptr) : Gc :=
  match gc.objects obj with
  | some count => { objects := fun o => if o = obj then some (count + 1) else gc.objects o }
  | none => gc

/-- The method `Gc.Release`. -/
def Release (gc : Gc) (obj : Ptr) : Gc :=
  match gc.objects obj with
  | some count =>
    if count > 1 then { objects := fun o => if o = obj then some (count - 1) else gc.objects o }
    else { objects := fun o => if o = obj then none else gc.objects o }
  | none => gc

/-- The method `Gc.Collect`: every entry whose count is 0 is deleted. -/
def Collect (gc : Gc) : Gc :=
  { objects := fun o =>
      match gc.objects o with
      | some count => if count = 0 then none else some count
      | none => none }

end Gc

/-- The states of a `Gc` that are reached from `NewGc` by a sequence of calls of `Allocate`,
`AddRef`, `Release` and `Collect`. -/
inductive Reachable : Gc → Prop where
  | newGc : Reachable NewGc
  | allocate (gc : Gc) (obj : Ptr) : Reachable gc → Reachable (gc.Allocate obj)
  | addRef (gc : Gc) (obj : Ptr) : Reachable gc → Reachable (gc.AddRef obj)
  | release (gc : Gc) (obj : Ptr) : Reachable gc → Reachable (gc.Release obj)
  | collect (gc : Gc) : Reachable gc → Reachable gc.Collect

end rust_gc

namespace parser

open lexer

/-- The tokens that the parser has not passed yet: `p.tokens[p.pos:]`. -/
def Parser.rest (p : Parser) : List Token := p.tokens.drop p.pos

/-- The kinds `Whitespace`, `LineComment` and `BlockComment`. -/
def Trivia (k : TokenKind) : Prop :=
  k = TokenKind.Whitespace ∨ k = TokenKind.LineComment ∨ k = TokenKind.BlockComment

/-- A token of kind `Whitespace`, `LineComment` or `BlockComment` lies ahead of the
parser. -/
def Parser.Blocked (p : Parser) : Prop := ∃ t ∈ p.rest, Trivia t.Kind

end parser

namespace parser

open lexer

/-- The sequences of kinds `(Comma Ident)*`. -/
inductive CommaIdents : List TokenKind → Prop where
  | nil : CommaIdents []
  | cons {ks : List TokenKind} :
      CommaIdents ks → CommaIdents (TokenKind.Comma :: TokenKind.Ident :: ks)

/-- The parameter lists of the grammar of the specification: `(Ident (Comma Ident)*)?`. -/
inductive GrammarParams : List TokenKind → Prop where
  | empty : GrammarParams []
  | idents {ks : List TokenKind} : CommaIdents ks → GrammarParams (TokenKind.Ident :: ks)

/-- The parameter lists that the loop of `parseFunction` reads: `(Ident Comma?)*`, each
identifier followed by a comma or not. -/
inductive OptCommaParams : List TokenKind → Prop where
  | nil : OptCommaParams []
  | ident {ks : List TokenKind} : OptCommaParams ks → OptCommaParams (TokenKind.Ident :: ks)
  | identComma {ks : List TokenKind} :
      OptCommaParams ks → OptCommaParams (TokenKind.Ident :: TokenKind.Comma :: ks)

mutual

/-- The rule `function := Ident OpenParen params CloseParen OpenBrace function* CloseBrace`,
for the parameter lists `P`. -/
inductive DerivFunction (P : List TokenKind → Prop) : List TokenKind → Prop where
  | mk {ps body : List TokenKind} : P ps → DerivFunctions P body →
      DerivFunction P (TokenKind.Ident :: TokenKind.OpenParen ::
        (ps ++ TokenKind.CloseParen :: TokenKind.OpenBrace :: (body ++ [TokenKind.CloseBrace])))

/-- The rule `program := function*`, for the parameter lists `P`. -/
inductive DerivFunctions (P : List TokenKind → Prop) : List TokenKind → Prop where
  | nil : DerivFunctions P []
  | cons {f fs : List TokenKind} :
      DerivFunction P f → DerivFunctions P fs → DerivFunctions P (f ++ fs)

end

/-- The kinds of the tokens that the parser has not passed yet. -/
def Parser.restKinds (p : Parser) : List TokenKind := p.rest.map Token.Kind

end parser

namespace parser

open lexer

/-- The syntax trees of the claim: `Function` nodes whose bodies are again such trees. -/
inductive FunctionTree : Node → Prop where
  | mk (Name : GoString) (Parameters : List GoString) (Body : List Node) :
      (∀ n ∈ Body, FunctionTree n) → FunctionTree (Node.Function Name Parameters Body)

/-- An `Ident` token with the given text. -/
def identToken (name : GoString) : Token :=
  { Kind := TokenKind.Ident, Len := name.length, Literal := name }

/-- The token of a single-character symbol. -/
def symbolToken (k : TokenKind) (b : Byte) : Token := { Kind := k, Len := 1, Literal := [b] }

/-- The parameters as `Ident` tokens separated by single `Comma` tokens. -/
def renderParameters : List GoString → List Token
  | [] => []
  | [a] => [identToken a]
  | a :: b :: r => identToken a :: symbolToken TokenKind.Comma 44 :: renderParameters (b :: r)

mutual

/-- The tokens that render a tree by the grammar: the name, `(`, the parameters, `)`, `{`,
the rendered body, `}`. -/
def render : Node → List Token
  | Node.Function name parameters body =>
    identToken name :: symbolToken TokenKind.OpenParen 40 ::
      (renderParameters parameters ++
        symbolToken TokenKind.CloseParen 41 :: symbolToken TokenKind.OpenBrace 123 ::
          (renderList body ++ [symbolToken TokenKind.CloseBrace 125]))
  | _ => []

/-- The tokens that render a sequence of trees, one after the other. -/
def renderList : List Node → List Token
  | [] => []
  | n :: ns => render n ++ renderList ns

end

end parser

namespace lexer

/-- What `DecodeRuneInString` does on the non-empty input `b :: t`: an ASCII byte is a rune of
width one; otherwise the result is `RuneError` of width one, or a rune above ASCII of width 2
to 4 whose further bytes are not ASCII, and which is decoded from these bytes whatever
follows them. -/
def utf8.Shape (b : Byte) (t : GoString) : Prop :=
  (b.val < 128 ∧ utf8.DecodeRuneInString (b :: t) = (b.val, 1)) ∨
  (128 ≤ b.val ∧ utf8.DecodeRuneInString (b :: t) = (utf8.RuneError, 1)) ∨
  (128 ≤ b.val ∧ ∃ sz v : Nat, utf8.DecodeRuneInString (b :: t) = (v, sz) ∧ 2 ≤ sz ∧
    sz ≤ t.length + 1 ∧ 128 ≤ v ∧ (∀ x ∈ t.take (sz - 1), 128 ≤ x.val) ∧
    ∀ t1, utf8.DecodeRuneInString (b :: (t.take (sz - 1) ++ t1)) = (v, sz))

end lexer

namespace lexer

/-- The bytes that the cursor has not read yet: `c.input[c.pos:]`. -/
def Cursor.rest (c : Cursor) : GoString := c.input.drop c.pos

/-- The text up to and including the first newline byte, or the whole text when it has no
newline. -/
def takeLine : GoString → GoString
  | [] => []
  | b :: t => if b = 10 then [b] else b :: takeLine t

end lexer

namespace lexer

/-- The runes of a text with their widths in bytes, in order, as `for range s` yields them;
the first argument bounds the number of runes. -/
def runesAux : Nat → GoString → List (Rune × Nat)
  | 0, _ => []
  | n + 1, s =>
    match s with
    | [] => []
    | _ :: _ => utf8.DecodeRuneInString s :: runesAux n (s.drop (utf8.DecodeRuneInString s).2)

/-- The runes of a text with their widths in bytes (a text has at most as many runes as
bytes). -/
def runes (s : GoString) : List (Rune × Nat) := runesAux s.length s

/-- The length in bytes of the maximal leading run of characters of `s` that satisfy `P`. -/
def leadingRun (P : Rune → Bool) (s : GoString) : Nat :=
  (((runes s).takeWhile (fun d => P d.1)).map (fun d => d.2)).sum

end lexer

namespace lexer

/-- The bytes `u` are one character, the rune `r`: whatever follows them, they decode to `r`
and to their own length.  The UTF-8 encoding of a scalar value is such a character, and so is
a byte that is invalid wherever it stands (it is the character U+FFFD). -/
def IsChar (u : GoString) (r : Rune) : Prop :=
  u ≠ [] ∧ ∀ t, utf8.DecodeRuneInString (u ++ t) = (r, u.length)

/-- A unit of the body of a string literal: one character other than the double quote and
the backslash, or a backslash followed by any one character. -/
inductive StringUnit : GoString → Prop where
  | plain (u : GoString) (r : Rune) : IsChar u r → r ≠ 34 → r ≠ 92 → StringUnit u
  | escape (u : GoString) (r : Rune) : IsChar u r → StringUnit (92 :: u)

end lexer

namespace lexer

/-- The cursor `c1` on a token alone stands where the cursor `c` stands in the whole input:
the bytes ahead of `c` are the bytes ahead of `c1`, followed by `tail`, the input after the
token. -/
def Cursor.Sim (tail : GoString) (c c1 : Cursor) : Prop :=
  c.rest = c1.rest ++ tail ∧ c.pos ≤ c.input.length ∧ c1.pos ≤ c1.input.length

/-- The result `r1` of a run on a token alone agrees with the result `r` of the same run in
the whole input: when `r` ends where `tail` starts, `r1` has the same kind and ends at the
end of its input. -/
def Cursor.Stable (tail : GoString) (r r1 : Option (TokenKind × Cursor)) : Prop :=
  ∀ k cf, r = some (k, cf) → cf.rest.length = tail.length →
    ∃ cf1, r1 = some (k, cf1) ∧ cf1.rest = []

end lexer

/-! ## The cursor only moves forward, and every loop of the lexer ends -/

namespace lexer

/-- The width reported by `DecodeRuneInString` is at least one and at most the length. -/
theorem utf8.DecodeRuneInString_size (s : GoString) (hs : s ≠ []) :
    1 ≤ (utf8.DecodeRuneInString s).2 ∧ (utf8.DecodeRuneInString s).2 ≤ s.length := by
  unfold utf8.DecodeRuneInString
  split
  · exact absurd rfl hs
  · rename_i s0 t
    simp only []
    split
    · simp
    · split
      · simp
      · split
        · simp
        · split
          · simp
          · split
            · simp
            · split
              · simp
              · split
                · simp
                · split
                  · simp
                  · split
                    · simp
                    · split <;> simp

namespace Cursor

theorem Le.refl (c : Cursor) (h : c.pos ≤ c.input.length) : Le c c := ⟨rfl, le_rfl, h⟩

theorem Le.trans {a b c : Cursor} (h1 : Le a b) (h2 : Le b c) : Le a c := by
  obtain ⟨i1, p1, q1⟩ := h1
  obtain ⟨i2, p2, q2⟩ := h2
  exact ⟨i2.trans i1, p1.trans p2, by rw [← i1]; exact q2⟩

theorem Bump_eof (c : Cursor) (h : c.input.length ≤ c.pos) : c.Bump = ((0, false), c) := by
  simp [Bump, h]

theorem Bump_ok (c : Cursor) (h : c.pos < c.input.length) :
    c.Bump.1.2 = true ∧ c.Bump.2.input = c.input ∧ c.pos < c.Bump.2.pos ∧
      c.Bump.2.pos ≤ c.input.length := by
  have hne : c.input.drop c.pos ≠ [] := by
    intro h0
    have := congrArg List.length h0
    simp at this
    omega
  have hsz := utf8.DecodeRuneInString_size _ hne
  have hlen : (c.input.drop c.pos).length = c.input.length - c.pos := by simp
  simp only [Bump, ge_iff_le, Nat.not_le.mpr h, if_false]
  refine ⟨trivial, trivial, ?_, ?_⟩ <;> omega

theorem Bump_ok_iff (c : Cursor) : c.Bump.1.2 = true ↔ c.pos < c.input.length := by
  constructor
  · intro h
    by_contra hc
    rw [Bump_eof c (by omega)] at h
    simp at h
  · intro h
    exact (Bump_ok c h).1

theorem Bump_Le (c : Cursor) (h : c.pos ≤ c.input.length) : Le c c.Bump.2 := by
  by_cases hlt : c.pos < c.input.length
  · obtain ⟨_, h2, h3, h4⟩ := Bump_ok c hlt
    exact ⟨h2, le_of_lt h3, h4⟩
  · rw [Bump_eof c (by omega)]
    exact Le.refl c h

theorem First_ok_iff (c : Cursor) : c.First.2 = true ↔ c.pos < c.input.length := by
  unfold First
  split_ifs with h
  · simp; omega
  · simp; omega

/-- With more fuel than bytes left, `LineComment` leaves its loop. -/
theorem LineComment_some (fuel : Nat) (c : Cursor) (h : c.pos ≤ c.input.length)
    (hf : c.input.length - c.pos < fuel) :
    ∃ c1, c.LineComment fuel = some (TokenKind.LineComment, c1) ∧ Le c c1 := by
  induction fuel generalizing c with
  | zero => omega
  | succ n ih =>
    unfold LineComment
    simp only []
    split_ifs with hc
    · exact ⟨_, rfl, Bump_Le c h⟩
    · have hok : c.Bump.1.2 = true := by
        simp only [Bool.or_eq_true, Bool.not_eq_true', decide_eq_true_eq, not_or] at hc
        simpa using hc.1
      have hlt := (Bump_ok_iff c).1 hok
      obtain ⟨_, h2, h3, h4⟩ := Bump_ok c hlt
      obtain ⟨c1, e1, l1⟩ := ih c.Bump.2 (by rw [h2]; exact h4) (by rw [h2]; omega)
      exact ⟨c1, e1, (Bump_Le c h).trans l1⟩

/-- After a successful `Bump` the cursor is strictly further and still inside the input. -/
theorem Bump_step (c : Cursor) (h : c.pos < c.input.length) :
    c.Bump.2.pos ≤ c.Bump.2.input.length ∧
      c.Bump.2.input.length - c.Bump.2.pos < c.input.length - c.pos ∧ Le c c.Bump.2 := by
  obtain ⟨_, h2, h3, h4⟩ := Bump_ok c h
  refine ⟨by rw [h2]; exact h4, by rw [h2]; omega, h2, le_of_lt h3, h4⟩

theorem Bump_inv (c : Cursor) (h : c.pos ≤ c.input.length) :
    c.Bump.2.pos ≤ c.Bump.2.input.length ∧
      c.Bump.2.input.length - c.Bump.2.pos ≤ c.input.length - c.pos := by
  obtain ⟨h2, h3, h4⟩ := Bump_Le c h
  refine ⟨by rw [h2]; exact h4, by rw [h2]; omega⟩

/-- With more fuel than bytes left, the loop of `BlockComment` ends. -/
theorem BlockCommentLoop_some (fuel : Nat) (depth : Int) (c : Cursor)
    (h : c.pos ≤ c.input.length) (hf : c.input.length - c.pos < fuel) :
    ∃ c1, c.BlockCommentLoop fuel depth = some c1 ∧ Le c c1 := by
  induction fuel generalizing c depth with
  | zero => omega
  | succ n ih =>
    unfold BlockCommentLoop
    simp only []
    by_cases hd : depth > 0
    · simp only [hd, if_true]
      by_cases hok : c.Bump.1.2 = true
      · have hlt := (Bump_ok_iff c).1 hok
        obtain ⟨s1, s2, s3⟩ := Bump_step c hlt
        obtain ⟨t1, t2⟩ := Bump_inv c.Bump.2 s1
        have t3 := Bump_Le c.Bump.2 s1
        have key : ∀ d, ∃ c1, c.Bump.2.BlockCommentLoop n d = some c1 ∧ Le c c1 := by
          intro d
          obtain ⟨c1, e1, l1⟩ := ih d c.Bump.2 s1 (by omega)
          exact ⟨c1, e1, s3.trans l1⟩
        have key2 : ∀ d, ∃ c1, c.Bump.2.Bump.2.BlockCommentLoop n d = some c1 ∧ Le c c1 := by
          intro d
          obtain ⟨c1, e1, l1⟩ := ih d c.Bump.2.Bump.2 t1 (by omega)
          exact ⟨c1, e1, (s3.trans t3).trans l1⟩
        simp only [hok, Bool.not_true, if_false]
        split_ifs <;> first | exact key2 _ | exact key _ | exact ⟨_, rfl, s3⟩
      · simp only [hok, Bool.not_false, if_true]
        exact ⟨_, rfl, Bump_Le c h⟩
    · simp only [hd, if_false]
      exact ⟨_, rfl, Le.refl c h⟩

/-- With more fuel than bytes left, `BlockComment` returns. -/
theorem BlockComment_some (fuel : Nat) (c : Cursor) (h : c.pos ≤ c.input.length)
    (hf : c.input.length - c.pos < fuel) :
    ∃ c1, c.BlockComment fuel = some (TokenKind.BlockComment, c1) ∧ Le c c1 := by
  obtain ⟨c1, e1, l1⟩ := BlockCommentLoop_some fuel 1 c h hf
  exact ⟨c1, by simp [BlockComment, e1], l1⟩

/-- With more fuel than bytes left, `Whitespace` returns. -/
theorem Whitespace_some (fuel : Nat) (c : Cursor) (h : c.pos ≤ c.input.length)
    (hf : c.input.length - c.pos < fuel) :
    ∃ c1, c.Whitespace fuel = some (TokenKind.Whitespace, c1) ∧ Le c c1 := by
  induction fuel generalizing c with
  | zero => omega
  | succ n ih =>
    unfold Whitespace
    simp only []
    split_ifs with hc
    · exact ⟨_, rfl, Le.refl c h⟩
    · have hok : c.First.2 = true := by
        simp only [Bool.or_eq_true, Bool.not_eq_true', not_or] at hc
        simpa using hc.1
      obtain ⟨s1, s2, s3⟩ := Bump_step c ((First_ok_iff c).1 hok)
      obtain ⟨c1, e1, l1⟩ := ih c.Bump.2 s1 (by omega)
      exact ⟨c1, e1, s3.trans l1⟩

/-- With more fuel than bytes left, the loop of `RawIdent` ends. -/
theorem RawIdentLoop_some (L : Rune → Bool) (fuel : Nat) (c : Cursor)
    (h : c.pos ≤ c.input.length) (hf : c.input.length - c.pos < fuel) :
    ∃ c1, c.RawIdentLoop L fuel = some (TokenKind.RawIdent, c1) ∧ Le c c1 := by
  induction fuel generalizing c with
  | zero => omega
  | succ n ih =>
    unfold RawIdentLoop
    simp only []
    split_ifs with hc
    · exact ⟨_, rfl, Le.refl c h⟩
    · have hok : c.First.2 = true := by
        simp only [Bool.or_eq_true, Bool.not_eq_true', not_or] at hc
        simpa using hc.1
      obtain ⟨s1, s2, s3⟩ := Bump_step c ((First_ok_iff c).1 hok)
      obtain ⟨c1, e1, l1⟩ := ih c.Bump.2 s1 (by omega)
      exact ⟨c1, e1, s3.trans l1⟩

/-- With more fuel than bytes left after the `#`, `RawIdent` returns. -/
theorem RawIdent_some (L : Rune → Bool) (fuel : Nat) (c : Cursor)
    (h : c.pos ≤ c.input.length) (hf : c.input.length - c.pos < fuel) :
    ∃ c1, c.RawIdent L fuel = some (TokenKind.RawIdent, c1) ∧ Le c c1 := by
  obtain ⟨t1, t2⟩ := Bump_inv c h
  obtain ⟨c1, e1, l1⟩ := RawIdentLoop_some L fuel c.Bump.2 t1 (by omega)
  exact ⟨c1, e1, (Bump_Le c h).trans l1⟩

/-- With more fuel than bytes left, `IdentOrUnknownPrefix` returns. -/
theorem IdentOrUnknownPrefix_some (L : Rune → Bool) (fuel : Nat) (c : Cursor)
    (h : c.pos ≤ c.input.length) (hf : c.input.length - c.pos < fuel) :
    ∃ c1, c.IdentOrUnknownPrefix L fuel = some (TokenKind.Ident, c1) ∧ Le c c1 := by
  induction fuel generalizing c with
  | zero => omega
  | succ n ih =>
    unfold IdentOrUnknownPrefix
    simp only []
    split_ifs with hc
    · exact ⟨_, rfl, Le.refl c h⟩
    · have hok : c.First.2 = true := by
        simp only [Bool.or_eq_true, Bool.not_eq_true', not_or] at hc
        simpa using hc.1
      obtain ⟨s1, s2, s3⟩ := Bump_step c ((First_ok_iff c).1 hok)
      obtain ⟨c1, e1, l1⟩ := ih c.Bump.2 s1 (by omega)
      exact ⟨c1, e1, s3.trans l1⟩

/-- With more fuel than bytes left, `DoubleQuotedString` returns. -/
theorem DoubleQuotedString_some (fuel : Nat) (c : Cursor) (h : c.pos ≤ c.input.length)
    (hf : c.input.length - c.pos < fuel) :
    ∃ c1, c.DoubleQuotedString fuel = some (TokenKind.Literal, c1) ∧ Le c c1 := by
  induction fuel generalizing c with
  | zero => omega
  | succ n ih =>
    unfold DoubleQuotedString
    simp only []
    split_ifs with hc hb
    · exact ⟨_, rfl, Bump_Le c h⟩
    · have hok : c.Bump.1.2 = true := by
        simp only [Bool.or_eq_true, Bool.not_eq_true', decide_eq_true_eq, not_or] at hc
        simpa using hc.1
      obtain ⟨s1, s2, s3⟩ := Bump_step c ((Bump_ok_iff c).1 hok)
      obtain ⟨t1, t2⟩ := Bump_inv c.Bump.2 s1
      obtain ⟨c1, e1, l1⟩ := ih c.Bump.2.Bump.2 t1 (by omega)
      exact ⟨c1, e1, (s3.trans (Bump_Le _ s1)).trans l1⟩
    · have hok : c.Bump.1.2 = true := by
        simp only [Bool.or_eq_true, Bool.not_eq_true', decide_eq_true_eq, not_or] at hc
        simpa using hc.1
      obtain ⟨s1, s2, s3⟩ := Bump_step c ((Bump_ok_iff c).1 hok)
      obtain ⟨c1, e1, l1⟩ := ih c.Bump.2 s1 (by omega)
      exact ⟨c1, e1, s3.trans l1⟩

theorem Good.ite {c : Cursor} {p : Prop} [Decidable p] {a b : Option (TokenKind × Cursor)}
    (ha : Good c a) (hb : Good c b) : Good c (if p then a else b) := by
  split_ifs <;> assumption

theorem Good.here {c : Cursor} (h : c.pos ≤ c.input.length) (k : TokenKind)
    (hk : k ≠ TokenKind.Eof) : Good c (some (k, c)) :=
  ⟨k, c, rfl, hk, Le.refl c h⟩

theorem Good.of_some {c : Cursor} {r : Option (TokenKind × Cursor)} {k : TokenKind}
    (h : ∃ c1, r = some (k, c1) ∧ Le c c1) (hk : k ≠ TokenKind.Eof) : Good c r := by
  obtain ⟨c1, e1, l1⟩ := h
  exact ⟨k, c1, e1, hk, l1⟩

/-- With more fuel than bytes left, the `switch` of `AdvanceToken` yields a kind other than
`Eof` and a cursor that is not behind. -/
theorem switchFirstChar_some (L : Rune → Bool) (fuel : Nat) (firstChar : Rune) (c : Cursor)
    (h : c.pos ≤ c.input.length) (hf : c.input.length - c.pos < fuel) :
    Good c (switchFirstChar L fuel firstChar c) := by
  have r1 : Good c (c.LineComment fuel) := Good.of_some (LineComment_some fuel c h hf) (by decide)
  have r2 : Good c (c.BlockComment fuel) :=
    Good.of_some (BlockComment_some fuel c h hf) (by decide)
  have r3 : Good c (c.Whitespace fuel) := Good.of_some (Whitespace_some fuel c h hf) (by decide)
  have r4 : Good c (c.RawIdent L fuel) := Good.of_some (RawIdent_some L fuel c h hf) (by decide)
  have r5 : Good c (c.IdentOrUnknownPrefix L fuel) :=
    Good.of_some (IdentOrUnknownPrefix_some L fuel c h hf) (by decide)
  have r6 : Good c (c.DoubleQuotedString fuel) :=
    Good.of_some (DoubleQuotedString_some fuel c h hf) (by decide)
  unfold switchFirstChar
  repeat' first
    | exact r1 | exact r2 | exact r3 | exact r4 | exact r5 | exact r6
    | exact Good.here h _ (by decide)
    | apply Good.ite

/-- At the end of the input `AdvanceToken` returns the `Eof` token. -/
theorem AdvanceToken_eof (L : Rune → Bool) (fuel : Nat) (c : Cursor)
    (h : c.input.length ≤ c.pos) :
    c.AdvanceToken L fuel = some ({ Kind := TokenKind.Eof, Len := 0, Literal := [] }, c) := by
  simp [AdvanceToken, Bump_eof c h]

/-- Before the end of the input, and with at least as much fuel as bytes left,
`AdvanceToken` returns a token that is not `Eof`, spans at least one byte, and whose `Len`
and `Literal` are those of the bytes the cursor moved over. -/
theorem AdvanceToken_some (L : Rune → Bool) (fuel : Nat) (c : Cursor)
    (h : c.pos < c.input.length) (hf : c.input.length - c.pos ≤ fuel) :
    ∃ k c1, c.AdvanceToken L fuel =
        some ({ Kind := k, Len := (c1.pos : Int) - (c.pos : Int),
                Literal := slice c.input c.pos c1.pos }, c1) ∧
      k ≠ TokenKind.Eof ∧ c1.input = c.input ∧ c.pos < c1.pos ∧ c1.pos ≤ c.input.length := by
  obtain ⟨b1, b2, b3, b4⟩ := Bump_ok c h
  obtain ⟨k, c1, e1, hk, l1, l2, l3⟩ :=
    switchFirstChar_some L fuel c.Bump.1.1 c.Bump.2 (by rw [b2]; exact b4) (by rw [b2]; omega)
  refine ⟨k, c1, ?_, hk, l1.trans b2, by omega, by rw [← b2]; exact l3⟩
  simp only [AdvanceToken, b1, Bool.not_true, e1]
  simp [l1, b2]

end Cursor

/-- The slice `s[lo:hi]` followed by `s[hi:]` is `s[lo:]`. -/
theorem slice_append_drop (s : GoString) (lo hi : Nat) (h : lo ≤ hi) (hh : hi ≤ s.length) :
    slice s lo hi ++ s.drop hi = s.drop lo := by
  have h1 : (s.take hi).length = hi := by simp; omega
  conv_rhs => rw [← List.take_append_drop hi s]
  rw [List.drop_append_eq_append_drop, h1, Nat.sub_eq_zero_of_le h]
  rfl

/-- The tokens read by the loop of `Tokenize` from the cursor `c` on: the loop ends, the
tokens are appended to those read before, their literals make up the rest of the input, and
each has a kind other than `Eof` and a `Len` that is the length of its literal and at least
one. -/
theorem TokenizeLoop_some (L : Rune → Bool) (fuel n : Nat) (c : Cursor) (acc : List Token)
    (h : c.pos ≤ c.input.length) (hf : c.input.length - c.pos ≤ fuel)
    (hn : c.input.length - c.pos < n) :
    ∃ toks, TokenizeLoop L fuel n c acc = some (acc ++ toks) ∧
      (toks.map Token.Literal).flatten = c.input.drop c.pos ∧
      (c.pos < c.input.length → toks ≠ []) ∧
      ∀ t ∈ toks, t.Kind ≠ TokenKind.Eof ∧ t.Len = (t.Literal.length : Int) ∧ 1 ≤ t.Len := by
  induction n generalizing c acc with
  | zero => omega
  | succ n ih =>
    unfold TokenizeLoop
    by_cases hlt : c.pos < c.input.length
    · obtain ⟨k, c1, e1, hk, i1, p1, q1⟩ := Cursor.AdvanceToken_some L fuel c hlt hf
      obtain ⟨toks, e2, j2, _, a2⟩ :=
        ih c1 (acc ++ [(⟨k, (c1.pos : Int) - (c.pos : Int), slice c.input c.pos c1.pos⟩ : Token)])
          (by rw [i1]; exact q1) (by rw [i1]; omega) (by rw [i1]; omega)
      have hlen : (slice c.input c.pos c1.pos).length = c1.pos - c.pos := by
        simp [slice]; omega
      refine ⟨(⟨k, (c1.pos : Int) - (c.pos : Int), slice c.input c.pos c1.pos⟩ : Token) :: toks,
        ?_, ?_, fun _ => by simp, ?_⟩
      · simp only [e1, hk, if_false, e2, List.append_assoc, List.singleton_append]
      · simp only [List.map_cons, List.flatten_cons, j2, i1]
        exact slice_append_drop c.input c.pos c1.pos (le_of_lt p1) q1
      · intro t ht
        rcases List.mem_cons.1 ht with rfl | ht
        · refine ⟨hk, ?_, ?_⟩
          · simp only [hlen]; omega
          · simp only []; omega
        · exact a2 t ht
    · rw [Cursor.AdvanceToken_eof L fuel c (by omega)]
      refine ⟨[], by simp, ?_, fun hc => absurd hc hlt, by simp⟩
      simp
      omega

/-- When every token has a `Len` that is the length of its literal, the `Len` fields sum to
the length of the concatenated literals. -/
theorem sum_Len_eq (toks : List Token)
    (h : ∀ t ∈ toks, t.Len = (t.Literal.length : Int)) :
    (toks.map Token.Len).sum = (((toks.map Token.Literal).flatten).length : Int) := by
  induction toks with
  | nil => simp
  | cons t ts ih =>
    have h1 := h t (List.mem_cons_self _ _)
    have h2 := ih (fun u hu => h u (List.mem_cons_of_mem _ hu))
    simp only [List.map_cons, List.sum_cons, List.flatten_cons, List.length_append, h1, h2]
    push_cast
    rfl

/-- What `Tokenize` returns, for every fuel above the length of the input. -/
theorem TokenizeFuel_some (L : Rune → Bool) (fuel : Nat) (input : GoString)
    (hf : input.length < fuel) :
    ∃ toks, TokenizeFuel L fuel input = some toks ∧
      (toks.map Token.Literal).flatten = input ∧
      (input ≠ [] → toks ≠ []) ∧
      ∀ t ∈ toks, t.Kind ≠ TokenKind.Eof ∧ t.Len = (t.Literal.length : Int) ∧ 1 ≤ t.Len := by
  obtain ⟨toks, e, j, ne, a⟩ :=
    TokenizeLoop_some L fuel fuel (NewCursor input) [] (Nat.zero_le _)
      (by simp only [NewCursor]; omega) (by simp only [NewCursor]; omega)
  refine ⟨toks, by simpa [TokenizeFuel] using e, by simpa [NewCursor] using j, ?_, a⟩
  intro hne
  apply ne
  simp only [NewCursor]
  exact List.length_pos.2 hne

/-- C8: for every input `Tokenize` returns a token sequence, and that sequence is empty if
and only if the input is empty: every non-empty input yields at least one token. -/
theorem Tokenize_nil_iff (L : Rune → Bool) (input : GoString) :
    ∃ toks, Tokenize L input = some toks ∧ (toks = [] ↔ input = []) := by
  obtain ⟨toks, e, j, ne, _⟩ := TokenizeFuel_some L (input.length + 1) input (Nat.lt_succ_self _)
  have e1 : Tokenize L input = some toks := e
  refine ⟨toks, e1, ?_, ?_⟩
  · intro h
    by_contra hc
    exact ne hc h
  · intro h
    subst h
    have h0 : Tokenize L [] = some [] := rfl
    rw [h0] at e1
    exact (Option.some.inj e1).symm

/-- C9: every token returned by `Tokenize` has a kind other than `Eof`, a `Len` equal to the
length in bytes of its `Literal`, and a `Len` of at least one; the `Len` fields sum to the
length of the input. -/
theorem Tokenize_token_inv (L : Rune → Bool) (input : GoString) :
    ∃ toks, Tokenize L input = some toks ∧
      (∀ t ∈ toks, t.Kind ≠ TokenKind.Eof ∧ t.Len = (t.Literal.length : Int) ∧ 1 ≤ t.Len) ∧
      (toks.map Token.Len).sum = (input.length : Int) := by
  obtain ⟨toks, e, j, _, a⟩ := TokenizeFuel_some L (input.length + 1) input (Nat.lt_succ_self _)
  refine ⟨toks, e, a, ?_⟩
  rw [sum_Len_eq toks (fun t ht => (a t ht).2.1), j]

end lexer

/-! ## More fuel does not change a result -/

namespace lexer

/-- A function of a fuel argument that keeps its result when given one more unit of fuel
keeps it when given any larger amount. -/
theorem fuel_mono_of_step {α β : Type} (f : Nat → α → Option β)
    (hstep : ∀ n a r, f n a = some r → f (n + 1) a = some r)
    (n m : Nat) (a : α) (r : β) (hle : n ≤ m) (h : f n a = some r) : f m a = some r := by
  induction hle with
  | refl => exact h
  | step _ ih => exact hstep _ _ _ ih

namespace Cursor

theorem LineComment_mono (n m : Nat) (c : Cursor) (r : TokenKind × Cursor) (hle : n ≤ m)
    (h : c.LineComment n = some r) : c.LineComment m = some r := by
  refine fuel_mono_of_step LineComment ?_ n m c r hle h
  intro n
  induction n with
  | zero => intro a r h; simp [LineComment] at h
  | succ n ih =>
    intro a r h
    unfold LineComment at h ⊢
    simp only [] at h ⊢
    split_ifs at h ⊢
    · exact h
    · exact ih _ _ h

theorem BlockCommentLoop_step (n : Nat) (d : Int) (c : Cursor) (r : Cursor)
    (h : c.BlockCommentLoop n d = some r) : c.BlockCommentLoop (n + 1) d = some r := by
  induction n generalizing d c with
  | zero => simp [BlockCommentLoop] at h
  | succ n ih =>
    unfold BlockCommentLoop at h ⊢
    simp only [] at h ⊢
    split_ifs at h ⊢
    all_goals first
      | exact h
      | exact ih _ _ h

theorem BlockCommentLoop_mono (n m : Nat) (d : Int) (c : Cursor) (r : Cursor) (hle : n ≤ m)
    (h : c.BlockCommentLoop n d = some r) : c.BlockCommentLoop m d = some r := by
  induction hle with
  | refl => exact h
  | step _ ih => exact BlockCommentLoop_step _ d c r ih

theorem BlockComment_mono (n m : Nat) (c : Cursor) (r : TokenKind × Cursor) (hle : n ≤ m)
    (h : c.BlockComment n = some r) : c.BlockComment m = some r := by
  unfold BlockComment at h ⊢
  cases h1 : c.BlockCommentLoop n 1 with
  | none => simp [h1] at h
  | some c1 =>
    rw [BlockCommentLoop_mono n m 1 c c1 hle h1]
    rw [h1] at h
    exact h

theorem Whitespace_mono (n m : Nat) (c : Cursor) (r : TokenKind × Cursor) (hle : n ≤ m)
    (h : c.Whitespace n = some r) : c.Whitespace m = some r := by
  refine fuel_mono_of_step Whitespace ?_ n m c r hle h
  intro n
  induction n with
  | zero => intro a r h; simp [Whitespace] at h
  | succ n ih =>
    intro a r h
    unfold Whitespace at h ⊢
    simp only [] at h ⊢
    split_ifs at h ⊢
    · exact h
    · exact ih _ _ h

theorem RawIdentLoop_mono (L : Rune → Bool) (n m : Nat) (c : Cursor) (r : TokenKind × Cursor)
    (hle : n ≤ m) (h : c.RawIdentLoop L n = some r) : c.RawIdentLoop L m = some r := by
  refine fuel_mono_of_step (RawIdentLoop L) ?_ n m c r hle h
  intro n
  induction n with
  | zero => intro a r h; simp [RawIdentLoop] at h
  | succ n ih =>
    intro a r h
    unfold RawIdentLoop at h ⊢
    simp only [] at h ⊢
    split_ifs at h ⊢
    · exact h
    · exact ih _ _ h

theorem IdentOrUnknownPrefix_mono (L : Rune → Bool) (n m : Nat) (c : Cursor)
    (r : TokenKind × Cursor) (hle : n ≤ m) (h : c.IdentOrUnknownPrefix L n = some r) :
    c.IdentOrUnknownPrefix L m = some r := by
  refine fuel_mono_of_step (IdentOrUnknownPrefix L) ?_ n m c r hle h
  intro n
  induction n with
  | zero => intro a r h; simp [IdentOrUnknownPrefix] at h
  | succ n ih =>
    intro a r h
    unfold IdentOrUnknownPrefix at h ⊢
    simp only [] at h ⊢
    split_ifs at h ⊢
    · exact h
    · exact ih _ _ h

theorem DoubleQuotedString_mono (n m : Nat) (c : Cursor) (r : TokenKind × Cursor)
    (hle : n ≤ m) (h : c.DoubleQuotedString n = some r) : c.DoubleQuotedString m = some r := by
  refine fuel_mono_of_step DoubleQuotedString ?_ n m c r hle h
  intro n
  induction n with
  | zero => intro a r h; simp [DoubleQuotedString] at h
  | succ n ih =>
    intro a r h
    unfold DoubleQuotedString at h ⊢
    simp only [] at h ⊢
    split_ifs at h ⊢
    · exact h
    · exact ih _ _ h
    · exact ih _ _ h

theorem Mono.same {β : Type} (a : Option β) : Mono a a := fun _ h => h

theorem Mono.cond {β : Type} {p : Prop} [Decidable p] {a b a1 b1 : Option β}
    (ha : Mono a a1) (hb : Mono b b1) :
    Mono (if p then a else b) (if p then a1 else b1) := by
  split_ifs <;> assumption

theorem switchFirstChar_mono (L : Rune → Bool) (n m : Nat) (firstChar : Rune) (c : Cursor)
    (hle : n ≤ m) :
    Mono (switchFirstChar L n firstChar c) (switchFirstChar L m firstChar c) := by
  have r1 : Mono (c.LineComment n) (c.LineComment m) :=
    fun r h => LineComment_mono n m c r hle h
  have r2 : Mono (c.BlockComment n) (c.BlockComment m) :=
    fun r h => BlockComment_mono n m c r hle h
  have r3 : Mono (c.Whitespace n) (c.Whitespace m) :=
    fun r h => Whitespace_mono n m c r hle h
  have r4 : Mono (c.RawIdent L n) (c.RawIdent L m) :=
    fun r h => RawIdentLoop_mono L n m _ r hle h
  have r5 : Mono (c.IdentOrUnknownPrefix L n) (c.IdentOrUnknownPrefix L m) :=
    fun r h => IdentOrUnknownPrefix_mono L n m c r hle h
  have r6 : Mono (c.DoubleQuotedString n) (c.DoubleQuotedString m) :=
    fun r h => DoubleQuotedString_mono n m c r hle h
  unfold switchFirstChar
  repeat' first
    | exact r1 | exact r2 | exact r3 | exact r4 | exact r5 | exact r6
    | exact Mono.same _
    | apply Mono.cond

theorem AdvanceToken_mono (L : Rune → Bool) (n m : Nat) (c : Cursor) (r : Token × Cursor)
    (hle : n ≤ m) (h : c.AdvanceToken L n = some r) : c.AdvanceToken L m = some r := by
  unfold AdvanceToken at h ⊢
  simp only [] at h ⊢
  split_ifs at h ⊢
  · exact h
  · cases h1 : switchFirstChar L n c.Bump.1.1 c.Bump.2 with
    | none => simp [h1] at h
    | some kc =>
      rw [switchFirstChar_mono L n m _ _ hle kc h1]
      rw [h1] at h
      exact h

end Cursor

theorem TokenizeLoop_mono (L : Rune → Bool) (fuel fuel1 n n1 : Nat) (c : Cursor)
    (acc r : List Token) (hf : fuel ≤ fuel1) (hn : n ≤ n1)
    (h : TokenizeLoop L fuel n c acc = some r) : TokenizeLoop L fuel1 n1 c acc = some r := by
  induction n generalizing n1 c acc with
  | zero => simp [TokenizeLoop] at h
  | succ n ih =>
    obtain ⟨k, rfl⟩ : ∃ k, n1 = k + 1 := ⟨n1 - 1, by omega⟩
    unfold TokenizeLoop at h ⊢
    cases h1 : c.AdvanceToken L fuel with
    | none => simp [h1] at h
    | some tc =>
      rw [Cursor.AdvanceToken_mono L fuel fuel1 c tc hf h1]
      rw [h1] at h
      simp only [] at h ⊢
      split_ifs at h ⊢
      · exact h
      · exact ih k _ _ (by omega) h

/-- The result of `Tokenize` is the result for every larger amount of fuel. -/
theorem TokenizeFuel_eq_Tokenize (L : Rune → Bool) (fuel : Nat) (input : GoString)
    (hf : input.length < fuel) : TokenizeFuel L fuel input = Tokenize L input := by
  obtain ⟨toks, e, _⟩ := TokenizeFuel_some L (input.length + 1) input (Nat.lt_succ_self _)
  have e1 : Tokenize L input = some toks := e
  rw [e1]
  exact TokenizeLoop_mono L _ _ _ _ _ _ _ (by omega) (by omega) e

end lexer

/-! ## The parser always returns, with an error, a panic or a value -/

namespace parser
namespace Parser

open lexer

theorem currentToken_some_lt {p : Parser} {t : Token} (h : p.currentToken = some t) :
    p.pos < p.tokens.length := by
  unfold currentToken at h
  by_contra hc
  rw [List.getElem?_eq_none (by omega)] at h
  exact Option.noConfusion h

/-- With more fuel than tokens left, the parameter loop ends; when it ends without error the
parser is not behind and stands on a token. -/
theorem parametersLoop_total (fuel : Nat) (p : Parser) (acc : List GoString)
    (h : p.pos ≤ p.tokens.length) (hf : p.tokens.length - p.pos < fuel) :
    ∃ r, parametersLoop fuel p acc = some r ∧
      ∀ v p1, r = Result.ok (v, p1) →
        p1.tokens = p.tokens ∧ p.pos ≤ p1.pos ∧ p1.pos < p.tokens.length := by
  induction fuel generalizing p acc with
  | zero => omega
  | succ n ih =>
    unfold parametersLoop
    cases h0 : p.currentToken with
    | none => exact ⟨_, rfl, fun v p1 hv => Result.noConfusion hv⟩
    | some t =>
      have hlt := currentToken_some_lt h0
      simp only []
      split_ifs with hc hi
      · refine ⟨_, rfl, fun v p1 hv => ?_⟩
        injection hv with hv
        injection hv with _ hp
        subst hp
        exact ⟨rfl, le_rfl, hlt⟩
      · exact ⟨_, rfl, fun v p1 hv => Result.noConfusion hv⟩
      · cases h1 : p.nextToken.currentToken with
        | none => exact ⟨_, rfl, fun v p1 hv => Result.noConfusion hv⟩
        | some t1 =>
          have hlt1 := currentToken_some_lt h1
          simp only [nextToken] at hlt1
          simp only []
          split_ifs
          · obtain ⟨r, e, a⟩ := ih p.nextToken.nextToken (acc ++ [t.Literal])
              (by simp only [nextToken]; omega) (by simp only [nextToken]; omega)
            refine ⟨r, e, fun v p1 hv => ?_⟩
            obtain ⟨a1, a2, a3⟩ := a v p1 hv
            simp only [nextToken] at a1 a2 a3
            exact ⟨a1, by omega, a3⟩
          · obtain ⟨r, e, a⟩ := ih p.nextToken (acc ++ [t.Literal])
              (by simp only [nextToken]; omega) (by simp only [nextToken]; omega)
            refine ⟨r, e, fun v p1 hv => ?_⟩
            obtain ⟨a1, a2, a3⟩ := a v p1 hv
            simp only [nextToken] at a1 a2 a3
            exact ⟨a1, by omega, a3⟩

/-- With enough fuel, `parseStatement`, `parseFunction` and the body loop return; a statement
that is returned ends strictly further in the token sequence, and the body loop ends on a
token. -/
theorem parse_total_aux (fuel : Nat) :
    (∀ p : Parser, p.pos ≤ p.tokens.length → p.tokens.length - p.pos < fuel →
      ∃ r, parseStatement fuel p = some r ∧
        ∀ v p1, r = Result.ok (v, p1) →
          p1.tokens = p.tokens ∧ p.pos < p1.pos ∧ p1.pos ≤ p.tokens.length) ∧
    (∀ p : Parser, p.pos ≤ p.tokens.length → p.tokens.length - p.pos ≤ fuel → 0 < fuel →
      ∃ r, parseFunction fuel p = some r ∧
        ∀ v p1, r = Result.ok (v, p1) →
          p1.tokens = p.tokens ∧ p.pos < p1.pos ∧ p1.pos ≤ p.tokens.length) ∧
    (∀ (p : Parser) (acc : List Node), p.pos ≤ p.tokens.length →
      p.tokens.length - p.pos + 3 ≤ fuel →
      ∃ r, bodyLoop fuel p acc = some r ∧
        ∀ v p1, r = Result.ok (v, p1) →
          p1.tokens = p.tokens ∧ p.pos ≤ p1.pos ∧ p1.pos < p.tokens.length) := by
  induction fuel with
  | zero =>
    refine ⟨fun p _ hf => ?_, fun p _ _ hf => ?_, fun p _ _ hf => ?_⟩ <;> omega
  | succ n ih =>
    obtain ⟨ihS, ihF, ihB⟩ := ih
    refine ⟨fun p h hf => ?_, fun p h hf _ => ?_, fun p acc h hf => ?_⟩
    · -- parseStatement
      unfold parseStatement
      cases h0 : p.currentToken with
      | none => exact ⟨_, rfl, fun v p1 hv => Result.noConfusion hv⟩
      | some t =>
        have hlt := currentToken_some_lt h0
        simp only []
        split_ifs
        · exact ihF p h (by omega) (by omega)
        · exact ⟨_, rfl, fun v p1 hv => Result.noConfusion hv⟩
    · -- parseFunction
      unfold parseFunction
      cases h0 : p.currentToken with
      | none => exact ⟨_, rfl, fun v p1 hv => Result.noConfusion hv⟩
      | some t0 =>
        have hlt := currentToken_some_lt h0
        cases h1 : p.nextToken.currentToken with
        | none => exact ⟨_, rfl, fun v p1 hv => Result.noConfusion hv⟩
        | some t1 =>
          have hlt1 := currentToken_some_lt h1
          simp only [nextToken] at hlt1
          simp only []
          split_ifs
          · exact ⟨_, rfl, fun v p1 hv => Result.noConfusion hv⟩
          · obtain ⟨r, e, a⟩ := parametersLoop_total n p.nextToken.nextToken []
              (by simp only [nextToken]; omega) (by simp only [nextToken]; omega)
            rw [e]
            cases r with
            | panic => exact ⟨_, rfl, fun v p1 hv => Result.noConfusion hv⟩
            | error e => exact ⟨_, rfl, fun v p1 hv => Result.noConfusion hv⟩
            | ok w =>
              obtain ⟨ps, q⟩ := w
              obtain ⟨a1, a2, a3⟩ := a ps q rfl
              simp only [nextToken] at a1 a2 a3
              simp only []
              cases h2 : q.nextToken.currentToken with
              | none => exact ⟨_, rfl, fun v p1 hv => Result.noConfusion hv⟩
              | some t2 =>
                have hlt2 := currentToken_some_lt h2
                simp only [nextToken, a1] at hlt2
                simp only []
                split_ifs
                · exact ⟨_, rfl, fun v p1 hv => Result.noConfusion hv⟩
                · obtain ⟨r2, e2, b⟩ := ihB q.nextToken.nextToken []
                    (by simp only [nextToken, a1]; omega) (by simp only [nextToken, a1]; omega)
                  rw [e2]
                  cases r2 with
                  | panic => exact ⟨_, rfl, fun v p1 hv => Result.noConfusion hv⟩
                  | error e => exact ⟨_, rfl, fun v p1 hv => Result.noConfusion hv⟩
                  | ok w2 =>
                    obtain ⟨body, q2⟩ := w2
                    obtain ⟨b1, b2, b3⟩ := b body q2 rfl
                    simp only [nextToken, a1] at b1 b2 b3
                    refine ⟨_, rfl, fun v p1 hv => ?_⟩
                    injection hv with hv
                    injection hv with _ hp
                    subst hp
                    simp only [nextToken]
                    exact ⟨b1, by omega, by omega⟩
    · -- bodyLoop
      unfold bodyLoop
      cases h0 : p.currentToken with
      | none => exact ⟨_, rfl, fun v p1 hv => Result.noConfusion hv⟩
      | some t =>
        have hlt := currentToken_some_lt h0
        simp only []
        split_ifs
        · refine ⟨_, rfl, fun v p1 hv => ?_⟩
          injection hv with hv
          injection hv with _ hp
          subst hp
          exact ⟨rfl, le_rfl, hlt⟩
        · obtain ⟨r, e, a⟩ := ihS p h (by omega)
          rw [e]
          cases r with
          | panic => exact ⟨_, rfl, fun v p1 hv => Result.noConfusion hv⟩
          | error e => exact ⟨_, rfl, fun v p1 hv => Result.noConfusion hv⟩
          | ok w =>
            obtain ⟨stmt, q⟩ := w
            obtain ⟨a1, a2, a3⟩ := a stmt q rfl
            simp only []
            obtain ⟨r2, e2, b⟩ := ihB q (acc ++ [stmt]) (by rw [a1]; exact a3)
              (by rw [a1]; omega)
            refine ⟨r2, e2, fun v p1 hv => ?_⟩
            obtain ⟨b1, b2, b3⟩ := b v p1 hv
            rw [a1] at b1 b3
            exact ⟨b1, by omega, b3⟩

/-- With more fuel than tokens left, the loop of `Parse` ends. -/
theorem ParseLoop_total (fuel n : Nat) (p : Parser) (acc : List Node)
    (h : p.pos ≤ p.tokens.length) (hf : p.tokens.length - p.pos < fuel)
    (hn : p.tokens.length - p.pos < n) :
    ∃ r, ParseLoop fuel n p acc = some r := by
  induction n generalizing p acc with
  | zero => omega
  | succ n ih =>
    unfold ParseLoop
    split_ifs with hlt
    · obtain ⟨r, e, a⟩ := (parse_total_aux fuel).1 p h hf
      rw [e]
      cases r with
      | panic => exact ⟨_, rfl⟩
      | error e => exact ⟨_, rfl⟩
      | ok w =>
        obtain ⟨stmt, q⟩ := w
        obtain ⟨a1, a2, a3⟩ := a stmt q rfl
        simp only []
        exact ih q _ (by rw [a1]; exact a3) (by rw [a1]; omega) (by rw [a1]; omega)
    · exact ⟨_, rfl⟩

end Parser

/-- For every token sequence `Parse` returns: a program, an error or a panic; it does not run
out of fuel. -/
theorem Parse_total (tokens : List lexer.Token) : ∃ r, Parse tokens = some r :=
  Parser.ParseLoop_total _ _ _ _ (Nat.zero_le _) (by simp [NewParser]) (by simp [NewParser])

end parser

namespace lexer

/-- C1: for every input (any byte sequence, valid UTF-8 or not, empty or not) `Tokenize`
returns, and the `Literal` fields of the returned tokens, concatenated in order, are exactly
the input.  The result does not depend on the fuel: every amount above the length of the
input gives the same tokens. -/
theorem Tokenize_literals_concat (L : Rune → Bool) (input : GoString) :
    ∃ toks, Tokenize L input = some toks ∧ (toks.map Token.Literal).flatten = input ∧
      ∀ fuel, input.length < fuel → TokenizeFuel L fuel input = some toks := by
  obtain ⟨toks, e, j, _, _⟩ := TokenizeFuel_some L (input.length + 1) input (Nat.lt_succ_self _)
  have e1 : Tokenize L input = some toks := e
  exact ⟨toks, e1, j, fun fuel hf => by rw [TokenizeFuel_eq_Tokenize L fuel input hf, e1]⟩

end lexer

/-! ## The claims about single inputs -/

namespace lexer

/-- The bytes of `symbolKinds` are the twenty-seven symbols in the order of the
specification. -/
theorem symbolKinds_bytes :
    symbolKinds.map (fun p => p.1) = ascii ";,.()\x7b\x7d[]@#~?:$=!<>-&|+*/^%" := by decide

/-- C7: for each of the twenty-seven single-character symbols, `Tokenize` of the
one-character input returns exactly one token, of the kind of that symbol, with `Len` 1 and
with that character as `Literal`. -/
theorem Tokenize_single_symbol (L : Rune → Bool) (p : Byte × TokenKind)
    (hp : p ∈ symbolKinds) :
    Tokenize L [p.1] = some [{ Kind := p.2, Len := 1, Literal := [p.1] }] := by
  simp only [symbolKinds, List.mem_cons, List.mem_singleton, List.not_mem_nil, or_false] at hp
  rcases hp with h | h | h | h | h | h | h | h | h | h | h | h | h | h | h | h | h | h | h | h
    | h | h | h | h | h | h | h <;> subst h <;> rfl

/-- C7 at the input `/`: one token, of kind `Slash`. -/
theorem Tokenize_single_symbol_witness :
    (47, TokenKind.Slash) ∈ symbolKinds ∧
      Tokenize noLetterAboveLatin1 (ascii "/") =
        some [{ Kind := TokenKind.Slash, Len := 1, Literal := ascii "/" }] :=
  ⟨by decide, Tokenize_single_symbol noLetterAboveLatin1 (47, TokenKind.Slash) (by decide)⟩

/-- C4 at the input `/*/x`, where the text `/x` after the opening `/*` contains no `*/`:
`Tokenize` returns two tokens, the block comment `/*/` and the identifier `x`, because
`BlockComment` starts at the `*` of the opening `/*` and takes it with the `/` that follows
for a closing `*/`. -/
theorem Tokenize_slash_star_slash (L : Rune → Bool) :
    Tokenize L (ascii "/*/x") =
      some [{ Kind := TokenKind.BlockComment, Len := 3, Literal := ascii "/*/" },
            { Kind := TokenKind.Ident, Len := 1, Literal := ascii "x" }] := rfl

/-- C5 at the input `/*/*b*/c*/`, that is `/*` a `/*` b `*/` c `*/` with a empty, b = `b` and
c = `c`: `Tokenize` returns eight tokens, the first being the block comment `/*/`. -/
theorem Tokenize_nested_empty_prefix (L : Rune → Bool) :
    Tokenize L (ascii "/*/*b*/c*/") =
      some [{ Kind := TokenKind.BlockComment, Len := 3, Literal := ascii "/*/" },
            { Kind := TokenKind.Star, Len := 1, Literal := ascii "*" },
            { Kind := TokenKind.Unknown, Len := 1, Literal := ascii "b" },
            { Kind := TokenKind.Star, Len := 1, Literal := ascii "*" },
            { Kind := TokenKind.Slash, Len := 1, Literal := ascii "/" },
            { Kind := TokenKind.Unknown, Len := 1, Literal := ascii "c" },
            { Kind := TokenKind.Star, Len := 1, Literal := ascii "*" },
            { Kind := TokenKind.Slash, Len := 1, Literal := ascii "/" }] := rfl

/-- C10 at the input `bar`: `Tokenize` returns two tokens, `Unknown` `b` and `Ident` `ar`,
because `COrByteString` returns `Unknown` for every token that starts with `b` or `c`. -/
theorem Tokenize_bar (L : Rune → Bool) :
    Tokenize L (ascii "bar") =
      some [{ Kind := TokenKind.Unknown, Len := 1, Literal := ascii "b" },
            { Kind := TokenKind.Ident, Len := 2, Literal := ascii "ar" }] := rfl

end lexer

namespace parser

open lexer

/-- C2 at the text `foo(a,b){bar(){}}`: the parameter `b` and the first letter
of `bar` are tokens of kind `Unknown`, and `Parse` returns the error
`expected identifier, got` for the token `b`, and no program. -/
theorem Parse_Tokenize_foo (L : Rune → Bool) :
    Tokenize L (ascii "foo(a,b)\x7bbar()\x7b\x7d\x7d") =
      some [{ Kind := TokenKind.Ident, Len := 3, Literal := ascii "foo" },
            { Kind := TokenKind.OpenParen, Len := 1, Literal := ascii "(" },
            { Kind := TokenKind.Ident, Len := 1, Literal := ascii "a" },
            { Kind := TokenKind.Comma, Len := 1, Literal := ascii "," },
            { Kind := TokenKind.Unknown, Len := 1, Literal := ascii "b" },
            { Kind := TokenKind.CloseParen, Len := 1, Literal := ascii ")" },
            { Kind := TokenKind.OpenBrace, Len := 1, Literal := ascii "\x7b" },
            { Kind := TokenKind.Unknown, Len := 1, Literal := ascii "b" },
            { Kind := TokenKind.Ident, Len := 2, Literal := ascii "ar" },
            { Kind := TokenKind.OpenParen, Len := 1, Literal := ascii "(" },
            { Kind := TokenKind.CloseParen, Len := 1, Literal := ascii ")" },
            { Kind := TokenKind.OpenBrace, Len := 1, Literal := ascii "\x7b" },
            { Kind := TokenKind.CloseBrace, Len := 1, Literal := ascii "\x7d" },
            { Kind := TokenKind.CloseBrace, Len := 1, Literal := ascii "\x7d" }] ∧
    (Tokenize L (ascii "foo(a,b)\x7bbar()\x7b\x7d\x7d")).bind Parse =
      some (Result.error (Errorf "expected identifier, got %v"
        { Kind := TokenKind.Unknown, Len := 1, Literal := ascii "b" })) :=
  ⟨rfl, rfl⟩

/-- C3 at the token sequences `Ident foo` and `Ident f, OpenParen`: `Parse` panics (index out
of range in `currentToken`); it returns neither a program nor an error. -/
theorem Parse_truncated_panics :
    Parse [{ Kind := TokenKind.Ident, Len := 3, Literal := ascii "foo" }] = some Result.panic ∧
    Parse [{ Kind := TokenKind.Ident, Len := 1, Literal := ascii "f" },
           { Kind := TokenKind.OpenParen, Len := 1, Literal := ascii "(" }] =
      some Result.panic :=
  ⟨rfl, rfl⟩

/-- C6: for every non-empty token sequence whose first token has a kind other than `Ident`,
`Parse` returns the error `unexpected token:` with that token, and no program. -/
theorem Parse_first_not_Ident (t : Token) (ts : List Token) (h : t.Kind ≠ TokenKind.Ident) :
    Parse (t :: ts) = some (Result.error (Errorf "unexpected token: %v" t)) := by
  simp [Parse, ParseFuel, Parser.ParseLoop, Parser.parseStatement, Parser.currentToken,
    NewParser, h]

/-- C6 at the lone token `(`. -/
theorem Parse_first_not_Ident_witness :
    Parse [{ Kind := TokenKind.OpenParen, Len := 1, Literal := ascii "(" }] =
      some (Result.error (Errorf "unexpected token: %v"
        { Kind := TokenKind.OpenParen, Len := 1, Literal := ascii "(" })) :=
  Parse_first_not_Ident _ [] (by decide)

end parser

/-! ## The reference-counting allocator -/

namespace rust_gc

/-- `Collect` changes nothing in a table all of whose counts are at least one. -/
theorem Collect_eq_self (gc : Gc) (h : ∀ obj count, gc.objects obj = some count → 1 ≤ count) :
    gc.Collect = gc := by
  cases gc with
  | mk objects =>
    simp only [Gc.Collect, Gc.mk.injEq]
    funext o
    cases ho : objects o with
    | none => rfl
    | some count =>
      have := h o count ho
      simp only []
      rw [if_neg (by omega)]

/-- In a reachable state every count is at least one. -/
theorem Reachable_count_pos (gc : Gc) (hr : Reachable gc) :
    ∀ obj count, gc.objects obj = some count → 1 ≤ count := by
  induction hr with
  | newGc => intro obj count h; simp [NewGc] at h
  | allocate gc obj _ ih =>
    intro o count h
    simp only [Gc.Allocate] at h
    split_ifs at h
    · injection h with h; omega
    · exact ih o count h
  | addRef gc obj _ ih =>
    intro o count h
    unfold Gc.AddRef at h
    cases hc : gc.objects obj with
    | none => rw [hc] at h; exact ih o count h
    | some c0 =>
      rw [hc] at h
      simp only [] at h
      have := ih obj c0 hc
      split_ifs at h
      · injection h with h; omega
      · exact ih o count h
  | release gc obj _ ih =>
    intro o count h
    unfold Gc.Release at h
    cases hc : gc.objects obj with
    | none => rw [hc] at h; exact ih o count h
    | some c0 =>
      rw [hc] at h
      simp only [] at h
      have := ih obj c0 hc
      split_ifs at h with h1
      · simp only [] at h
        split_ifs at h
        · injection h with h; omega
        · exact ih o count h
      · simp only [] at h
        split_ifs at h
        exact ih o count h
  | collect gc _ ih =>
    rw [Collect_eq_self gc ih]
    exact ih

/-- C20: in every state of a `Gc` reached from `NewGc` by calls of `Allocate`, `AddRef`,
`Release` and `Collect` (counts being mathematical integers), every tracked object has a count
of at least one, and `Collect` leaves the table unchanged. -/
theorem Reachable_inv (gc : Gc) (hr : Reachable gc) :
    (∀ obj count, gc.objects obj = some count → 1 ≤ count) ∧ gc.Collect = gc :=
  ⟨Reachable_count_pos gc hr, Collect_eq_self gc (Reachable_count_pos gc hr)⟩

/-- C20 at the state after `Allocate`, `AddRef`, `Release`, `Release` of one object and
`Allocate` of a second one. -/
theorem Reachable_inv_witness :
    (∀ obj count,
      (((((NewGc.Allocate 0).AddRef 0).Release 0).Release 0).Allocate 1).objects obj = some count →
        1 ≤ count) ∧
    (((((NewGc.Allocate 0).AddRef 0).Release 0).Release 0).Allocate 1).Collect =
      ((((NewGc.Allocate 0).AddRef 0).Release 0).Release 0).Allocate 1 :=
  Reachable_inv _
    (Reachable.allocate _ 1 (Reachable.release _ 0 (Reachable.release _ 0
      (Reachable.addRef _ 0 (Reachable.allocate _ 0 Reachable.newGc)))))

end rust_gc

/-! ## The stubs `Number` and `LifetimeOrChar` -/

namespace lexer

/-- C15 at the input `123`: `Tokenize` returns three tokens of kind `Literal`, one for each
digit, because `Number` returns `Literal` without reading on. -/
theorem Tokenize_digits (L : Rune → Bool) :
    Tokenize L (ascii "123") =
      some [{ Kind := TokenKind.Literal, Len := 1, Literal := ascii "1" },
            { Kind := TokenKind.Literal, Len := 1, Literal := ascii "2" },
            { Kind := TokenKind.Literal, Len := 1, Literal := ascii "3" }] := rfl

/-- C17 at the input `'a'` (apostrophe, `a`, apostrophe): `Tokenize` returns three tokens,
`Literal` for the apostrophe, `Ident` `a` and `Literal` for the second apostrophe, because
`LifetimeOrChar` returns `Literal` without reading on. -/
theorem Tokenize_char_literal (L : Rune → Bool) :
    Tokenize L [39, 97, 39] =
      some [{ Kind := TokenKind.Literal, Len := 1, Literal := [39] },
            { Kind := TokenKind.Ident, Len := 1, Literal := [97] },
            { Kind := TokenKind.Literal, Len := 1, Literal := [39] }] := rfl

end lexer

/-! ## The parser and the tokens ahead of it -/

namespace parser
namespace Parser

open lexer

theorem currentToken_eq_head (p : Parser) : p.currentToken = p.rest.head? := by
  simp [currentToken, rest]

theorem rest_nextToken (p : Parser) : p.nextToken.rest = p.rest.tail := by
  simp [nextToken, rest, List.tail_drop]

theorem rest_of_currentToken {p : Parser} {t : Token} (h : p.currentToken = some t) :
    p.rest = t :: p.nextToken.rest := by
  rw [currentToken_eq_head] at h
  rw [rest_nextToken]
  cases hr : p.rest with
  | nil => rw [hr] at h; exact Option.noConfusion h
  | cons a tl =>
    rw [hr] at h
    simp only [List.head?_cons, Option.some.injEq] at h
    rw [h]
    rfl

theorem rest_of_currentToken_none {p : Parser} (h : p.currentToken = none) : p.rest = [] := by
  rw [currentToken_eq_head] at h
  cases hr : p.rest with
  | nil => rfl
  | cons a tl => rw [hr] at h; exact Option.noConfusion h

/-- A parser that is blocked stands on a token. -/
theorem Blocked.currentToken_ne_none {p : Parser} (hb : p.Blocked) : p.currentToken ≠ none := by
  intro h
  obtain ⟨t, ht, _⟩ := hb
  rw [rest_of_currentToken_none h] at ht
  exact List.not_mem_nil _ ht

/-- Passing a token that is not trivia leaves the parser blocked. -/
theorem Blocked.nextToken {p : Parser} {t : Token} (hb : p.Blocked)
    (h : p.currentToken = some t) (hk : ¬ Trivia t.Kind) : p.nextToken.Blocked := by
  obtain ⟨u, hu, hT⟩ := hb
  rw [rest_of_currentToken h] at hu
  rcases List.mem_cons.1 hu with rfl | hu
  · exact absurd hT hk
  · exact ⟨u, hu, hT⟩

/-- When the parameter loop ends without error the parser stands on a `CloseParen`. -/
theorem parametersLoop_ok_current (fuel : Nat) (p : Parser) (acc : List GoString)
    (v : List GoString) (p1 : Parser) (h : parametersLoop fuel p acc = some (Result.ok (v, p1))) :
    ∃ t, p1.currentToken = some t ∧ t.Kind = TokenKind.CloseParen := by
  induction fuel generalizing p acc with
  | zero => simp [parametersLoop] at h
  | succ n ih =>
    unfold parametersLoop at h
    cases h0 : p.currentToken with
    | none => rw [h0] at h; simp at h
    | some t =>
      rw [h0] at h
      simp only [] at h
      split_ifs at h with hc hi
      · injection h with h
        injection h with h
        injection h with _ hp
        subst hp
        exact ⟨t, h0, hc⟩
      · simp at h
      · cases h1 : p.nextToken.currentToken with
        | none => rw [h1] at h; simp at h
        | some t1 =>
          rw [h1] at h
          simp only [] at h
          split_ifs at h
          · exact ih _ _ h
          · exact ih _ _ h

/-- When the body loop ends without error the parser stands on a `CloseBrace`. -/
theorem bodyLoop_ok_current (fuel : Nat) (p : Parser) (acc : List Node)
    (v : List Node) (p1 : Parser) (h : bodyLoop fuel p acc = some (Result.ok (v, p1))) :
    ∃ t, p1.currentToken = some t ∧ t.Kind = TokenKind.CloseBrace := by
  induction fuel generalizing p acc with
  | zero => simp [bodyLoop] at h
  | succ n ih =>
    unfold bodyLoop at h
    cases h0 : p.currentToken with
    | none => rw [h0] at h; simp at h
    | some t =>
      rw [h0] at h
      simp only [] at h
      split_ifs at h with hc
      · injection h with h
        injection h with h
        injection h with _ hp
        subst hp
        exact ⟨t, h0, hc⟩
      · cases hs : parseStatement n p with
        | none => rw [hs] at h; simp at h
        | some rs =>
          rw [hs] at h
          cases rs with
          | panic => simp at h
          | error e => simp at h
          | ok w =>
            obtain ⟨stmt, q⟩ := w
            exact ih _ _ h

/-- A blocked parser neither panics in the parameter loop nor leaves it unblocked. -/
theorem parametersLoop_blocked (fuel : Nat) (p : Parser) (acc : List GoString)
    (hb : p.Blocked) (r : Result (List GoString × Parser))
    (h : parametersLoop fuel p acc = some r) :
    r ≠ Result.panic ∧ ∀ v p1, r = Result.ok (v, p1) → p1.Blocked := by
  induction fuel generalizing p acc with
  | zero => simp [parametersLoop] at h
  | succ n ih =>
    unfold parametersLoop at h
    cases h0 : p.currentToken with
    | none => exact absurd h0 hb.currentToken_ne_none
    | some t =>
      rw [h0] at h
      simp only [] at h
      split_ifs at h with hc hi
      · injection h with h
        subst h
        refine ⟨fun hh => Result.noConfusion hh, fun v p1 hv => ?_⟩
        injection hv with hv
        injection hv with _ hp
        subst hp
        exact hb
      · injection h with h
        subst h
        exact ⟨fun hh => Result.noConfusion hh, fun v p1 hv => Result.noConfusion hv⟩
      · have hi1 : t.Kind = TokenKind.Ident := by simpa using hi
        have hb1 : p.nextToken.Blocked :=
          hb.nextToken h0 (by rw [hi1]; unfold Trivia; decide)
        cases h1 : p.nextToken.currentToken with
        | none => exact absurd h1 hb1.currentToken_ne_none
        | some t1 =>
          rw [h1] at h
          simp only [] at h
          split_ifs at h with hcm
          · exact ih _ _ (hb1.nextToken h1 (by rw [hcm]; unfold Trivia; decide)) h
          · exact ih _ _ hb1 h

/-- A blocked parser neither panics in `parseStatement`, `parseFunction` or the body loop nor
comes back from them unblocked. -/
theorem parse_blocked_aux (fuel : Nat) :
    (∀ (p : Parser) (r : Result (Node × Parser)), p.Blocked → parseStatement fuel p = some r →
      r ≠ Result.panic ∧ ∀ v p1, r = Result.ok (v, p1) → p1.Blocked) ∧
    (∀ (p : Parser) (r : Result (Node × Parser)), p.Blocked →
      (∀ t, p.currentToken = some t → t.Kind = TokenKind.Ident) →
      parseFunction fuel p = some r →
      r ≠ Result.panic ∧ ∀ v p1, r = Result.ok (v, p1) → p1.Blocked) ∧
    (∀ (p : Parser) (acc : List Node) (r : Result (List Node × Parser)), p.Blocked →
      bodyLoop fuel p acc = some r →
      r ≠ Result.panic ∧ ∀ v p1, r = Result.ok (v, p1) → p1.Blocked) := by
  induction fuel with
  | zero =>
    refine ⟨fun p r _ h => ?_, fun p r _ _ h => ?_, fun p acc r _ h => ?_⟩
    · simp [parseStatement] at h
    · simp [parseFunction] at h
    · simp [bodyLoop] at h
  | succ n ih =>
    obtain ⟨ihS, ihF, ihB⟩ := ih
    refine ⟨fun p r hb h => ?_, fun p r hb hid h => ?_, fun p acc r hb h => ?_⟩
    · unfold parseStatement at h
      cases h0 : p.currentToken with
      | none => exact absurd h0 hb.currentToken_ne_none
      | some t =>
        rw [h0] at h
        simp only [] at h
        split_ifs at h with hi
        · exact ihF p r hb (fun u hu => by rw [h0] at hu; injection hu with hu; rw [← hu]; exact hi) h
        · injection h with h
          subst h
          exact ⟨fun hh => Result.noConfusion hh, fun v p1 hv => Result.noConfusion hv⟩
    · unfold parseFunction at h
      cases h0 : p.currentToken with
      | none => exact absurd h0 hb.currentToken_ne_none
      | some t0 =>
        have hb1 : p.nextToken.Blocked :=
          hb.nextToken h0 (by rw [hid t0 h0]; unfold Trivia; decide)
        cases h1 : p.nextToken.currentToken with
        | none => exact absurd h1 hb1.currentToken_ne_none
        | some t1 =>
          rw [h0, h1] at h
          simp only [] at h
          split_ifs at h with hop
          · injection h with h
            subst h
            exact ⟨fun hh => Result.noConfusion hh, fun v p1 hv => Result.noConfusion hv⟩
          · have hop1 : t1.Kind = TokenKind.OpenParen := by simpa using hop
            have hb2 : p.nextToken.nextToken.Blocked :=
              hb1.nextToken h1 (by rw [hop1]; unfold Trivia; decide)
            cases hpl : parametersLoop n p.nextToken.nextToken [] with
            | none => rw [hpl] at h; exact Option.noConfusion h
            | some rp =>
              obtain ⟨np, okp⟩ := parametersLoop_blocked n _ [] hb2 rp hpl
              rw [hpl] at h
              cases rp with
              | panic => exact absurd rfl np
              | error e =>
                simp only [] at h
                injection h with h
                subst h
                exact ⟨fun hh => Result.noConfusion hh, fun v p1 hv => Result.noConfusion hv⟩
              | ok w =>
                obtain ⟨ps, q⟩ := w
                have hq : q.Blocked := okp ps q rfl
                simp only [] at h
                obtain ⟨tq, hq0, hqk⟩ := parametersLoop_ok_current n _ [] ps q hpl
                have hq1 : q.nextToken.Blocked :=
                  hq.nextToken hq0 (by rw [hqk]; unfold Trivia; decide)
                cases h2 : q.nextToken.currentToken with
                | none => exact absurd h2 hq1.currentToken_ne_none
                | some t2 =>
                  rw [h2] at h
                  simp only [] at h
                  split_ifs at h with hob
                  · injection h with h
                    subst h
                    exact ⟨fun hh => Result.noConfusion hh,
                      fun v p1 hv => Result.noConfusion hv⟩
                  · have hob1 : t2.Kind = TokenKind.OpenBrace := by simpa using hob
                    have hq2 : q.nextToken.nextToken.Blocked :=
                      hq1.nextToken h2 (by rw [hob1]; unfold Trivia; decide)
                    cases hbl : bodyLoop n q.nextToken.nextToken [] with
                    | none => rw [hbl] at h; exact Option.noConfusion h
                    | some rb =>
                      obtain ⟨nb, okb⟩ := ihB _ [] rb hq2 hbl
                      rw [hbl] at h
                      cases rb with
                      | panic => exact absurd rfl nb
                      | error e =>
                        simp only [] at h
                        injection h with h
                        subst h
                        exact ⟨fun hh => Result.noConfusion hh,
                          fun v p1 hv => Result.noConfusion hv⟩
                      | ok w2 =>
                        obtain ⟨body, q2⟩ := w2
                        have hq3 : q2.Blocked := okb body q2 rfl
                        obtain ⟨tb, hb0, hbk⟩ := bodyLoop_ok_current n _ [] body q2 hbl
                        simp only [] at h
                        injection h with h
                        subst h
                        refine ⟨fun hh => Result.noConfusion hh, fun v p1 hv => ?_⟩
                        injection hv with hv
                        injection hv with _ hp
                        subst hp
                        exact hq3.nextToken hb0 (by rw [hbk]; unfold Trivia; decide)
    · unfold bodyLoop at h
      cases h0 : p.currentToken with
      | none => exact absurd h0 hb.currentToken_ne_none
      | some t =>
        rw [h0] at h
        simp only [] at h
        split_ifs at h with hc
        · injection h with h
          subst h
          refine ⟨fun hh => Result.noConfusion hh, fun v p1 hv => ?_⟩
          injection hv with hv
          injection hv with _ hp
          subst hp
          exact hb
        · cases hs : parseStatement n p with
          | none => rw [hs] at h; exact Option.noConfusion h
          | some rs =>
            obtain ⟨ns, oks⟩ := ihS p rs hb hs
            rw [hs] at h
            cases rs with
            | panic => exact absurd rfl ns
            | error e =>
              simp only [] at h
              injection h with h
              subst h
              exact ⟨fun hh => Result.noConfusion hh, fun v p1 hv => Result.noConfusion hv⟩
            | ok w =>
              obtain ⟨stmt, q⟩ := w
              simp only [] at h
              exact ihB q _ r (oks stmt q rfl) h

/-- The loop of `Parse`, started on a blocked parser, ends with an error. -/
theorem ParseLoop_blocked (fuel n : Nat) (p : Parser) (acc : List Node)
    (r : Result Program) (hb : p.Blocked) (h : ParseLoop fuel n p acc = some r) :
    ∃ e, r = Result.error e := by
  induction n generalizing p acc with
  | zero => simp [ParseLoop] at h
  | succ n ih =>
    unfold ParseLoop at h
    have hlt : p.pos < p.tokens.length := by
      cases h0 : p.currentToken with
      | none => exact absurd h0 hb.currentToken_ne_none
      | some t => exact currentToken_some_lt h0
    rw [if_pos hlt] at h
    cases hs : parseStatement fuel p with
    | none => rw [hs] at h; exact Option.noConfusion h
    | some rs =>
      obtain ⟨ns, oks⟩ := (parse_blocked_aux fuel).1 p rs hb hs
      rw [hs] at h
      cases rs with
      | panic => exact absurd rfl ns
      | error e =>
        simp only [] at h
        injection h with h
        exact ⟨e, h.symm⟩
      | ok w =>
        obtain ⟨stmt, q⟩ := w
        simp only [] at h
        exact ih q _ (oks stmt q rfl) h

end Parser

/-- C11: for every token sequence that contains a token of kind `Whitespace`, `LineComment`
or `BlockComment`, `Parse` returns a parse error: no program, and no panic. -/
theorem Parse_trivia_error (tokens : List lexer.Token)
    (h : ∃ t ∈ tokens, t.Kind = lexer.TokenKind.Whitespace ∨
      t.Kind = lexer.TokenKind.LineComment ∨ t.Kind = lexer.TokenKind.BlockComment) :
    ∃ e, Parse tokens = some (Result.error e) := by
  obtain ⟨r, hr⟩ := Parse_total tokens
  obtain ⟨e, he⟩ := Parser.ParseLoop_blocked _ _ (NewParser tokens) [] r
    (by simpa [Parser.Blocked, Parser.rest, NewParser, Trivia] using h) hr
  exact ⟨e, by rw [hr, he]⟩

/-- C11 at the tokens of `f (){}` with the blank between `f` and `(`: the error is
`expected '('` with the `Whitespace` token. -/
theorem Parse_trivia_error_witness :
    ∃ e, Parse [{ Kind := lexer.TokenKind.Ident, Len := 1, Literal := lexer.ascii "f" },
                { Kind := lexer.TokenKind.Whitespace, Len := 1, Literal := lexer.ascii " " },
                { Kind := lexer.TokenKind.OpenParen, Len := 1, Literal := lexer.ascii "(" },
                { Kind := lexer.TokenKind.CloseParen, Len := 1, Literal := lexer.ascii ")" },
                { Kind := lexer.TokenKind.OpenBrace, Len := 1, Literal := lexer.ascii "\x7b" },
                { Kind := lexer.TokenKind.CloseBrace, Len := 1, Literal := lexer.ascii "\x7d" }]
      = some (Result.error e) :=
  Parse_trivia_error _ ⟨(⟨lexer.TokenKind.Whitespace, 1, lexer.ascii " "⟩ : lexer.Token),
    by simp, Or.inl rfl⟩

end parser

/-! ## The sequences of kinds that `Parse` accepts -/

namespace parser

open lexer

theorem DerivFunctions.inv {P : List TokenKind → Prop} {l : List TokenKind}
    (h : DerivFunctions P l) :
    l = [] ∨ ∃ ps body fs, P ps ∧ DerivFunctions P body ∧ DerivFunctions P fs ∧
      l = TokenKind.Ident :: TokenKind.OpenParen ::
        (ps ++ TokenKind.CloseParen :: TokenKind.OpenBrace :: (body ++ [TokenKind.CloseBrace]))
          ++ fs := by
  cases h with
  | nil => exact Or.inl rfl
  | cons hf hfs =>
    cases hf with
    | mk hp hb => exact Or.inr ⟨_, _, _, hp, hb, hfs, rfl⟩

/-- C12 does not hold as stated: `Parse` returns a program for the tokens of `f(a b){}`, two
parameters without a comma between them, and their kinds are not derivable from the grammar
with `(Ident (Comma Ident)*)?`. -/
theorem Parse_accepts_missing_comma :
    Parse [{ Kind := TokenKind.Ident, Len := 1, Literal := ascii "f" },
           { Kind := TokenKind.OpenParen, Len := 1, Literal := ascii "(" },
           { Kind := TokenKind.Ident, Len := 1, Literal := ascii "a" },
           { Kind := TokenKind.Ident, Len := 1, Literal := ascii "b" },
           { Kind := TokenKind.CloseParen, Len := 1, Literal := ascii ")" },
           { Kind := TokenKind.OpenBrace, Len := 1, Literal := ascii "\x7b" },
           { Kind := TokenKind.CloseBrace, Len := 1, Literal := ascii "\x7d" }] =
      some (Result.ok { Statements := [Node.Function (ascii "f") [ascii "a", ascii "b"] []] }) ∧
    ¬ DerivFunctions GrammarParams
      [TokenKind.Ident, TokenKind.OpenParen, TokenKind.Ident, TokenKind.Ident,
       TokenKind.CloseParen, TokenKind.OpenBrace, TokenKind.CloseBrace] := by
  refine ⟨rfl, fun h => ?_⟩
  rcases h.inv with h0 | ⟨ps, body, fs, hp, _, _, he⟩
  · exact List.noConfusion h0
  · simp only [List.cons_append, List.cons.injEq, true_and] at he
    cases hp with
    | empty => simp at he
    | idents hc =>
      cases hc with
      | nil => simp at he
      | cons hc1 => simp at he

namespace Parser

theorem restKinds_of_currentToken {p : Parser} {t : Token} (h : p.currentToken = some t) :
    p.restKinds = t.Kind :: p.nextToken.restKinds := by
  simp only [restKinds]
  rw [rest_of_currentToken h]
  rfl

/-- The kinds that the parameter loop passes are of the form `(Ident Comma?)*`. -/
theorem parametersLoop_kinds (fuel : Nat) (p : Parser) (acc : List GoString)
    (v : List GoString) (p1 : Parser) (h : parametersLoop fuel p acc = some (Result.ok (v, p1))) :
    ∃ ks, OptCommaParams ks ∧ p.restKinds = ks ++ p1.restKinds := by
  induction fuel generalizing p acc with
  | zero => simp [parametersLoop] at h
  | succ n ih =>
    unfold parametersLoop at h
    cases h0 : p.currentToken with
    | none => rw [h0] at h; simp at h
    | some t =>
      rw [h0] at h
      simp only [] at h
      split_ifs at h with hc hi
      · injection h with h
        injection h with h
        injection h with _ hp
        subst hp
        exact ⟨[], OptCommaParams.nil, rfl⟩
      · simp at h
      · have hi1 : t.Kind = TokenKind.Ident := by simpa using hi
        cases h1 : p.nextToken.currentToken with
        | none => rw [h1] at h; simp at h
        | some t1 =>
          rw [h1] at h
          simp only [] at h
          split_ifs at h with hcm
          · obtain ⟨ks, hks, e⟩ := ih _ _ h
            refine ⟨_, OptCommaParams.identComma hks, ?_⟩
            rw [restKinds_of_currentToken h0, restKinds_of_currentToken h1, hi1, hcm, e]
            rfl
          · obtain ⟨ks, hks, e⟩ := ih _ _ h
            refine ⟨_, OptCommaParams.ident hks, ?_⟩
            rw [restKinds_of_currentToken h0, hi1, e]
            rfl

/-- The kinds that `parseStatement`, `parseFunction` and the body loop pass are derivable
from the grammar with the parameter lists `(Ident Comma?)*`. -/
theorem parse_kinds_aux (fuel : Nat) :
    (∀ (p : Parser) (v : Node) (p1 : Parser), parseStatement fuel p = some (Result.ok (v, p1)) →
      ∃ ks, DerivFunction OptCommaParams ks ∧ p.restKinds = ks ++ p1.restKinds) ∧
    (∀ (p : Parser) (v : Node) (p1 : Parser),
      (∀ t, p.currentToken = some t → t.Kind = TokenKind.Ident) →
      parseFunction fuel p = some (Result.ok (v, p1)) →
      ∃ ks, DerivFunction OptCommaParams ks ∧ p.restKinds = ks ++ p1.restKinds) ∧
    (∀ (p : Parser) (acc : List Node) (v : List Node) (p1 : Parser),
      bodyLoop fuel p acc = some (Result.ok (v, p1)) →
      ∃ ks, DerivFunctions OptCommaParams ks ∧ p.restKinds = ks ++ p1.restKinds) := by
  induction fuel with
  | zero =>
    refine ⟨fun p v p1 h => ?_, fun p v p1 _ h => ?_, fun p acc v p1 h => ?_⟩
    · simp [parseStatement] at h
    · simp [parseFunction] at h
    · simp [bodyLoop] at h
  | succ n ih =>
    obtain ⟨ihS, ihF, ihB⟩ := ih
    refine ⟨fun p v p1 h => ?_, fun p v p1 hid h => ?_, fun p acc v p1 h => ?_⟩
    · unfold parseStatement at h
      cases h0 : p.currentToken with
      | none => rw [h0] at h; simp at h
      | some t =>
        rw [h0] at h
        simp only [] at h
        split_ifs at h with hi
        · exact ihF p v p1
            (fun u hu => by rw [h0] at hu; injection hu with hu; rw [← hu]; exact hi) h
        · simp at h
    · unfold parseFunction at h
      cases h0 : p.currentToken with
      | none => rw [h0] at h; simp at h
      | some t0 =>
        cases h1 : p.nextToken.currentToken with
        | none => rw [h0, h1] at h; simp at h
        | some t1 =>
          rw [h0, h1] at h
          simp only [] at h
          split_ifs at h with hop
          · simp at h
          · have hop1 : t1.Kind = TokenKind.OpenParen := by simpa using hop
            cases hpl : parametersLoop n p.nextToken.nextToken [] with
            | none => rw [hpl] at h; simp at h
            | some rp =>
              rw [hpl] at h
              cases rp with
              | panic => simp at h
              | error e => simp at h
              | ok w =>
                obtain ⟨ps, q⟩ := w
                obtain ⟨kp, hkp, ep⟩ := parametersLoop_kinds n _ [] ps q hpl
                obtain ⟨tq, hq0, hqk⟩ := parametersLoop_ok_current n _ [] ps q hpl
                simp only [] at h
                cases h2 : q.nextToken.currentToken with
                | none => rw [h2] at h; simp at h
                | some t2 =>
                  rw [h2] at h
                  simp only [] at h
                  split_ifs at h with hob
                  · simp at h
                  · have hob1 : t2.Kind = TokenKind.OpenBrace := by simpa using hob
                    cases hbl : bodyLoop n q.nextToken.nextToken [] with
                    | none => rw [hbl] at h; simp at h
                    | some rb =>
                      rw [hbl] at h
                      cases rb with
                      | panic => simp at h
                      | error e => simp at h
                      | ok w2 =>
                        obtain ⟨body, q2⟩ := w2
                        obtain ⟨kb, hkb, eb⟩ := ihB _ [] body q2 hbl
                        obtain ⟨tb, hb0, hbk⟩ := bodyLoop_ok_current n _ [] body q2 hbl
                        simp only [] at h
                        injection h with h
                        injection h with h
                        injection h with _ hp
                        subst hp
                        refine ⟨_, DerivFunction.mk hkp hkb, ?_⟩
                        rw [restKinds_of_currentToken h0, restKinds_of_currentToken h1,
                          hid t0 h0, hop1, ep, restKinds_of_currentToken hq0, hqk,
                          restKinds_of_currentToken h2, hob1, eb,
                          restKinds_of_currentToken hb0, hbk]
                        simp
    · unfold bodyLoop at h
      cases h0 : p.currentToken with
      | none => rw [h0] at h; simp at h
      | some t =>
        rw [h0] at h
        simp only [] at h
        split_ifs at h with hc
        · injection h with h
          injection h with h
          injection h with _ hp
          subst hp
          exact ⟨[], DerivFunctions.nil, rfl⟩
        · cases hs : parseStatement n p with
          | none => rw [hs] at h; simp at h
          | some rs =>
            rw [hs] at h
            cases rs with
            | panic => simp at h
            | error e => simp at h
            | ok w =>
              obtain ⟨stmt, q⟩ := w
              obtain ⟨kf, hkf, ef⟩ := ihS p stmt q hs
              simp only [] at h
              obtain ⟨kfs, hkfs, efs⟩ := ihB q _ v p1 h
              exact ⟨kf ++ kfs, DerivFunctions.cons hkf hkfs, by rw [ef, efs, List.append_assoc]⟩

/-- The kinds that the loop of `Parse` passes when it returns a program. -/
theorem ParseLoop_kinds (fuel n : Nat) (p : Parser) (acc : List Node) (prog : Program)
    (h : ParseLoop fuel n p acc = some (Result.ok prog)) :
    DerivFunctions OptCommaParams p.restKinds := by
  induction n generalizing p acc with
  | zero => simp [ParseLoop] at h
  | succ n ih =>
    unfold ParseLoop at h
    split_ifs at h with hlt
    · cases hs : parseStatement fuel p with
      | none => rw [hs] at h; simp at h
      | some rs =>
        rw [hs] at h
        cases rs with
        | panic => simp at h
        | error e => simp at h
        | ok w =>
          obtain ⟨stmt, q⟩ := w
          obtain ⟨kf, hkf, ef⟩ := (parse_kinds_aux fuel).1 p stmt q hs
          simp only [] at h
          rw [ef]
          exact DerivFunctions.cons hkf (ih q _ h)
    · have : p.restKinds = [] := by
        simp only [restKinds, rest]
        rw [List.drop_eq_nil_of_le (by omega)]
        rfl
      rw [this]
      exact DerivFunctions.nil

end Parser

/-- C12, amended: for every token sequence on which `Parse` returns a program, the sequence
of token kinds is derivable from the grammar `program := function*`,
`function := Ident OpenParen (Ident Comma?)* CloseParen OpenBrace function* CloseBrace`. -/
theorem Parse_ok_derivable (tokens : List Token) (prog : Program)
    (h : Parse tokens = some (Result.ok prog)) :
    DerivFunctions OptCommaParams (tokens.map Token.Kind) :=
  Parser.ParseLoop_kinds _ _ (NewParser tokens) [] prog h

/-- C12, amended, at the tokens of `f(a b){}`. -/
theorem Parse_ok_derivable_witness :
    Parse [{ Kind := TokenKind.Ident, Len := 1, Literal := ascii "f" },
           { Kind := TokenKind.OpenParen, Len := 1, Literal := ascii "(" },
           { Kind := TokenKind.Ident, Len := 1, Literal := ascii "a" },
           { Kind := TokenKind.Ident, Len := 1, Literal := ascii "b" },
           { Kind := TokenKind.CloseParen, Len := 1, Literal := ascii ")" },
           { Kind := TokenKind.OpenBrace, Len := 1, Literal := ascii "\x7b" },
           { Kind := TokenKind.CloseBrace, Len := 1, Literal := ascii "\x7d" }] =
      some (Result.ok { Statements := [Node.Function (ascii "f") [ascii "a", ascii "b"] []] }) ∧
    DerivFunctions OptCommaParams
      [TokenKind.Ident, TokenKind.OpenParen, TokenKind.Ident, TokenKind.Ident,
       TokenKind.CloseParen, TokenKind.OpenBrace, TokenKind.CloseBrace] :=
  ⟨rfl, Parse_ok_derivable
    [{ Kind := TokenKind.Ident, Len := 1, Literal := ascii "f" },
     { Kind := TokenKind.OpenParen, Len := 1, Literal := ascii "(" },
     { Kind := TokenKind.Ident, Len := 1, Literal := ascii "a" },
     { Kind := TokenKind.Ident, Len := 1, Literal := ascii "b" },
     { Kind := TokenKind.CloseParen, Len := 1, Literal := ascii ")" },
     { Kind := TokenKind.OpenBrace, Len := 1, Literal := ascii "\x7b" },
     { Kind := TokenKind.CloseBrace, Len := 1, Literal := ascii "\x7d" }]
    { Statements := [Node.Function (ascii "f") [ascii "a", ascii "b"] []] } rfl⟩

end parser

/-! ## Parsing the tokens that render a tree gives the tree back -/

namespace parser

open lexer

namespace Parser

theorem currentToken_of_rest {p : Parser} {t : Token} {tl : List Token} (h : p.rest = t :: tl) :
    p.currentToken = some t ∧ p.nextToken.rest = tl := by
  refine ⟨by rw [currentToken_eq_head, h]; rfl, by rw [rest_nextToken, h]; rfl⟩

/-- The parameter loop on rendered parameters: unless the fuel runs out, it returns the
parameters and stops on the `CloseParen`. -/
theorem parametersLoop_render (fuel : Nat) (p : Parser) (acc parameters : List GoString)
    (tl : List Token)
    (h : p.rest = renderParameters parameters ++ symbolToken TokenKind.CloseParen 41 :: tl) :
    parametersLoop fuel p acc = none ∨
      ∃ p1, parametersLoop fuel p acc = some (Result.ok (acc ++ parameters, p1)) ∧
        p1.rest = symbolToken TokenKind.CloseParen 41 :: tl := by
  induction fuel generalizing p acc parameters with
  | zero => exact Or.inl rfl
  | succ n ih =>
    unfold parametersLoop
    match parameters, h with
    | [], h =>
      obtain ⟨h0, _⟩ := currentToken_of_rest h
      refine Or.inr ⟨p, ?_, h⟩
      simp [h0, symbolToken]
    | [a], h =>
      obtain ⟨h0, h1⟩ := currentToken_of_rest h
      obtain ⟨h2, _⟩ := currentToken_of_rest h1
      simp only [h0, h2, identToken, symbolToken]
      simp only [reduceCtorEq, if_false, ne_eq, not_true_eq_false]
      exact ih p.nextToken (acc ++ [a]) [] h1 |>.imp id
        (fun ⟨p1, e, r⟩ => ⟨p1, by simpa using e, r⟩)
    | a :: b :: r, h =>
      obtain ⟨h0, h1⟩ := currentToken_of_rest h
      obtain ⟨h2, h3⟩ := currentToken_of_rest h1
      simp only [h0, h2, identToken, symbolToken]
      simp only [reduceCtorEq, if_false, ne_eq, not_true_eq_false, if_true]
      exact ih p.nextToken.nextToken (acc ++ [a]) (b :: r) h3 |>.imp id
        (fun ⟨p1, e, r⟩ => ⟨p1, by simpa using e, r⟩)

/-- On the tokens that render a tree, `parseStatement` and `parseFunction` return the tree,
and the body loop returns the trees of a rendered body, unless the fuel runs out. -/
theorem parse_render_aux (fuel : Nat) :
    (∀ (p : Parser) (node : Node) (tl : List Token), FunctionTree node →
      p.rest = render node ++ tl →
      parseStatement fuel p = none ∨
        ∃ p1, parseStatement fuel p = some (Result.ok (node, p1)) ∧ p1.rest = tl) ∧
    (∀ (p : Parser) (node : Node) (tl : List Token), FunctionTree node →
      p.rest = render node ++ tl →
      parseFunction fuel p = none ∨
        ∃ p1, parseFunction fuel p = some (Result.ok (node, p1)) ∧ p1.rest = tl) ∧
    (∀ (p : Parser) (acc body : List Node) (tl : List Token), (∀ n ∈ body, FunctionTree n) →
      p.rest = renderList body ++ symbolToken TokenKind.CloseBrace 125 :: tl →
      bodyLoop fuel p acc = none ∨
        ∃ p1, bodyLoop fuel p acc = some (Result.ok (acc ++ body, p1)) ∧
          p1.rest = symbolToken TokenKind.CloseBrace 125 :: tl) := by
  induction fuel with
  | zero => exact ⟨fun _ _ _ _ _ => Or.inl rfl, fun _ _ _ _ _ => Or.inl rfl,
      fun _ _ _ _ _ _ => Or.inl rfl⟩
  | succ n ih =>
    obtain ⟨ihS, ihF, ihB⟩ := ih
    refine ⟨fun p node tl hn h => ?_, fun p node tl hn h => ?_, fun p acc body tl hb h => ?_⟩
    · cases hn with
      | mk name parameters body hbody =>
        unfold parseStatement
        have h' := h
        simp only [render, List.cons_append] at h'
        obtain ⟨h0, _⟩ := currentToken_of_rest h'
        simp only [h0, identToken, if_true]
        exact ihF p _ tl (FunctionTree.mk name parameters body hbody) h
    · cases hn with
      | mk name parameters body hbody =>
        unfold parseFunction
        simp only [render, List.cons_append, List.append_assoc] at h
        obtain ⟨h0, h1⟩ := currentToken_of_rest h
        obtain ⟨h2, h3⟩ := currentToken_of_rest h1
        simp only [h0, h2, symbolToken, ne_eq, not_true_eq_false, if_false]
        rcases parametersLoop_render n p.nextToken.nextToken [] parameters _ h3 with e | ⟨q, e, hq⟩
        · rw [e]; exact Or.inl rfl
        · rw [e]
          simp only [List.nil_append]
          obtain ⟨_, hq1⟩ := currentToken_of_rest hq
          obtain ⟨hq2, hq3⟩ := currentToken_of_rest hq1
          simp only [hq2, symbolToken, ne_eq, not_true_eq_false, if_false]
          rcases ihB q.nextToken.nextToken [] body tl hbody hq3 with e2 | ⟨q2, e2, hq4⟩
          · rw [e2]; exact Or.inl rfl
          · rw [e2]
            simp only [List.nil_append]
            obtain ⟨_, hq5⟩ := currentToken_of_rest hq4
            exact Or.inr ⟨q2.nextToken, rfl, hq5⟩
    · unfold bodyLoop
      match body, hb, h with
      | [], _, h =>
        simp only [renderList, List.nil_append] at h
        obtain ⟨h0, _⟩ := currentToken_of_rest h
        refine Or.inr ⟨p, ?_, h⟩
        simp [h0, symbolToken]
      | node :: rest, hb, h =>
        have hnode : FunctionTree node := hb node (List.mem_cons_self _ _)
        have hrest : ∀ n ∈ rest, FunctionTree n := fun n hn => hb n (List.mem_cons_of_mem _ hn)
        simp only [renderList, List.append_assoc] at h
        have h0 : ∃ t, p.currentToken = some t ∧ t.Kind = TokenKind.Ident := by
          cases hnode with
          | mk name parameters body hbody =>
            simp only [render, List.cons_append] at h
            exact ⟨_, (currentToken_of_rest h).1, rfl⟩
        obtain ⟨t, ht, hk⟩ := h0
        simp only [ht, hk, reduceCtorEq, if_false]
        rcases ihS p node _ hnode h with e | ⟨q, e, hq⟩
        · rw [e]; exact Or.inl rfl
        · rw [e]
          simp only []
          exact (ihB q (acc ++ [node]) rest tl hrest hq).imp id
            (fun ⟨p1, e1, r1⟩ => ⟨p1, by simpa using e1, r1⟩)

/-- The loop of `Parse` on the tokens that render a sequence of trees returns the trees,
unless the fuel runs out. -/
theorem ParseLoop_render (fuel n : Nat) (p : Parser) (acc stmts : List Node)
    (hs : ∀ m ∈ stmts, FunctionTree m) (h : p.rest = renderList stmts) :
    ParseLoop fuel n p acc = none ∨
      ParseLoop fuel n p acc = some (Result.ok { Statements := acc ++ stmts }) := by
  induction n generalizing p acc stmts with
  | zero => exact Or.inl rfl
  | succ n ih =>
    unfold ParseLoop
    match stmts, hs, h with
    | [], _, h =>
      have hge : ¬ p.pos < p.tokens.length := by
        intro hlt
        have := congrArg List.length h
        simp [rest, renderList] at this
        omega
      simp [hge]
    | node :: more, hs, h =>
      have hnode : FunctionTree node := hs node (List.mem_cons_self _ _)
      have hmore : ∀ m ∈ more, FunctionTree m := fun m hm => hs m (List.mem_cons_of_mem _ hm)
      simp only [renderList] at h
      have hlt : p.pos < p.tokens.length := by
        cases hnode with
        | mk name parameters body hbody =>
          simp only [render, List.cons_append] at h
          exact currentToken_some_lt (currentToken_of_rest h).1
      rw [if_pos hlt]
      rcases (parse_render_aux fuel).1 p node _ hnode h with e | ⟨q, e, hq⟩
      · rw [e]; exact Or.inl rfl
      · rw [e]
        simp only []
        exact (ih q (acc ++ [node]) more hmore hq).imp id (fun e1 => by simpa using e1)

end Parser

/-- C13: for every program whose statements are `Function` nodes with nested `Function`
bodies (any names, any parameter lists), `Parse` applied to the tokens that render it by the
grammar returns that same program, without error. -/
theorem Parse_renderList (stmts : List Node) (hs : ∀ n ∈ stmts, FunctionTree n) :
    Parse (renderList stmts) = some (Result.ok { Statements := stmts }) := by
  obtain ⟨r, hr⟩ := Parse_total (renderList stmts)
  rcases Parser.ParseLoop_render _ _ (NewParser (renderList stmts)) [] stmts hs
    (by simp [Parser.rest, NewParser]) with e | e
  · have hr1 : Parser.ParseLoop _ _ (NewParser (renderList stmts)) [] = some r := hr
    rw [e] at hr1
    exact Option.noConfusion hr1
  · simpa using e

/-- C13 at the program `foo(a,a){g(){} h(x){}} k(){}`, with a repeated
parameter name and two statements in a body. -/
theorem Parse_renderList_witness :
    Parse (renderList
      [Node.Function (ascii "foo") [ascii "a", ascii "a"]
         [Node.Function (ascii "g") [] [], Node.Function (ascii "h") [ascii "x"] []],
       Node.Function (ascii "k") [] []]) =
      some (Result.ok { Statements :=
        [Node.Function (ascii "foo") [ascii "a", ascii "a"]
           [Node.Function (ascii "g") [] [], Node.Function (ascii "h") [ascii "x"] []],
         Node.Function (ascii "k") [] []] }) :=
  Parse_renderList _ (by
    intro n hn
    simp only [List.mem_cons, List.mem_singleton, List.not_mem_nil, or_false] at hn
    rcases hn with rfl | rfl
    · refine FunctionTree.mk _ _ _ (fun m hm => ?_)
      simp only [List.mem_cons, List.mem_singleton, List.not_mem_nil, or_false] at hm
      rcases hm with rfl | rfl <;> exact FunctionTree.mk _ _ _ (fun _ h => by simp at h)
    · exact FunctionTree.mk _ _ _ (fun _ h => by simp at h))

end parser

/-! ## Facts about `DecodeRuneInString` -/

namespace lexer
namespace utf8

/-- The classes of first bytes in the table `first`. -/
theorem first_cases (b : Nat) :
    (b < 128 ∧ first b = 240) ∨ (128 ≤ b ∧ first b = 241) ∨
    (194 ≤ b ∧ b < 224 ∧ first b = 2) ∨ (b = 224 ∧ first b = 19) ∨
    (225 ≤ b ∧ b < 240 ∧ first b = 3) ∨ (b = 237 ∧ first b = 35) ∨
    (b = 240 ∧ first b = 52) ∨ (241 ≤ b ∧ b < 244 ∧ first b = 4) ∨
    (b = 244 ∧ first b = 68) := by
  unfold first
  split_ifs with h1 h2 h3 h4 h5 h6 h7 h8 h9 h10
  · exact Or.inl ⟨h1, rfl⟩
  · exact Or.inr (Or.inl ⟨by omega, rfl⟩)
  · exact Or.inr (Or.inr (Or.inl ⟨by omega, by omega, rfl⟩))
  · exact Or.inr (Or.inr (Or.inr (Or.inl ⟨h4, rfl⟩)))
  · exact Or.inr (Or.inr (Or.inr (Or.inr (Or.inl ⟨by omega, by omega, rfl⟩))))
  · exact Or.inr (Or.inr (Or.inr (Or.inr (Or.inr (Or.inl ⟨h6, rfl⟩)))))
  · exact Or.inr (Or.inr (Or.inr (Or.inr (Or.inl ⟨by omega, by omega, rfl⟩))))
  · exact Or.inr (Or.inr (Or.inr (Or.inr (Or.inr (Or.inr (Or.inl ⟨h8, rfl⟩))))))
  · exact Or.inr (Or.inr (Or.inr (Or.inr (Or.inr (Or.inr (Or.inr
      (Or.inl ⟨by omega, by omega, rfl⟩)))))))
  · exact Or.inr (Or.inr (Or.inr (Or.inr (Or.inr (Or.inr (Or.inr (Or.inr ⟨h10, rfl⟩)))))))
  · exact Or.inr (Or.inl ⟨by omega, rfl⟩)

/-- An ASCII byte decodes to itself, with width one. -/
theorem DecodeRuneInString_ascii (b : Byte) (t : GoString) (h : b.val < 128) :
    DecodeRuneInString (b :: t) = (b.val, 1) := by
  have hf : first b.val = 240 := by
    rcases first_cases b.val with h1 | h1 | h1 | h1 | h1 | h1 | h1 | h1 | h1 <;> omega
  simp [DecodeRuneInString, hf]

theorem shape_two (b : Byte) (t : GoString) (h1 : 194 ≤ b.val) (h2 : b.val < 224)
    (hf : first b.val = 2) : Shape b t := by
  rcases t with _ | ⟨s1, t1⟩
  · exact Or.inr (Or.inl ⟨by omega, by simp [DecodeRuneInString, hf, acceptRanges]⟩)
  · by_cases hs : s1.val < 128 ∨ 191 < s1.val
    · exact Or.inr (Or.inl ⟨by omega, by simp [DecodeRuneInString, hf, acceptRanges, hs]⟩)
    · refine Or.inr (Or.inr ⟨by omega, 2, b.val % 32 * 64 + s1.val % 64, ?_, le_rfl, ?_, ?_, ?_, ?_⟩)
      · simp [DecodeRuneInString, hf, acceptRanges, hs]
      · simp
      · omega
      · intro x hx
        simp at hx
        subst hx
        omega
      · intro t2
        simp [DecodeRuneInString, hf, acceptRanges, hs]

theorem shape_three (b : Byte) (t : GoString) (c lo hi : Nat) (hf : first b.val = c)
    (hc8 : c % 8 = 3) (hc : ¬ 240 ≤ c) (hacc : acceptRanges (c / 16) = (lo, hi))
    (hb : 128 ≤ b.val) (hlo : 128 ≤ lo)
    (hv : ∀ s1 s2 : Nat, lo ≤ s1 → s1 ≤ hi → 128 ≤ b.val % 16 * 4096 + s1 % 64 * 64 + s2 % 64) :
    Shape b t := by
  rcases t with _ | ⟨s1, _ | ⟨s2, t2⟩⟩
  · exact Or.inr (Or.inl ⟨hb, by simp [DecodeRuneInString, hf, hc, hc8]⟩)
  · exact Or.inr (Or.inl ⟨hb, by simp [DecodeRuneInString, hf, hc, hc8]⟩)
  · by_cases hs1 : s1.val < lo ∨ hi < s1.val
    · exact Or.inr (Or.inl ⟨hb, by simp [DecodeRuneInString, hf, hc, hc8, hacc, hs1]⟩)
    · by_cases hs2 : s2.val < 128 ∨ 191 < s2.val
      · exact Or.inr (Or.inl ⟨hb, by simp [DecodeRuneInString, hf, hc, hc8, hacc, hs1, hs2]⟩)
      · refine Or.inr (Or.inr ⟨hb, 3, b.val % 16 * 4096 + s1.val % 64 * 64 + s2.val % 64,
          ?_, by omega, ?_, ?_, ?_, ?_⟩)
        · simp [DecodeRuneInString, hf, hc, hc8, hacc, hs1, hs2]
        · simp
        · exact hv _ _ (by omega) (by omega)
        · intro x hx
          simp at hx
          rcases hx with rfl | rfl <;> omega
        · intro t3
          simp [DecodeRuneInString, hf, hc, hc8, hacc, hs1, hs2]

theorem shape_four (b : Byte) (t : GoString) (c lo hi : Nat) (hf : first b.val = c)
    (hc8 : c % 8 = 4) (hc : ¬ 240 ≤ c) (hacc : acceptRanges (c / 16) = (lo, hi))
    (hb : 128 ≤ b.val) (hlo : 128 ≤ lo)
    (hv : ∀ s1 s2 s3 : Nat, lo ≤ s1 → s1 ≤ hi →
      128 ≤ b.val % 8 * 262144 + s1 % 64 * 4096 + s2 % 64 * 64 + s3 % 64) :
    Shape b t := by
  rcases t with _ | ⟨s1, _ | ⟨s2, _ | ⟨s3, t3⟩⟩⟩
  · exact Or.inr (Or.inl ⟨hb, by simp [DecodeRuneInString, hf, hc, hc8]⟩)
  · exact Or.inr (Or.inl ⟨hb, by simp [DecodeRuneInString, hf, hc, hc8]⟩)
  · exact Or.inr (Or.inl ⟨hb, by simp [DecodeRuneInString, hf, hc, hc8]⟩)
  · by_cases hs1 : s1.val < lo ∨ hi < s1.val
    · exact Or.inr (Or.inl ⟨hb, by simp [DecodeRuneInString, hf, hc, hc8, hacc, hs1]⟩)
    · by_cases hs2 : s2.val < 128 ∨ 191 < s2.val
      · exact Or.inr (Or.inl ⟨hb, by simp [DecodeRuneInString, hf, hc, hc8, hacc, hs1, hs2]⟩)
      · by_cases hs3 : s3.val < 128 ∨ 191 < s3.val
        · exact Or.inr (Or.inl ⟨hb,
            by simp [DecodeRuneInString, hf, hc, hc8, hacc, hs1, hs2, hs3]⟩)
        · refine Or.inr (Or.inr ⟨hb, 4,
            b.val % 8 * 262144 + s1.val % 64 * 4096 + s2.val % 64 * 64 + s3.val % 64,
            ?_, by omega, ?_, ?_, ?_, ?_⟩)
          · simp [DecodeRuneInString, hf, hc, hc8, hacc, hs1, hs2, hs3]
          · simp
          · exact hv _ _ _ (by omega) (by omega)
          · intro x hx
            simp at hx
            rcases hx with rfl | rfl | rfl <;> omega
          · intro t4
            simp [DecodeRuneInString, hf, hc, hc8, hacc, hs1, hs2, hs3]

/-- Every decoding has one of the three shapes of `Shape`. -/
theorem DecodeRuneInString_shape (b : Byte) (t : GoString) : Shape b t := by
  rcases first_cases b.val with h1 | h1 | h1 | h1 | h1 | h1 | h1 | h1 | h1
  · exact Or.inl ⟨h1.1, DecodeRuneInString_ascii b t h1.1⟩
  · exact Or.inr (Or.inl ⟨h1.1, by simp [DecodeRuneInString, h1.2]⟩)
  · exact shape_two b t h1.1 h1.2.1 h1.2.2
  · exact shape_three b t 19 160 191 h1.2 (by decide) (by decide) (by simp [acceptRanges])
      (by omega) (by omega) (fun s1 s2 h2 h3 => by omega)
  · exact shape_three b t 3 128 191 h1.2.2 (by decide) (by decide) (by simp [acceptRanges])
      (by omega) (by omega) (fun s1 s2 h2 h3 => by omega)
  · exact shape_three b t 35 128 159 h1.2 (by decide) (by decide) (by simp [acceptRanges])
      (by omega) (by omega) (fun s1 s2 h2 h3 => by omega)
  · exact shape_four b t 52 144 191 h1.2 (by decide) (by decide) (by simp [acceptRanges])
      (by omega) (by omega) (fun s1 s2 s3 h2 h3 => by omega)
  · exact shape_four b t 4 128 191 h1.2.2 (by decide) (by decide) (by simp [acceptRanges])
      (by omega) (by omega) (fun s1 s2 s3 h2 h3 => by omega)
  · exact shape_four b t 68 128 143 h1.2 (by decide) (by decide) (by simp [acceptRanges])
      (by omega) (by omega) (fun s1 s2 s3 h2 h3 => by omega)

/-- A byte that is not ASCII does not decode to an ASCII rune. -/
theorem DecodeRuneInString_not_ascii (b : Byte) (t : GoString) (h : 128 ≤ b.val) :
    (128 : Nat) ≤ (DecodeRuneInString (b :: t)).1 := by
  rcases DecodeRuneInString_shape b t with ⟨h1, _⟩ | ⟨_, e⟩ | ⟨_, sz, v, e, _, _, hv, _⟩
  · omega
  · rw [e]; simp [RuneError]
  · rw [e]; exact hv

/-- Decoding does not look beyond the bytes of the rune: when the rune decoded at the start
of `x ++ y` lies within `x`, decoding `x` alone gives the same rune and width. -/
theorem DecodeRuneInString_of_append (x y : GoString) (r n : Nat) (hx : x ≠ [])
    (h : DecodeRuneInString (x ++ y) = (r, n)) (hn : n ≤ x.length) :
    DecodeRuneInString x = (r, n) := by
  rcases x with _ | ⟨b, x1⟩
  · exact absurd rfl hx
  · rw [List.cons_append] at h
    rcases DecodeRuneInString_shape b x1 with ⟨h1, e⟩ | ⟨h1, e⟩ | ⟨_, sz, v, e, h2, h3, _, _, hall⟩
    · rw [DecodeRuneInString_ascii b _ h1] at h
      rw [e, ← h]
    · rcases DecodeRuneInString_shape b (x1 ++ y) with
        ⟨h4, _⟩ | ⟨_, e1⟩ | ⟨_, sz, v, e1, h5, h6, _, _, hall⟩
      · omega
      · rw [e, ← h, e1]
      · rw [e1] at h
        injection h with hv hsz
        subst hsz
        simp only [List.length_cons] at hn
        have ht : (x1 ++ y).take (sz - 1) = x1.take (sz - 1) :=
          List.take_append_of_le_length (by omega)
        have := hall (x1.drop (sz - 1))
        rw [ht, List.take_append_drop, e] at this
        injection this with _ h7
        omega
    · have := hall (x1.drop (sz - 1) ++ y)
      rw [← List.append_assoc, List.take_append_drop, h] at this
      rw [e, ← this]

end utf8
end lexer

/-! ## The cursor and the bytes ahead of it -/

namespace lexer
namespace Cursor

theorem rest_length (c : Cursor) : c.rest.length = c.input.length - c.pos := by
  simp [rest]

theorem rest_advance (c : Cursor) (n : Nat) :
    (⟨c.input, c.pos + n⟩ : Cursor).rest = c.rest.drop n := by
  simp [rest, List.drop_drop, Nat.add_comm]

theorem mk_add_zero (c : Cursor) : (⟨c.input, c.pos + 0⟩ : Cursor) = c := rfl

theorem Bump_of_rest_nil (c : Cursor) (h : c.rest = []) : c.Bump = ((0, false), c) := by
  apply Bump_eof
  have := rest_length c
  rw [h] at this
  simp at this
  omega

theorem First_of_rest_nil (c : Cursor) (h : c.rest = []) : c.First = (0, false) := by
  have := rest_length c
  rw [h] at this
  simp at this
  simp [First]
  omega

theorem Bump_of_rest_cons (c : Cursor) (b : Byte) (t : GoString) (h : c.rest = b :: t) :
    c.Bump = (((utf8.DecodeRuneInString (b :: t)).1, true),
      ⟨c.input, c.pos + (utf8.DecodeRuneInString (b :: t)).2⟩) := by
  have hl := rest_length c
  rw [h] at hl
  simp only [List.length_cons] at hl
  have hlt : ¬ c.pos ≥ c.input.length := by omega
  simp only [Bump, hlt, if_false]
  rw [← h]
  rfl

theorem First_of_rest_cons (c : Cursor) (b : Byte) (t : GoString) (h : c.rest = b :: t) :
    c.First = ((utf8.DecodeRuneInString (b :: t)).1, true) := by
  have hl := rest_length c
  rw [h] at hl
  simp only [List.length_cons] at hl
  have hlt : ¬ c.pos ≥ c.input.length := by omega
  simp only [First, hlt, if_false]
  rw [← h]
  rfl

end Cursor

/-! ## Line comments -/

theorem takeLine_append (pre post : GoString) (h : ∀ x ∈ pre, x ≠ 10) :
    takeLine (pre ++ post) = pre ++ takeLine post := by
  induction pre with
  | nil => rfl
  | cons a pre ih =>
    have ha : a ≠ 10 := h a (List.mem_cons_self _ _)
    have h1 := ih (fun x hx => h x (List.mem_cons_of_mem _ hx))
    simp only [List.cons_append, takeLine, ha, if_false]
    exact congrArg (List.cons a) h1

theorem take_takeLine (s : GoString) : s.take (takeLine s).length = takeLine s := by
  induction s with
  | nil => rfl
  | cons a s ih =>
    simp only [takeLine]
    split_ifs
    · simp
    · simp [ih]

/-- A rune that is not the newline: the line goes on after its bytes. -/
theorem takeLine_skip_rune (b : Byte) (t : GoString)
    (h : (utf8.DecodeRuneInString (b :: t)).1 ≠ 10) :
    (takeLine (b :: t)).length =
      (utf8.DecodeRuneInString (b :: t)).2 +
        (takeLine ((b :: t).drop (utf8.DecodeRuneInString (b :: t)).2)).length := by
  have hb : b ≠ 10 := by
    intro hb
    subst hb
    exact h (by rw [utf8.DecodeRuneInString_ascii _ _ (by decide)]; rfl)
  rcases utf8.DecodeRuneInString_shape b t with ⟨_, e⟩ | ⟨_, e⟩ | ⟨_, sz, v, e, h2, h3, _, hc, _⟩
  · rw [e]
    simp only [takeLine, hb, if_false, List.length_cons, List.drop_succ_cons, List.drop_zero]
    omega
  · rw [e]
    simp only [takeLine, hb, if_false, List.length_cons, List.drop_succ_cons, List.drop_zero]
    omega
  · rw [e]
    obtain ⟨k, rfl⟩ : ∃ k, sz = k + 1 := ⟨sz - 1, by omega⟩
    rw [Nat.add_sub_cancel] at hc
    have hsplit : b :: t = (b :: t.take k) ++ t.drop k := by simp
    have hall : ∀ x ∈ b :: t.take k, x ≠ 10 := by
      intro x hx
      rcases List.mem_cons.1 hx with rfl | hx
      · exact hb
      · have := hc x hx
        intro h10
        subst h10
        exact absurd this (by decide)
    rw [List.drop_succ_cons]
    conv_lhs => rw [hsplit, takeLine_append _ _ hall]
    simp only [List.length_append, List.length_cons, List.length_take]
    omega

/-- The rune is the newline only when the byte is. -/
theorem newline_rune (b : Byte) (t : GoString)
    (h : (utf8.DecodeRuneInString (b :: t)).1 = 10) :
    b = 10 ∧ (utf8.DecodeRuneInString (b :: t)).2 = 1 := by
  rcases Nat.lt_or_ge b.val 128 with hlt | hge
  · rw [utf8.DecodeRuneInString_ascii b t hlt] at h ⊢
    exact ⟨Fin.ext h, rfl⟩
  · have h1 := utf8.DecodeRuneInString_not_ascii b t hge
    rw [h] at h1
    exact absurd h1 (by decide)

namespace Cursor

/-- With more fuel than bytes left, `LineComment` stops after the first newline byte, or at
the end of the input. -/
theorem LineComment_exact (fuel : Nat) (c : Cursor) (hf : c.rest.length < fuel) :
    c.LineComment fuel =
      some (TokenKind.LineComment, ⟨c.input, c.pos + (takeLine c.rest).length⟩) := by
  induction fuel generalizing c with
  | zero => omega
  | succ n ih =>
    unfold LineComment
    cases hr : c.rest with
    | nil => simp [Bump_of_rest_nil c hr, takeLine]
    | cons b t =>
      rw [Bump_of_rest_cons c b t hr]
      simp only [Bool.not_true, Bool.false_or, decide_eq_true_eq]
      split_ifs with h10
      · obtain ⟨hb, hw⟩ := newline_rune b t h10
        subst hb
        simp [takeLine, hw]
      · have hsz := utf8.DecodeRuneInString_size (b :: t) (by simp)
        rw [ih _ (by rw [rest_advance, hr, List.length_drop]; rw [hr] at hf; omega)]
        rw [rest_advance, hr, takeLine_skip_rune b t h10]
        simp only [Nat.add_assoc]

/-- The token that `AdvanceToken` returns, from what its `switch` returns. -/
theorem AdvanceToken_of_switch (L : Rune → Bool) (fuel : Nat) (c : Cursor) (b : Byte)
    (t : GoString) (k : TokenKind) (c1 : Cursor) (hr : c.rest = b :: t)
    (hs : switchFirstChar L fuel (utf8.DecodeRuneInString (b :: t)).1
      ⟨c.input, c.pos + (utf8.DecodeRuneInString (b :: t)).2⟩ = some (k, c1)) :
    c.AdvanceToken L fuel =
      some ({ Kind := k, Len := (c1.pos : Int) - (c.pos : Int),
              Literal := slice c1.input c.pos c1.pos }, c1) := by
  unfold AdvanceToken
  simp only [Bump_of_rest_cons c b t hr, Bool.not_true, hs]
  rfl

end Cursor

/-- The first token that `AdvanceToken` reads is the first token that `Tokenize` returns. -/
theorem Tokenize_first (L : Rune → Bool) (input : GoString) (tok : Token) (c1 : Cursor)
    (hne : input ≠ [])
    (h : (NewCursor input).AdvanceToken L (input.length + 1) = some (tok, c1)) :
    ∃ more, Tokenize L input = some (tok :: more) := by
  have hpos : 0 < input.length := List.length_pos.2 hne
  obtain ⟨k, c2, e, hk, hi, hp, hq⟩ :=
    Cursor.AdvanceToken_some L (input.length + 1) (NewCursor input) hpos
      (by simp only [NewCursor]; omega)
  rw [h] at e
  injection e with e
  injection e with e1 e2
  subst e2
  have hkind : tok.Kind ≠ TokenKind.Eof := by rw [e1]; exact hk
  simp only [NewCursor] at hi hp hq
  obtain ⟨toks, e3, _⟩ := TokenizeLoop_some L (input.length + 1) input.length c1 [tok]
    (by rw [hi]; exact hq) (by rw [hi]; omega) (by rw [hi]; omega)
  refine ⟨toks, ?_⟩
  unfold Tokenize TokenizeFuel TokenizeLoop
  simp only [h, hkind, if_false, List.nil_append]
  exact e3

/-- When the first token ends at the end of the input, it is the only token. -/
theorem Tokenize_single (L : Rune → Bool) (input : GoString) (tok : Token) (c1 : Cursor)
    (hne : input ≠ [])
    (h : (NewCursor input).AdvanceToken L (input.length + 1) = some (tok, c1))
    (hend : c1.input.length ≤ c1.pos) :
    Tokenize L input = some [tok] := by
  have hpos : 0 < input.length := List.length_pos.2 hne
  obtain ⟨k, c2, e, hk, hi, hp, hq⟩ :=
    Cursor.AdvanceToken_some L (input.length + 1) (NewCursor input) hpos
      (by simp only [NewCursor]; omega)
  rw [h] at e
  injection e with e
  injection e with e1 e2
  subst e2
  have hkind : tok.Kind ≠ TokenKind.Eof := by rw [e1]; exact hk
  obtain ⟨n, hn⟩ : ∃ n, input.length = n + 1 := ⟨input.length - 1, by omega⟩
  unfold Tokenize TokenizeFuel TokenizeLoop
  simp only [h, hkind, if_false, List.nil_append]
  rw [hn]
  unfold TokenizeLoop
  rw [Cursor.AdvanceToken_eof L _ c1 hend]
  simp

/-- C18: for every input that begins with `//`, the first token returned by `Tokenize` has
kind `LineComment`, and its `Literal` is the input up to and including the first newline
byte, or the whole input when it has no newline. -/
theorem Tokenize_line_comment (L : Rune → Bool) (r : GoString) :
    ∃ more, Tokenize L (47 :: 47 :: r) =
      some ({ Kind := TokenKind.LineComment, Len := (takeLine (47 :: 47 :: r)).length,
              Literal := takeLine (47 :: 47 :: r) } :: more) := by
  apply Tokenize_first L _ _ ⟨47 :: 47 :: r, (takeLine (47 :: 47 :: r)).length⟩ (by simp)
  have hs : Cursor.switchFirstChar L ((47 :: 47 :: r : GoString).length + 1)
      (utf8.DecodeRuneInString (47 :: 47 :: r)).1
      ⟨47 :: 47 :: r, 0 + (utf8.DecodeRuneInString (47 :: 47 :: r)).2⟩ =
      some (TokenKind.LineComment, ⟨47 :: 47 :: r, (takeLine (47 :: 47 :: r)).length⟩) := by
    rw [utf8.DecodeRuneInString_ascii 47 _ (by decide)]
    have hrest : (⟨47 :: 47 :: r, 0 + 1⟩ : Cursor).rest = 47 :: r := rfl
    unfold Cursor.switchFirstChar
    simp only [Cursor.First_of_rest_cons _ 47 r hrest,
      utf8.DecodeRuneInString_ascii 47 r (by decide)]
    have := Cursor.LineComment_exact ((47 :: 47 :: r : GoString).length + 1)
      ⟨47 :: 47 :: r, 0 + 1⟩ (by rw [hrest]; simp)
    rw [hrest] at this
    simp only [show ((47 : Byte) : Nat) = 47 from rfl, if_true, Bool.true_and, decide_True]
    rw [this]
    simp [takeLine]
    omega
  have := Cursor.AdvanceToken_of_switch L _ (NewCursor (47 :: 47 :: r)) 47 (47 :: r) _ _ rfl hs
  rw [this]
  simp only [NewCursor, slice, List.drop_zero, Nat.cast_zero, sub_zero]
  rw [take_takeLine]

end lexer

/-! ## Runs of characters, and white space -/

namespace lexer

theorem runesAux_fuel (n m : Nat) (s : GoString) (hn : s.length ≤ n) (hm : s.length ≤ m) :
    runesAux n s = runesAux m s := by
  induction n generalizing m s with
  | zero =>
    have hs : s = [] := List.length_eq_zero.1 (by omega)
    subst hs
    cases m <;> rfl
  | succ n ih =>
    cases s with
    | nil => cases m <;> rfl
    | cons b t =>
      obtain ⟨k, rfl⟩ : ∃ k, m = k + 1 := ⟨m - 1, by simp at hm; omega⟩
      have hsz := utf8.DecodeRuneInString_size (b :: t) (by simp)
      simp only [List.length_cons] at hn hm hsz
      simp only [runesAux]
      rw [ih k _ (by rw [List.length_drop]; simp only [List.length_cons]; omega)
        (by rw [List.length_drop]; simp only [List.length_cons]; omega)]

theorem runes_cons (b : Byte) (t : GoString) :
    runes (b :: t) = utf8.DecodeRuneInString (b :: t) ::
      runes ((b :: t).drop (utf8.DecodeRuneInString (b :: t)).2) := by
  have hsz := utf8.DecodeRuneInString_size (b :: t) (by simp)
  simp only [List.length_cons] at hsz
  unfold runes
  simp only [List.length_cons, runesAux]
  rw [runesAux_fuel t.length _ _ (by rw [List.length_drop]; simp only [List.length_cons]; omega)
    le_rfl]

theorem leadingRun_nil (P : Rune → Bool) : leadingRun P [] = 0 := rfl

theorem leadingRun_cons (P : Rune → Bool) (b : Byte) (t : GoString) :
    leadingRun P (b :: t) =
      if P (utf8.DecodeRuneInString (b :: t)).1 then
        (utf8.DecodeRuneInString (b :: t)).2 +
          leadingRun P ((b :: t).drop (utf8.DecodeRuneInString (b :: t)).2)
      else 0 := by
  unfold leadingRun
  rw [runes_cons]
  simp only [List.takeWhile_cons]
  split_ifs <;> simp

namespace Cursor

/-- With more fuel than bytes left, `Whitespace` stops after the maximal run of white space
characters. -/
theorem Whitespace_exact (fuel : Nat) (c : Cursor) (hf : c.rest.length < fuel) :
    c.Whitespace fuel =
      some (TokenKind.Whitespace, ⟨c.input, c.pos + leadingRun unicode.IsSpace c.rest⟩) := by
  induction fuel generalizing c with
  | zero => omega
  | succ n ih =>
    unfold Whitespace
    cases hr : c.rest with
    | nil => simp [First_of_rest_nil c hr, leadingRun_nil]
    | cons b t =>
      rw [First_of_rest_cons c b t hr, leadingRun_cons]
      simp only [Bool.not_true, Bool.false_or]
      by_cases hsp : unicode.IsSpace (utf8.DecodeRuneInString (b :: t)).1 = true
      · have hsz := utf8.DecodeRuneInString_size (b :: t) (by simp)
        simp only [hsp, Bool.not_true, if_true]
        rw [Bump_of_rest_cons c b t hr]
        simp only [Bool.false_eq_true, if_false]
        rw [ih _ (by rw [rest_advance, hr, List.length_drop]; rw [hr] at hf; omega)]
        rw [rest_advance, hr]
        simp only [Nat.add_assoc]
      · simp [hsp]

end Cursor
/-- A rune below 128 comes from the ASCII byte of that value. -/
theorem ascii_rune (b : Byte) (t : GoString) (r : Nat)
    (h : (utf8.DecodeRuneInString (b :: t)).1 = r) (hr : r < 128) :
    b.val = r ∧ utf8.DecodeRuneInString (b :: t) = (b.val, 1) := by
  rcases Nat.lt_or_ge b.val 128 with hlt | hge
  · rw [utf8.DecodeRuneInString_ascii b t hlt] at h
    exact ⟨h, utf8.DecodeRuneInString_ascii b t hlt⟩
  · have h1 := utf8.DecodeRuneInString_not_ascii b t hge
    rw [h] at h1
    omega

/-- C14 at the input that consists of a form feed, U+000C, a white space character
(`unicode.IsSpace`): `Tokenize` returns one token of kind `Unknown`, not `Whitespace`,
because the `switch` of `AdvanceToken` sends only the space, the tab, the newline and the
carriage return to `Whitespace`.  The loop of `Whitespace` itself does take the form feed
for white space: after a space it is part of the `Whitespace` token. -/
theorem Tokenize_form_feed (L : Rune → Bool) :
    (utf8.DecodeRuneInString [12]).1 = 12 ∧ unicode.IsSpace 12 = true ∧
    Tokenize L [12] = some [{ Kind := TokenKind.Unknown, Len := 1, Literal := [12] }] ∧
    Tokenize L [32, 12] =
      some [{ Kind := TokenKind.Whitespace, Len := 2, Literal := [32, 12] }] := by
  refine ⟨rfl, by decide, rfl, rfl⟩

/-- What the code does on the four characters of the `case` of `Whitespace`: when the first
character is a space, a tab, a newline or a carriage return, the first token has kind
`Whitespace` and its `Literal` is the maximal leading run of white space characters
(`unicode.IsSpace`) of the input. -/
theorem Tokenize_whitespace (L : Rune → Bool) (input : GoString) (hne : input ≠ [])
    (h : (utf8.DecodeRuneInString input).1 = 32 ∨ (utf8.DecodeRuneInString input).1 = 9 ∨
      (utf8.DecodeRuneInString input).1 = 10 ∨ (utf8.DecodeRuneInString input).1 = 13) :
    ∃ more, Tokenize L input =
      some ({ Kind := TokenKind.Whitespace, Len := leadingRun unicode.IsSpace input,
              Literal := input.take (leadingRun unicode.IsSpace input) } :: more) := by
  obtain ⟨b, t, rfl⟩ : ∃ b t, input = b :: t := by
    cases input with
    | nil => exact absurd rfl hne
    | cons b t => exact ⟨b, t, rfl⟩
  have hlt : (utf8.DecodeRuneInString (b :: t)).1 < 128 := by
    rcases h with h | h | h | h <;> rw [h] <;> decide
  obtain ⟨hb, hd⟩ := ascii_rune b t _ rfl hlt
  have hsp : unicode.IsSpace b.val = true := by
    rw [hb]
    rcases h with h | h | h | h <;> rw [h] <;> decide
  have hrun : leadingRun unicode.IsSpace (b :: t) = 1 + leadingRun unicode.IsSpace t := by
    rw [leadingRun_cons, hd]
    simp [hsp]
  apply Tokenize_first L _ _ ⟨b :: t, leadingRun unicode.IsSpace (b :: t)⟩ hne
  have hs : Cursor.switchFirstChar L ((b :: t).length + 1)
      (utf8.DecodeRuneInString (b :: t)).1
      ⟨b :: t, 0 + (utf8.DecodeRuneInString (b :: t)).2⟩ =
      some (TokenKind.Whitespace, ⟨b :: t, leadingRun unicode.IsSpace (b :: t)⟩) := by
    have hrest : (⟨b :: t, 0 + 1⟩ : Cursor).rest = t := rfl
    have hw := Cursor.Whitespace_exact ((b :: t).length + 1) ⟨b :: t, 0 + 1⟩
      (by rw [hrest]; simp only [List.length_cons]; omega)
    rw [hrest] at hw
    have h47 : ¬ (utf8.DecodeRuneInString (b :: t)).1 = 47 := by
      rcases h with h | h | h | h <;> rw [h] <;> decide
    unfold Cursor.switchFirstChar
    rw [if_neg h47, if_pos h]
    rw [hd, hw, hrun]
  have := Cursor.AdvanceToken_of_switch L _ (NewCursor (b :: t)) b t _ _ rfl hs
  rw [this]
  simp only [NewCursor, slice, List.drop_zero, Nat.cast_zero, sub_zero]

/-- The input blank, form feed, no-break space (U+00A0, two bytes), `x`: the first token is
the `Whitespace` token of the first four bytes. -/
theorem Tokenize_whitespace_example :
    ([32, 12, 194, 160, 120] : GoString) ≠ [] ∧
    ((utf8.DecodeRuneInString [32, 12, 194, 160, 120]).1 = 32 ∨
      (utf8.DecodeRuneInString [32, 12, 194, 160, 120]).1 = 9 ∨
      (utf8.DecodeRuneInString [32, 12, 194, 160, 120]).1 = 10 ∨
      (utf8.DecodeRuneInString [32, 12, 194, 160, 120]).1 = 13) ∧
    leadingRun unicode.IsSpace [32, 12, 194, 160, 120] = 4 ∧
    ∃ more, Tokenize noLetterAboveLatin1 [32, 12, 194, 160, 120] =
      some ({ Kind := TokenKind.Whitespace,
              Len := leadingRun unicode.IsSpace [32, 12, 194, 160, 120],
              Literal := List.take (leadingRun unicode.IsSpace [32, 12, 194, 160, 120])
                [32, 12, 194, 160, 120] } :: more) :=
  ⟨by simp, Or.inl rfl, by decide,
    Tokenize_whitespace noLetterAboveLatin1 [32, 12, 194, 160, 120] (by simp) (Or.inl rfl)⟩

end lexer

/-! ## Double-quoted strings -/

namespace lexer

theorem IsChar_backslash : IsChar [92] 92 := ⟨by simp, fun _ => rfl⟩

/-- An ASCII byte is a character. -/
theorem IsChar_ascii (b : Byte) (h : b.val < 128) : IsChar [b] b.val :=
  ⟨by simp, fun t => utf8.DecodeRuneInString_ascii b t h⟩

/-- The bytes of a rune that `DecodeRuneInString` decodes with a width of two or more (a
well-formed UTF-8 sequence) are a character. -/
theorem IsChar_of_decode (b : Byte) (t : GoString)
    (h : 2 ≤ (utf8.DecodeRuneInString (b :: t)).2) :
    IsChar (b :: t.take ((utf8.DecodeRuneInString (b :: t)).2 - 1))
      (utf8.DecodeRuneInString (b :: t)).1 := by
  rcases utf8.DecodeRuneInString_shape b t with ⟨_, e⟩ | ⟨_, e⟩ | ⟨_, sz, v, e, h2, h3, _, _, hall⟩
  · rw [e] at h; simp at h
  · rw [e] at h; simp at h
  · rw [e]
    refine ⟨by simp, fun t1 => ?_⟩
    rw [List.cons_append, hall t1]
    simp only [List.length_cons, List.length_take]
    congr 1
    omega

namespace Cursor

theorem Bump_of_IsChar (c : Cursor) (u t : GoString) (r : Rune) (hu : IsChar u r)
    (hr : c.rest = u ++ t) :
    c.Bump = ((r, true), ⟨c.input, c.pos + u.length⟩) ∧
      (⟨c.input, c.pos + u.length⟩ : Cursor).rest = t := by
  obtain ⟨hne, hd⟩ := hu
  obtain ⟨b, u1, rfl⟩ : ∃ b u1, u = b :: u1 := by
    cases u with
    | nil => exact absurd rfl hne
    | cons b u1 => exact ⟨b, u1, rfl⟩
  have h1 := Bump_of_rest_cons c b (u1 ++ t) hr
  have h2 := hd t
  rw [List.cons_append] at h2
  rw [h2] at h1
  refine ⟨h1, ?_⟩
  rw [rest_advance, hr]
  simp

/-- The loop of `DoubleQuotedString` over a body of units that is followed by the closing
quote: unless the fuel runs out, it stops after the quote. -/
theorem DoubleQuotedString_closed (units : List GoString) (hu : ∀ u ∈ units, StringUnit u)
    (fuel : Nat) (c : Cursor) (t : GoString) (hr : c.rest = units.flatten ++ 34 :: t) :
    c.DoubleQuotedString fuel = none ∨
      c.DoubleQuotedString fuel =
        some (TokenKind.Literal, ⟨c.input, c.pos + (units.flatten.length + 1)⟩) := by
  induction units generalizing fuel c with
  | nil =>
    cases fuel with
    | zero => exact Or.inl rfl
    | succ n =>
      right
      simp only [List.flatten_nil, List.nil_append] at hr
      have hq : IsChar [34] 34 := ⟨by simp, fun _ => rfl⟩
      obtain ⟨hb, _⟩ := Bump_of_IsChar c [34] t 34 hq hr
      unfold DoubleQuotedString
      simp [hb]
  | cons u units ih =>
    cases fuel with
    | zero => exact Or.inl rfl
    | succ n =>
      have hunits : ∀ v ∈ units, StringUnit v := fun v hv => hu v (List.mem_cons_of_mem _ hv)
      simp only [List.flatten_cons, List.append_assoc] at hr
      unfold DoubleQuotedString
      cases hu u (List.mem_cons_self _ _) with
      | plain _ r hc h34 h92 =>
        obtain ⟨hb, hrest⟩ := Bump_of_IsChar c u _ r hc hr
        simp only [hb, Bool.not_true, Bool.false_or, decide_eq_true_eq, h34, h92, if_false]
        rcases ih hunits n _ hrest with e | e
        · exact Or.inl e
        · right
          rw [e]
          simp [Nat.add_assoc]
      | escape v r hc =>
        rw [List.cons_append] at hr
        obtain ⟨hb, hrest⟩ := Bump_of_IsChar c [92] _ 92 IsChar_backslash hr
        obtain ⟨hb2, hrest2⟩ := Bump_of_IsChar _ v _ r hc hrest
        simp only [hb, Bool.not_true, Bool.false_or, decide_eq_true_eq, if_true, hb2]
        simp only [show ¬ (92 : Nat) = 34 by decide, if_false]
        rcases ih hunits n _ hrest2 with e | e
        · exact Or.inl e
        · right
          rw [e]
          simp [Nat.add_assoc]
          omega

/-- The loop of `DoubleQuotedString` over a body of units that ends the input: unless the
fuel runs out, it stops at the end. -/
theorem DoubleQuotedString_open (units : List GoString) (hu : ∀ u ∈ units, StringUnit u)
    (fuel : Nat) (c : Cursor) (hr : c.rest = units.flatten) :
    c.DoubleQuotedString fuel = none ∨
      c.DoubleQuotedString fuel =
        some (TokenKind.Literal, ⟨c.input, c.pos + units.flatten.length⟩) := by
  induction units generalizing fuel c with
  | nil =>
    cases fuel with
    | zero => exact Or.inl rfl
    | succ n =>
      right
      simp only [List.flatten_nil] at hr
      unfold DoubleQuotedString
      simp [Bump_of_rest_nil c hr]
  | cons u units ih =>
    cases fuel with
    | zero => exact Or.inl rfl
    | succ n =>
      have hunits : ∀ v ∈ units, StringUnit v := fun v hv => hu v (List.mem_cons_of_mem _ hv)
      simp only [List.flatten_cons] at hr
      unfold DoubleQuotedString
      cases hu u (List.mem_cons_self _ _) with
      | plain _ r hc h34 h92 =>
        obtain ⟨hb, hrest⟩ := Bump_of_IsChar c u _ r hc hr
        simp only [hb, Bool.not_true, Bool.false_or, decide_eq_true_eq, h34, h92, if_false]
        rcases ih hunits n _ hrest with e | e
        · exact Or.inl e
        · right
          rw [e]
          simp [Nat.add_assoc]
      | escape v r hc =>
        rw [List.cons_append] at hr
        obtain ⟨hb, hrest⟩ := Bump_of_IsChar c [92] _ 92 IsChar_backslash hr
        obtain ⟨hb2, hrest2⟩ := Bump_of_IsChar _ v _ r hc hrest
        simp only [hb, Bool.not_true, Bool.false_or, decide_eq_true_eq, if_true, hb2]
        simp only [show ¬ (92 : Nat) = 34 by decide, if_false]
        rcases ih hunits n _ hrest2 with e | e
        · exact Or.inl e
        · right
          rw [e]
          simp [Nat.add_assoc]
          omega

/-- The `switch` of `AdvanceToken` on a double quote. -/
theorem switchFirstChar_quote (L : Rune → Bool) (fuel : Nat) (c : Cursor) :
    switchFirstChar L fuel 34 c = c.DoubleQuotedString fuel := by
  unfold switchFirstChar
  simp

end Cursor

/-- The token of a string literal: `Tokenize` of a double quote followed by `body` returns
one `Literal` token when `DoubleQuotedString`, started after the quote, stops at the end of
the input. -/
theorem Tokenize_quote (L : Rune → Bool) (body : GoString)
    (h : Cursor.DoubleQuotedString ((34 :: body).length + 1) ⟨34 :: body, 0 + 1⟩ = none ∨
      Cursor.DoubleQuotedString ((34 :: body).length + 1) ⟨34 :: body, 0 + 1⟩ =
        some (TokenKind.Literal, ⟨34 :: body, 0 + 1 + body.length⟩)) :
    Tokenize L (34 :: body) =
      some [{ Kind := TokenKind.Literal, Len := (34 :: body).length, Literal := 34 :: body }] := by
  have hsome := Cursor.DoubleQuotedString_some ((34 :: body).length + 1) ⟨34 :: body, 0 + 1⟩
    (by simp) (by simp; omega)
  have hex : Cursor.DoubleQuotedString ((34 :: body).length + 1) ⟨34 :: body, 0 + 1⟩ =
      some (TokenKind.Literal, ⟨34 :: body, 0 + 1 + body.length⟩) := by
    rcases h with h | h
    · obtain ⟨c1, e, _⟩ := hsome
      rw [h] at e
      exact Option.noConfusion e
    · exact h
  have hs : Cursor.switchFirstChar L ((34 :: body).length + 1)
      (utf8.DecodeRuneInString (34 :: body)).1
      ⟨34 :: body, 0 + (utf8.DecodeRuneInString (34 :: body)).2⟩ =
      some (TokenKind.Literal, ⟨34 :: body, 0 + 1 + body.length⟩) := by
    rw [utf8.DecodeRuneInString_ascii 34 _ (by decide)]
    exact (Cursor.switchFirstChar_quote L _ _).trans hex
  have h1 := Cursor.AdvanceToken_of_switch L _ (NewCursor (34 :: body)) 34 body _ _ rfl hs
  have h2 := Tokenize_single L (34 :: body) _ _ (by simp) h1 (by simp; omega)
  rw [h2]
  simp only [NewCursor, slice, List.drop_zero, Nat.cast_zero, sub_zero]
  have : List.take (0 + 1 + body.length) (34 :: body) = 34 :: body := by
    apply List.take_of_length_le
    simp
    omega
  rw [this]
  simp
  omega

/-- C16: for every body that is a sequence of units (a character other than the double quote
and the backslash, or a backslash followed by any one character), `Tokenize` of the quote, the
body and the closing quote returns one `Literal` token whose `Literal` is the whole input, and
so does `Tokenize` of the quote and the body without the closing quote. -/
theorem Tokenize_string (L : Rune → Bool) (units : List GoString)
    (hu : ∀ u ∈ units, StringUnit u) :
    Tokenize L (34 :: (units.flatten ++ [34])) =
      some [{ Kind := TokenKind.Literal, Len := (34 :: (units.flatten ++ [34])).length,
              Literal := 34 :: (units.flatten ++ [34]) }] ∧
    Tokenize L (34 :: units.flatten) =
      some [{ Kind := TokenKind.Literal, Len := (34 :: units.flatten).length,
              Literal := 34 :: units.flatten }] := by
  constructor
  · apply Tokenize_quote
    have := Cursor.DoubleQuotedString_closed units hu
      ((34 :: (units.flatten ++ [34])).length + 1) ⟨34 :: (units.flatten ++ [34]), 0 + 1⟩ [] rfl
    simpa using this
  · apply Tokenize_quote
    exact Cursor.DoubleQuotedString_open units hu _ ⟨34 :: units.flatten, 0 + 1⟩ rfl

/-- C16 at the body `a`, backslash quote, backslash backslash, `é` (two bytes), that is at the
inputs `"a\"\\é"` and `"a\"\\é`. -/
theorem Tokenize_string_witness :
    Tokenize noLetterAboveLatin1
        (34 :: (([[97], [92, 34], [92, 92], [195, 169]] : List GoString).flatten ++ [34])) =
      some [{ Kind := TokenKind.Literal,
              Len := (34 :: (([[97], [92, 34], [92, 92], [195, 169]] :
                List GoString).flatten ++ [34])).length,
              Literal := 34 :: (([[97], [92, 34], [92, 92], [195, 169]] :
                List GoString).flatten ++ [34]) }] ∧
    Tokenize noLetterAboveLatin1
        (34 :: ([[97], [92, 34], [92, 92], [195, 169]] : List GoString).flatten) =
      some [{ Kind := TokenKind.Literal,
              Len := (34 :: ([[97], [92, 34], [92, 92], [195, 169]] :
                List GoString).flatten).length,
              Literal := 34 :: ([[97], [92, 34], [92, 92], [195, 169]] :
                List GoString).flatten }] :=
  Tokenize_string noLetterAboveLatin1 [[97], [92, 34], [92, 92], [195, 169]] (by
    intro u hu
    simp only [List.mem_cons, List.mem_singleton, List.not_mem_nil, or_false] at hu
    rcases hu with rfl | rfl | rfl | rfl
    · exact StringUnit.plain _ 97 ⟨by simp, fun _ => rfl⟩ (by decide) (by decide)
    · exact StringUnit.escape [34] 34 ⟨by simp, fun _ => rfl⟩
    · exact StringUnit.escape [92] 92 ⟨by simp, fun _ => rfl⟩
    · exact StringUnit.plain _ 233 ⟨by simp, fun _ => rfl⟩ (by decide) (by decide))

end lexer

/-! ## What a loop returns, whatever the fuel -/

namespace lexer

/-- A property of the result with enough fuel is a property of every result. -/
theorem result_of_some_mono {β : Type} (f : Nat → Option β) (P : β → Prop) (N : Nat)
    (hsome : ∀ n, N ≤ n → ∃ r, f n = some r ∧ P r)
    (hmono : ∀ n m r, n ≤ m → f n = some r → f m = some r)
    (fuel : Nat) (r : β) (h : f fuel = some r) : P r := by
  obtain ⟨r1, e, p⟩ := hsome (max fuel N) (le_max_right _ _)
  have := hmono fuel (max fuel N) r (le_max_left _ _) h
  rw [this] at e
  injection e with e
  subst e
  exact p

namespace Cursor

theorem LineComment_result (fuel : Nat) (c : Cursor) (r : TokenKind × Cursor)
    (hv : c.pos ≤ c.input.length) (h : c.LineComment fuel = some r) :
    r.1 = TokenKind.LineComment ∧ Le c r.2 :=
  result_of_some_mono (fun n => c.LineComment n)
    (fun r => r.1 = TokenKind.LineComment ∧ Le c r.2) (c.input.length - c.pos + 1)
    (fun n hn => by
      obtain ⟨c1, e, l⟩ := LineComment_some n c hv (by omega)
      exact ⟨_, e, rfl, l⟩)
    (fun n m r hle h => LineComment_mono n m c r hle h) fuel r h

theorem BlockCommentLoop_result (fuel : Nat) (d : Int) (c : Cursor) (r : Cursor)
    (hv : c.pos ≤ c.input.length) (h : c.BlockCommentLoop fuel d = some r) : Le c r :=
  result_of_some_mono (fun n => c.BlockCommentLoop n d) (fun r => Le c r)
    (c.input.length - c.pos + 1)
    (fun n hn => BlockCommentLoop_some n d c hv (by omega))
    (fun n m r hle h => BlockCommentLoop_mono n m d c r hle h) fuel r h

theorem Whitespace_result (fuel : Nat) (c : Cursor) (r : TokenKind × Cursor)
    (hv : c.pos ≤ c.input.length) (h : c.Whitespace fuel = some r) :
    r.1 = TokenKind.Whitespace ∧ Le c r.2 :=
  result_of_some_mono (fun n => c.Whitespace n)
    (fun r => r.1 = TokenKind.Whitespace ∧ Le c r.2) (c.input.length - c.pos + 1)
    (fun n hn => by
      obtain ⟨c1, e, l⟩ := Whitespace_some n c hv (by omega)
      exact ⟨_, e, rfl, l⟩)
    (fun n m r hle h => Whitespace_mono n m c r hle h) fuel r h

theorem RawIdentLoop_result (L : Rune → Bool) (fuel : Nat) (c : Cursor) (r : TokenKind × Cursor)
    (hv : c.pos ≤ c.input.length) (h : c.RawIdentLoop L fuel = some r) :
    r.1 = TokenKind.RawIdent ∧ Le c r.2 :=
  result_of_some_mono (fun n => c.RawIdentLoop L n)
    (fun r => r.1 = TokenKind.RawIdent ∧ Le c r.2) (c.input.length - c.pos + 1)
    (fun n hn => by
      obtain ⟨c1, e, l⟩ := RawIdentLoop_some L n c hv (by omega)
      exact ⟨_, e, rfl, l⟩)
    (fun n m r hle h => RawIdentLoop_mono L n m c r hle h) fuel r h

theorem IdentOrUnknownPrefix_result (L : Rune → Bool) (fuel : Nat) (c : Cursor)
    (r : TokenKind × Cursor) (hv : c.pos ≤ c.input.length)
    (h : c.IdentOrUnknownPrefix L fuel = some r) :
    r.1 = TokenKind.Ident ∧ Le c r.2 :=
  result_of_some_mono (fun n => c.IdentOrUnknownPrefix L n)
    (fun r => r.1 = TokenKind.Ident ∧ Le c r.2) (c.input.length - c.pos + 1)
    (fun n hn => by
      obtain ⟨c1, e, l⟩ := IdentOrUnknownPrefix_some L n c hv (by omega)
      exact ⟨_, e, rfl, l⟩)
    (fun n m r hle h => IdentOrUnknownPrefix_mono L n m c r hle h) fuel r h

theorem DoubleQuotedString_result (fuel : Nat) (c : Cursor) (r : TokenKind × Cursor)
    (hv : c.pos ≤ c.input.length) (h : c.DoubleQuotedString fuel = some r) :
    r.1 = TokenKind.Literal ∧ Le c r.2 :=
  result_of_some_mono (fun n => c.DoubleQuotedString n)
    (fun r => r.1 = TokenKind.Literal ∧ Le c r.2) (c.input.length - c.pos + 1)
    (fun n hn => by
      obtain ⟨c1, e, l⟩ := DoubleQuotedString_some n c hv (by omega)
      exact ⟨_, e, rfl, l⟩)
    (fun n m r hle h => DoubleQuotedString_mono n m c r hle h) fuel r h

theorem switchFirstChar_result (L : Rune → Bool) (fuel : Nat) (ch : Rune) (c : Cursor)
    (r : TokenKind × Cursor) (hv : c.pos ≤ c.input.length)
    (h : switchFirstChar L fuel ch c = some r) : r.1 ≠ TokenKind.Eof ∧ Le c r.2 :=
  result_of_some_mono (fun n => switchFirstChar L n ch c)
    (fun r => r.1 ≠ TokenKind.Eof ∧ Le c r.2) (c.input.length - c.pos + 1)
    (fun n hn => by
      obtain ⟨k, c1, e, hk, l⟩ := switchFirstChar_some L n ch c hv (by omega)
      exact ⟨_, e, hk, l⟩)
    (fun n m r hle h => switchFirstChar_mono L n m ch c hle r h) fuel r h

/-! ## A token read alone -/

theorem Le.rest_le {c c1 : Cursor} (h : Le c c1) : c1.rest.length ≤ c.rest.length := by
  obtain ⟨h1, h2, h3⟩ := h
  rw [Cursor.rest_length, Cursor.rest_length, h1]
  omega

theorem Le.valid {c c1 : Cursor} (h : Le c c1) : c1.pos ≤ c1.input.length := by
  obtain ⟨h1, h2, h3⟩ := h
  rw [h1]
  exact h3

theorem First_eq_Bump (c : Cursor) : c.First = c.Bump.1 := by
  unfold First Bump
  split_ifs <;> rfl

theorem Bump_valid (c : Cursor) (h : c.pos ≤ c.input.length) :
    c.Bump.2.pos ≤ c.Bump.2.input.length := (Bump_inv c h).1

/-- A `Bump` that stays inside the token gives the same rune on the token alone. -/
theorem Sim.Bump {tail : GoString} {c c1 : Cursor} (h : Sim tail c c1)
    (hw : tail.length ≤ c.Bump.2.rest.length) :
    c1.Bump.1 = c.Bump.1 ∧ Sim tail c.Bump.2 c1.Bump.2 := by
  obtain ⟨hr, hv, hv1⟩ := h
  cases h1 : c1.rest with
  | nil =>
    rw [h1, List.nil_append] at hr
    cases ht : tail with
    | nil =>
      rw [ht] at hr
      rw [Bump_of_rest_nil c hr, Bump_of_rest_nil c1 h1]
      exact ⟨rfl, by simp [hr, h1], hv, hv1⟩
    | cons b t =>
      exfalso
      rw [ht] at hr
      have hsz := utf8.DecodeRuneInString_size (b :: t) (by simp)
      rw [Bump_of_rest_cons c b t hr, rest_advance, hr, List.length_drop, ht] at hw
      omega
  | cons b t =>
    rw [h1, List.cons_append] at hr
    have hsz := utf8.DecodeRuneInString_size (b :: (t ++ tail)) (by simp)
    have hb := Bump_of_rest_cons c b (t ++ tail) hr
    have hd : utf8.DecodeRuneInString (b :: t) = utf8.DecodeRuneInString (b :: (t ++ tail)) := by
      have hfit : (utf8.DecodeRuneInString (b :: (t ++ tail))).2 ≤ (b :: t).length := by
        rw [hb, rest_advance, hr, List.length_drop] at hw
        generalize (utf8.DecodeRuneInString (b :: (t ++ tail))).2 = n at hw hsz
        simp only [List.length_cons, List.length_append] at hw hsz ⊢
        omega
      exact utf8.DecodeRuneInString_of_append (b :: t) tail
        (utf8.DecodeRuneInString (b :: (t ++ tail))).1
        (utf8.DecodeRuneInString (b :: (t ++ tail))).2 (by simp) rfl hfit
    have hb1 := Bump_of_rest_cons c1 b t h1
    rw [hd] at hb1
    have hn : (utf8.DecodeRuneInString (b :: (t ++ tail))).2 ≤ (b :: t).length := by
      rw [← hd]
      exact (utf8.DecodeRuneInString_size (b :: t) (by simp)).2
    refine ⟨by rw [hb, hb1], ?_, Bump_valid c hv, Bump_valid c1 hv1⟩
    rw [hb, hb1, rest_advance, rest_advance, hr, h1, ← List.cons_append]
    exact List.drop_append_of_le_length hn

/-- When the cursor in the whole input stands where the token ends, the cursor on the token
alone stands at its end. -/
theorem Sim.rest_nil {tail : GoString} {c c1 : Cursor} (h : Sim tail c c1)
    (hl : c.rest.length = tail.length) : c1.rest = [] := by
  have := congrArg List.length h.1
  rw [List.length_append] at this
  exact List.length_eq_zero.1 (by omega)

end Cursor
end lexer

/-! ## The loops of the lexer on a token read alone -/

namespace lexer
namespace Cursor

theorem LineComment_le_bump (fuel : Nat) (c : Cursor) (r : TokenKind × Cursor)
    (hv : c.pos ≤ c.input.length) (h : c.LineComment fuel = some r) : Le c.Bump.2 r.2 := by
  cases fuel with
  | zero => simp [LineComment] at h
  | succ n =>
    unfold LineComment at h
    simp only [] at h
    split_ifs at h
    · injection h with h
      subst h
      exact Le.refl _ (Bump_valid c hv)
    · exact (LineComment_result n _ r (Bump_valid c hv) h).2

theorem LineComment_stable (tail : GoString) (fuel : Nat) (c c1 : Cursor)
    (hs : Sim tail c c1) : Stable tail (c.LineComment fuel) (c1.LineComment fuel) := by
  induction fuel generalizing c c1 with
  | zero => intro k cf h; simp [LineComment] at h
  | succ n ih =>
    intro k cf h hl
    have hw : tail.length ≤ c.Bump.2.rest.length := by
      rw [← hl]
      exact (LineComment_le_bump _ c _ hs.2.1 h).rest_le
    obtain ⟨hb, hs1⟩ := hs.Bump hw
    unfold LineComment at h ⊢
    simp only [] at h ⊢
    rw [hb]
    by_cases hc : (!c.Bump.1.2 || decide (c.Bump.1.1 = 10)) = true
    · rw [if_pos hc] at h ⊢
      injection h with h
      injection h with hk hcf
      subst hk hcf
      exact ⟨_, rfl, hs1.rest_nil hl⟩
    · rw [if_neg hc] at h ⊢
      exact ih _ _ hs1 k cf h hl

theorem Whitespace_stable (tail : GoString) (fuel : Nat) (c c1 : Cursor)
    (hs : Sim tail c c1) : Stable tail (c.Whitespace fuel) (c1.Whitespace fuel) := by
  induction fuel generalizing c c1 with
  | zero => intro k cf h; simp [Whitespace] at h
  | succ n ih =>
    intro k cf h hl
    unfold Whitespace at h ⊢
    simp only [] at h ⊢
    by_cases hc : (!c.First.2 || !unicode.IsSpace c.First.1) = true
    · rw [if_pos hc] at h
      injection h with h
      injection h with hk hcf
      subst hk hcf
      have hnil := hs.rest_nil hl
      rw [First_of_rest_nil c1 hnil]
      exact ⟨_, rfl, hnil⟩
    · rw [if_neg hc] at h
      have hw : tail.length ≤ c.Bump.2.rest.length := by
        rw [← hl]
        exact (Whitespace_result n _ _ (Bump_valid c hs.2.1) h).2.rest_le
      obtain ⟨hb, hs1⟩ := hs.Bump hw
      rw [First_eq_Bump c1, hb, ← First_eq_Bump c, if_neg hc]
      exact ih _ _ hs1 k cf h hl

theorem RawIdentLoop_stable (L : Rune → Bool) (tail : GoString) (fuel : Nat) (c c1 : Cursor)
    (hs : Sim tail c c1) : Stable tail (c.RawIdentLoop L fuel) (c1.RawIdentLoop L fuel) := by
  induction fuel generalizing c c1 with
  | zero => intro k cf h; simp [RawIdentLoop] at h
  | succ n ih =>
    intro k cf h hl
    unfold RawIdentLoop at h ⊢
    simp only [] at h ⊢
    by_cases hc : (!c.First.2 || !unicode.IsLetter L c.First.1) = true
    · rw [if_pos hc] at h
      injection h with h
      injection h with hk hcf
      subst hk hcf
      have hnil := hs.rest_nil hl
      rw [First_of_rest_nil c1 hnil]
      exact ⟨_, rfl, hnil⟩
    · rw [if_neg hc] at h
      have hw : tail.length ≤ c.Bump.2.rest.length := by
        rw [← hl]
        exact (RawIdentLoop_result L n _ _ (Bump_valid c hs.2.1) h).2.rest_le
      obtain ⟨hb, hs1⟩ := hs.Bump hw
      rw [First_eq_Bump c1, hb, ← First_eq_Bump c, if_neg hc]
      exact ih _ _ hs1 k cf h hl

theorem IdentOrUnknownPrefix_stable (L : Rune → Bool) (tail : GoString) (fuel : Nat)
    (c c1 : Cursor) (hs : Sim tail c c1) :
    Stable tail (c.IdentOrUnknownPrefix L fuel) (c1.IdentOrUnknownPrefix L fuel) := by
  induction fuel generalizing c c1 with
  | zero => intro k cf h; simp [IdentOrUnknownPrefix] at h
  | succ n ih =>
    intro k cf h hl
    unfold IdentOrUnknownPrefix at h ⊢
    simp only [] at h ⊢
    by_cases hc : (!c.First.2 || !unicode.IsLetter L c.First.1) = true
    · rw [if_pos hc] at h
      injection h with h
      injection h with hk hcf
      subst hk hcf
      have hnil := hs.rest_nil hl
      rw [First_of_rest_nil c1 hnil]
      exact ⟨_, rfl, hnil⟩
    · rw [if_neg hc] at h
      have hw : tail.length ≤ c.Bump.2.rest.length := by
        rw [← hl]
        exact (IdentOrUnknownPrefix_result L n _ _ (Bump_valid c hs.2.1) h).2.rest_le
      obtain ⟨hb, hs1⟩ := hs.Bump hw
      rw [First_eq_Bump c1, hb, ← First_eq_Bump c, if_neg hc]
      exact ih _ _ hs1 k cf h hl

theorem DoubleQuotedString_le_bump (fuel : Nat) (c : Cursor) (r : TokenKind × Cursor)
    (hv : c.pos ≤ c.input.length) (h : c.DoubleQuotedString fuel = some r) :
    Le c.Bump.2 r.2 := by
  cases fuel with
  | zero => simp [DoubleQuotedString] at h
  | succ n =>
    unfold DoubleQuotedString at h
    simp only [] at h
    have hv1 := Bump_valid c hv
    split_ifs at h
    · injection h with h
      subst h
      exact Le.refl _ hv1
    · exact (Bump_Le _ hv1).trans (DoubleQuotedString_result n _ r (Bump_valid _ hv1) h).2
    · exact (DoubleQuotedString_result n _ r hv1 h).2

theorem DoubleQuotedString_stable (tail : GoString) (fuel : Nat) (c c1 : Cursor)
    (hs : Sim tail c c1) :
    Stable tail (c.DoubleQuotedString fuel) (c1.DoubleQuotedString fuel) := by
  induction fuel generalizing c c1 with
  | zero => intro k cf h; simp [DoubleQuotedString] at h
  | succ n ih =>
    intro k cf h hl
    have hw : tail.length ≤ c.Bump.2.rest.length := by
      rw [← hl]
      exact (DoubleQuotedString_le_bump _ c _ hs.2.1 h).rest_le
    obtain ⟨hb, hs1⟩ := hs.Bump hw
    unfold DoubleQuotedString at h ⊢
    simp only [] at h ⊢
    rw [hb]
    by_cases hc : (!c.Bump.1.2 || decide (c.Bump.1.1 = 34)) = true
    · rw [if_pos hc] at h ⊢
      injection h with h
      injection h with hk hcf
      subst hk hcf
      exact ⟨_, rfl, hs1.rest_nil hl⟩
    · rw [if_neg hc] at h ⊢
      by_cases he : c.Bump.1.1 = 92
      · rw [if_pos he] at h ⊢
        have hw2 : tail.length ≤ c.Bump.2.Bump.2.rest.length := by
          rw [← hl]
          exact (DoubleQuotedString_result n _ _ (Bump_valid _ hs1.2.1) h).2.rest_le
        obtain ⟨_, hs2⟩ := hs1.Bump hw2
        exact ih _ _ hs2 k cf h hl
      · rw [if_neg he] at h ⊢
        exact ih _ _ hs1 k cf h hl

theorem BlockCommentLoop_le_bump (fuel : Nat) (d : Int) (c cf : Cursor)
    (hv : c.pos ≤ c.input.length) (hd : d > 0) (h : c.BlockCommentLoop fuel d = some cf) :
    Le c.Bump.2 cf := by
  cases fuel with
  | zero => simp [BlockCommentLoop] at h
  | succ n =>
    unfold BlockCommentLoop at h
    simp only [hd, if_true] at h
    have hv1 := Bump_valid c hv
    have hv2 := Bump_valid _ hv1
    split_ifs at h
    all_goals first
      | (injection h with h; subst h; exact Le.refl _ hv1)
      | exact (Bump_Le _ hv1).trans (BlockCommentLoop_result n _ _ cf hv2 h)
      | exact BlockCommentLoop_result n _ _ cf hv1 h

theorem BlockCommentLoop_stable (tail : GoString) (fuel : Nat) (d : Int) (c c1 cf : Cursor)
    (hs : Sim tail c c1) (h : c.BlockCommentLoop fuel d = some cf)
    (hl : cf.rest.length = tail.length) :
    ∃ cf1, c1.BlockCommentLoop fuel d = some cf1 ∧ cf1.rest = [] := by
  induction fuel generalizing d c c1 with
  | zero => simp [BlockCommentLoop] at h
  | succ n ih =>
    by_cases hd : d > 0
    · have hw : tail.length ≤ c.Bump.2.rest.length := by
        rw [← hl]
        exact (BlockCommentLoop_le_bump _ d c cf hs.2.1 hd h).rest_le
      obtain ⟨hb, hs1⟩ := hs.Bump hw
      have hfirst : ∀ d1, c.Bump.2.BlockCommentLoop n d1 = some cf → d1 > 0 →
          c1.Bump.2.First = c.Bump.2.First := by
        intro d1 h1 hd1
        have hw2 : tail.length ≤ c.Bump.2.Bump.2.rest.length := by
          rw [← hl]
          exact (BlockCommentLoop_le_bump _ d1 _ cf hs1.2.1 hd1 h1).rest_le
        rw [First_eq_Bump, First_eq_Bump, (hs1.Bump hw2).1]
      have hnext : ∀ d1, c.Bump.2.Bump.2.BlockCommentLoop n d1 = some cf →
          c1.Bump.2.First = c.Bump.2.First ∧ Sim tail c.Bump.2.Bump.2 c1.Bump.2.Bump.2 := by
        intro d1 h1
        have hw2 : tail.length ≤ c.Bump.2.Bump.2.rest.length := by
          rw [← hl]
          exact (BlockCommentLoop_result n d1 _ cf (Bump_valid _ hs1.2.1) h1).rest_le
        obtain ⟨e, hs2⟩ := hs1.Bump hw2
        exact ⟨by rw [First_eq_Bump, First_eq_Bump, e], hs2⟩
      unfold BlockCommentLoop at h ⊢
      simp only [hd, if_true] at h ⊢
      rw [hb]
      by_cases hok : (!c.Bump.1.2) = true
      · rw [if_pos hok] at h ⊢
        injection h with h
        subst h
        exact ⟨_, rfl, hs1.rest_nil hl⟩
      · rw [if_neg hok] at h ⊢
        by_cases h42 : c.Bump.1.1 = 42
        · rw [if_pos h42] at h ⊢
          by_cases hc : (c.Bump.2.First.2 && decide (c.Bump.2.First.1 = 47)) = true
          · rw [if_pos hc] at h
            obtain ⟨e, hs2⟩ := hnext _ h
            rw [e, if_pos hc]
            exact ih _ _ _ hs2 h
          · rw [if_neg hc] at h
            rw [hfirst d h hd, if_neg hc]
            exact ih _ _ _ hs1 h
        · rw [if_neg h42] at h ⊢
          by_cases h47 : c.Bump.1.1 = 47
          · rw [if_pos h47] at h ⊢
            by_cases hc : (c.Bump.2.First.2 && decide (c.Bump.2.First.1 = 42)) = true
            · rw [if_pos hc] at h
              obtain ⟨e, hs2⟩ := hnext _ h
              rw [e, if_pos hc]
              exact ih _ _ _ hs2 h
            · rw [if_neg hc] at h
              rw [hfirst d h hd, if_neg hc]
              exact ih _ _ _ hs1 h
          · rw [if_neg h47] at h ⊢
            exact ih _ _ _ hs1 h
    · unfold BlockCommentLoop at h ⊢
      simp only [hd, if_false] at h ⊢
      injection h with h
      subst h
      exact ⟨_, rfl, hs.rest_nil hl⟩

theorem BlockComment_stable (tail : GoString) (fuel : Nat) (c c1 : Cursor)
    (hs : Sim tail c c1) : Stable tail (c.BlockComment fuel) (c1.BlockComment fuel) := by
  intro k cf h hl
  unfold BlockComment at h ⊢
  cases h1 : c.BlockCommentLoop fuel 1 with
  | none => rw [h1] at h; simp at h
  | some x =>
    rw [h1] at h
    simp only [Option.map_some', Option.some.injEq, Prod.mk.injEq] at h
    obtain ⟨hk, hx⟩ := h
    subst hk hx
    obtain ⟨cf1, e, hn⟩ := BlockCommentLoop_stable tail fuel 1 c c1 x hs h1 hl
    exact ⟨cf1, by rw [e]; rfl, hn⟩

theorem RawIdent_stable (L : Rune → Bool) (tail : GoString) (fuel : Nat) (c c1 : Cursor)
    (hs : Sim tail c c1) : Stable tail (c.RawIdent L fuel) (c1.RawIdent L fuel) := by
  intro k cf h hl
  unfold RawIdent at h ⊢
  have hw : tail.length ≤ c.Bump.2.rest.length := by
    rw [← hl]
    exact (RawIdentLoop_result L fuel _ _ (Bump_valid c hs.2.1) h).2.rest_le
  exact RawIdentLoop_stable L tail fuel _ _ (hs.Bump hw).2 k cf h hl

end Cursor
end lexer

/-! ## The `switch` of `AdvanceToken` on a token read alone -/

namespace lexer
namespace Cursor

theorem Stable.branch {tail : GoString} {p : Prop} [Decidable p]
    {a b a1 b1 : Option (TokenKind × Cursor)} (ha : Stable tail a a1) (hb : Stable tail b b1) :
    Stable tail (if p then a else b) (if p then a1 else b1) := by
  split_ifs <;> assumption

theorem Stable.stay {tail : GoString} {c c1 : Cursor} (hs : Sim tail c c1) (k : TokenKind) :
    Stable tail (some (k, c)) (some (k, c1)) := by
  intro k1 cf h hl
  injection h with h
  injection h with hk hcf
  subst hk hcf
  exact ⟨c1, rfl, hs.rest_nil hl⟩

theorem IdentOrUnknownPrefix_stop_or_bump (L : Rune → Bool) (fuel : Nat) (c : Cursor)
    (r : TokenKind × Cursor) (hv : c.pos ≤ c.input.length)
    (h : c.IdentOrUnknownPrefix L fuel = some r) : r.2 = c ∨ Le c.Bump.2 r.2 := by
  cases fuel with
  | zero => simp [IdentOrUnknownPrefix] at h
  | succ n =>
    unfold IdentOrUnknownPrefix at h
    simp only [] at h
    split_ifs at h
    · injection h with h
      subst h
      exact Or.inl rfl
    · exact Or.inr (IdentOrUnknownPrefix_result L n _ r (Bump_valid c hv) h).2

/-- The case `/` of the `switch`. -/
theorem slash_stable (tail : GoString) (fuel : Nat) (c c1 : Cursor) (hs : Sim tail c c1) :
    Stable tail
      (if (c.First.2 && decide (c.First.1 = 47)) = true then c.LineComment fuel
        else if c.First.1 = 42 then c.BlockComment fuel else some (TokenKind.Slash, c))
      (if (c1.First.2 && decide (c1.First.1 = 47)) = true then c1.LineComment fuel
        else if c1.First.1 = 42 then c1.BlockComment fuel else some (TokenKind.Slash, c1)) := by
  intro k cf h hl
  by_cases hA : (c.First.2 && decide (c.First.1 = 47)) = true
  · rw [if_pos hA] at h
    have hw : tail.length ≤ c.Bump.2.rest.length := by
      rw [← hl]
      exact (LineComment_le_bump _ c _ hs.2.1 h).rest_le
    rw [First_eq_Bump c1, (hs.Bump hw).1, ← First_eq_Bump c, if_pos hA]
    exact LineComment_stable tail fuel c c1 hs k cf h hl
  · rw [if_neg hA] at h
    by_cases hB : c.First.1 = 42
    · rw [if_pos hB] at h
      have hw : tail.length ≤ c.Bump.2.rest.length := by
        rw [← hl]
        unfold BlockComment at h
        cases h1 : c.BlockCommentLoop fuel 1 with
        | none => rw [h1] at h; simp at h
        | some x =>
          rw [h1] at h
          simp only [Option.map_some', Option.some.injEq, Prod.mk.injEq] at h
          rw [← h.2]
          exact (BlockCommentLoop_le_bump fuel 1 c x hs.2.1 (by decide) h1).rest_le
      rw [First_eq_Bump c1, (hs.Bump hw).1, ← First_eq_Bump c, if_neg hA, if_pos hB]
      exact BlockComment_stable tail fuel c c1 hs k cf h hl
    · rw [if_neg hB] at h
      injection h with h
      injection h with hk hcf
      subst hk hcf
      have hnil := hs.rest_nil hl
      rw [First_of_rest_nil c1 hnil]
      exact ⟨c1, rfl, hnil⟩

/-- The case `r` of the `switch`. -/
theorem r_stable (L : Rune → Bool) (tail : GoString) (fuel : Nat) (c c1 : Cursor)
    (hs : Sim tail c c1) :
    Stable tail
      (if (c.First.2 && decide (c.First.1 = 35)) = true then c.RawIdent L fuel
        else c.IdentOrUnknownPrefix L fuel)
      (if (c1.First.2 && decide (c1.First.1 = 35)) = true then c1.RawIdent L fuel
        else c1.IdentOrUnknownPrefix L fuel) := by
  intro k cf h hl
  by_cases hA : (c.First.2 && decide (c.First.1 = 35)) = true
  · rw [if_pos hA] at h
    have hw : tail.length ≤ c.Bump.2.rest.length := by
      rw [← hl]
      exact (RawIdentLoop_result L fuel _ _ (Bump_valid c hs.2.1) h).2.rest_le
    rw [First_eq_Bump c1, (hs.Bump hw).1, ← First_eq_Bump c, if_pos hA]
    exact RawIdent_stable L tail fuel c c1 hs k cf h hl
  · rw [if_neg hA] at h
    have hcond : ¬ (c1.First.2 && decide (c1.First.1 = 35)) = true := by
      rcases IdentOrUnknownPrefix_stop_or_bump L fuel c _ hs.2.1 h with e | e
      · simp only [] at e
        subst e
        rw [First_of_rest_nil c1 (hs.rest_nil hl)]
        simp
      · have hw : tail.length ≤ c.Bump.2.rest.length := by
          rw [← hl]
          exact e.rest_le
        rw [First_eq_Bump c1, (hs.Bump hw).1, ← First_eq_Bump c]
        exact hA
    rw [if_neg hcond]
    exact IdentOrUnknownPrefix_stable L tail fuel c c1 hs k cf h hl

/-- The `switch` of `AdvanceToken`, on a token read alone. -/
theorem switchFirstChar_stable (L : Rune → Bool) (tail : GoString) (fuel : Nat) (ch : Rune)
    (c c1 : Cursor) (hs : Sim tail c c1) :
    Stable tail (switchFirstChar L fuel ch c) (switchFirstChar L fuel ch c1) := by
  have r1 := slash_stable tail fuel c c1 hs
  have r2 := r_stable L tail fuel c c1 hs
  have r3 := Whitespace_stable tail fuel c c1 hs
  have r4 := IdentOrUnknownPrefix_stable L tail fuel c c1 hs
  have r5 := DoubleQuotedString_stable tail fuel c c1 hs
  unfold switchFirstChar
  repeat' first
    | exact r1 | exact r2 | exact r3 | exact r4 | exact r5
    | exact Stable.stay hs _
    | apply Stable.branch

end Cursor
end lexer

/-! ## Tokenizing a token again -/

namespace lexer

/-- `AdvanceToken` on a token read alone returns the same kind and ends at the end. -/
theorem Cursor.AdvanceToken_stable (L : Rune → Bool) (tail : GoString) (fuel : Nat)
    (c c1 : Cursor) (tok : Token) (cf : Cursor) (hs : Cursor.Sim tail c c1)
    (h : c.AdvanceToken L fuel = some (tok, cf)) (hk : tok.Kind ≠ TokenKind.Eof)
    (hl : cf.rest.length = tail.length) :
    ∃ cf1, c1.AdvanceToken L fuel =
        some ({ Kind := tok.Kind, Len := (cf1.pos : Int) - (c1.pos : Int),
                Literal := slice cf1.input c1.pos cf1.pos }, cf1) ∧ cf1.rest = [] := by
  unfold Cursor.AdvanceToken at h
  simp only [] at h
  by_cases hok : (!c.Bump.1.2) = true
  · rw [if_pos hok] at h
    injection h with h
    injection h with h1 h2
    subst h1
    exact absurd rfl hk
  · rw [if_neg hok] at h
    cases hsw : Cursor.switchFirstChar L fuel c.Bump.1.1 c.Bump.2 with
    | none => rw [hsw] at h; simp at h
    | some kc =>
      obtain ⟨k, cf0⟩ := kc
      rw [hsw] at h
      simp only [Option.some.injEq, Prod.mk.injEq] at h
      obtain ⟨h1, h2⟩ := h
      subst h2
      have hw : tail.length ≤ c.Bump.2.rest.length := by
        rw [← hl]
        exact (Cursor.switchFirstChar_result L fuel _ _ _ (Cursor.Bump_valid c hs.2.1)
          hsw).2.rest_le
      obtain ⟨hb, hs1⟩ := hs.Bump hw
      obtain ⟨cf1, e, hn⟩ := Cursor.switchFirstChar_stable L tail fuel c.Bump.1.1 _ _ hs1
        k cf0 hsw hl
      refine ⟨cf1, ?_, hn⟩
      unfold Cursor.AdvanceToken
      simp only []
      rw [hb, if_neg hok, e, ← h1]

/-- Every token that the loop of `Tokenize` returns was there before or is read by
`AdvanceToken` at a position inside the input. -/
theorem TokenizeLoop_mem (L : Rune → Bool) (fuel n : Nat) (c : Cursor) (acc r : List Token)
    (hv : c.pos ≤ c.input.length) (hF : c.input.length ≤ fuel)
    (h : TokenizeLoop L fuel n c acc = some r) (t : Token) (ht : t ∈ r) :
    t ∈ acc ∨ ∃ c0 cf : Cursor, c0.input = c.input ∧ c0.pos < c0.input.length ∧
      c0.AdvanceToken L fuel = some (t, cf) := by
  induction n generalizing c acc with
  | zero => simp [TokenizeLoop] at h
  | succ n ih =>
    unfold TokenizeLoop at h
    by_cases hlt : c.pos < c.input.length
    · obtain ⟨k, c1, e, hk, hi, hp, hq⟩ := Cursor.AdvanceToken_some L fuel c hlt (by omega)
      rw [e] at h
      simp only [hk, if_false] at h
      rcases ih c1 _ (by rw [hi]; exact hq) (by rw [hi]; exact hF) h with h1 | ⟨c0, cf, h1, h2, h3⟩
      · rcases List.mem_append.1 h1 with h1 | h1
        · exact Or.inl h1
        · rw [List.mem_singleton] at h1
          exact Or.inr ⟨c, c1, rfl, hlt, by rw [e, h1]⟩
      · exact Or.inr ⟨c0, cf, h1.trans hi, h2, h3⟩
    · rw [Cursor.AdvanceToken_eof L fuel c (by omega)] at h
      simp only [if_true] at h
      injection h with h
      subst h
      exact Or.inl ht

/-- C19: for every input and every token of the sequence that `Tokenize` returns for it,
`Tokenize` applied to the `Literal` of the token alone returns exactly that token: same
`Kind`, same `Len`, same `Literal`. -/
theorem Tokenize_retokenize (L : Rune → Bool) (s : GoString) (toks : List Token)
    (h : Tokenize L s = some toks) (t : Token) (ht : t ∈ toks) :
    Tokenize L t.Literal = some [t] := by
  rcases TokenizeLoop_mem L (s.length + 1) (s.length + 1) (NewCursor s) [] toks
    (Nat.zero_le _) (Nat.le_succ _) h t ht with h0 | ⟨c0, cf, hi, hlt, hadv⟩
  · exact absurd h0 (List.not_mem_nil _)
  · have hi0 : c0.input = s := hi
    obtain ⟨k, c1, e, hk, hi1, hp, hq⟩ :=
      Cursor.AdvanceToken_some L (s.length + 1) c0 hlt (by rw [hi0]; omega)
    rw [hadv] at e
    injection e with e
    injection e with e1 e2
    subst e2
    subst e1
    simp only []
    -- the token alone
    have hlen : (slice c0.input c0.pos cf.pos).length = cf.pos - c0.pos := by
      simp [slice]; omega
    have hne : slice c0.input c0.pos cf.pos ≠ [] := by
      intro h0
      rw [h0] at hlen
      simp at hlen
      omega
    have hsim : Cursor.Sim (c0.input.drop cf.pos) c0 (NewCursor (slice c0.input c0.pos cf.pos)) := by
      refine ⟨?_, le_of_lt hlt, Nat.zero_le _⟩
      simp only [Cursor.rest, NewCursor, List.drop_zero]
      exact (slice_append_drop c0.input c0.pos cf.pos (le_of_lt hp) hq).symm
    have hl : cf.rest.length = (c0.input.drop cf.pos).length := by
      simp only [Cursor.rest, hi1]
    obtain ⟨cf1, e1, hn⟩ := Cursor.AdvanceToken_stable L _ _ c0 _ _ cf hsim hadv hk hl
    -- the same run with the fuel of `Tokenize` on the token alone
    obtain ⟨k2, c2, e2, _, hi2, _, hq2⟩ :=
      Cursor.AdvanceToken_some L ((slice c0.input c0.pos cf.pos).length + 1)
        (NewCursor (slice c0.input c0.pos cf.pos)) (List.length_pos.2 hne)
        (by simp only [NewCursor]; omega)
    have hle : (slice c0.input c0.pos cf.pos).length + 1 ≤ s.length + 1 := by
      rw [hlen, ← hi0]; omega
    have e3 := Cursor.AdvanceToken_mono L _ _ _ _ hle e2
    rw [e1] at e3
    injection e3 with e3
    injection e3 with e4 e5
    subst e5
    simp only [NewCursor] at hi2 hq2 e4
    have hpos : cf1.pos = (slice c0.input c0.pos cf.pos).length := by
      have := Cursor.rest_length cf1
      rw [hn, hi2] at this
      simp at this
      omega
    have hfin := Tokenize_single L _ _ cf1 hne e2 (by rw [hi2, hpos])
    rw [hfin]
    simp only [Token.mk.injEq] at e4
    obtain ⟨e6, _, _⟩ := e4
    rw [← e6]
    have hlen1 : ((List.drop c0.pos (List.take cf.pos c0.input)).length : Int) =
        (cf.pos : Int) - (c0.pos : Int) := by
      have := hlen
      simp only [slice] at this
      rw [this]
      exact Nat.cast_sub (le_of_lt hp)
    simp only [NewCursor, hi2, hpos, slice, List.drop_zero, List.take_length, Nat.cast_zero,
      sub_zero, hlen1]

/-- C19 at the input `r#ab /*x*/` and its third token, the block comment `/*x*/`. -/
theorem Tokenize_retokenize_witness :
    Tokenize noLetterAboveLatin1 (ascii "r#ab /*x*/") =
      some [{ Kind := TokenKind.RawIdent, Len := 4, Literal := ascii "r#ab" },
            { Kind := TokenKind.Whitespace, Len := 1, Literal := ascii " " },
            { Kind := TokenKind.BlockComment, Len := 5, Literal := ascii "/*x*/" }] ∧
    Tokenize noLetterAboveLatin1 (ascii "/*x*/") =
      some [{ Kind := TokenKind.BlockComment, Len := 5, Literal := ascii "/*x*/" }] :=
  ⟨rfl, Tokenize_retokenize noLetterAboveLatin1 (ascii "r#ab /*x*/")
    [{ Kind := TokenKind.RawIdent, Len := 4, Literal := ascii "r#ab" },
     { Kind := TokenKind.Whitespace, Len := 1, Literal := ascii " " },
     { Kind := TokenKind.BlockComment, Len := 5, Literal := ascii "/*x*/" }] rfl
    { Kind := TokenKind.BlockComment, Len := 5, Literal := ascii "/*x*/" }
    (List.mem_cons_of_mem _ (List.mem_cons_of_mem _ (List.mem_cons_self _ _)))⟩

end lexer
